import Mathlib

/-!
# floaxie: decimal text parser (krosh.h), formatter entry point (ftoa.h) and take_apart.h

A shallow embedding of `parse_digits`, `extract_fraction_digits`,
`parse_mantissa`, `parse_exponent`, `krosh` (krosh.h), `ftoa` (ftoa.h),
`tiny_atoi` and `take_apart` (take_apart.h).

Conventions of the embedding:
* a `const char*` is a function `Nat → Char` (the memory seen from the
  pointer); `str + n` is `advance str n`; a returned `str_end` is the offset
  from the pointer the function was given;
* `diy_fp::mantissa_storage_type` is a 64-bit unsigned integer: a `Nat`
  reduced `% 2 ^ 64` wherever the code adds or multiplies into it;
* the `std::size_t` counters of `parse_digits` are bounded by the number of
  loop iterations (at most `offset + 2`), so they are plain integers;
* code of headers that are not part of the sources at hand (`diy_fp.h`,
  `static_pow.h`, `fraction.h`, `bit_ops.h`, `cached_power.h`, `grisu.h`,
  `prettify.h`) is either modelled from the specification, and marked so, or
  taken as a parameter.
-/

namespace floaxie

/-! ## Constants of krosh.h -/

/-- Width in bits of `diy_fp::mantissa_storage_type`. -/
def mantissa_bits : Nat := 64

/-- Maximum number of decimal digits the mantissa of `diy_fp` can hold:
`bit_size<mantissa_storage_type>() * lg_2`, that is 64 · 0.30103 truncated. -/
def decimal_q : Nat := 19

/-- Maximum number of necessary binary digits of fraction part. -/
def fraction_binary_digits : Nat := 4

/-- Maximum number of decimal digits of fraction part, which can be observed. -/
def fraction_decimal_digits : Nat := 4

/-- Maximum length of input string (2 KB). -/
def offset : Nat := 2048

/-- Maximum number of decimal digits in the exponent value. -/
def exponent_decimal_digits : Nat := 3

/-! ## Character buffers -/

/-- Pointer arithmetic `str + n` on a character buffer. -/
def advance (str : Nat → Char) (n : Nat) : Nat → Char := fun i => str (n + i)

/-- The NUL-terminated buffer holding the characters of `l`. -/
def cstr (l : List Char) : Nat → Char := fun i => l.getD i (Char.ofNat 0)

/-- Assignment `buffer[i] = c`. -/
def poke (buffer : Nat → Char) (i : Nat) (c : Char) : Nat → Char :=
  fun j => if j = i then c else buffer j

/-- The first `n` characters of a buffer, as a list. -/
def chars (str : Nat → Char) (n : Nat) : List Char := (List.range n).map str

/-- The buffer cut at index `n`: the first `n` characters, then NUL. -/
def cut (str : Nat → Char) (n : Nat) : Nat → Char :=
  fun i => if i < n then str i else Char.ofNat 0

/-! ## Parts of absent headers -/

/-- Modelled from the spec: `seq_pow<T, 10, N>(p)` of the absent header
static_pow.h, taken to be `10 ^ p`; the reduction to the width of `T` is done
where the code uses the value. -/
def seq_pow (p : Nat) : Nat := 10 ^ p

/-- Extended-precision binary float of the absent header diy_fp.h: the value
`m_f × 2 ^ m_e`, with a 64-bit mantissa. -/
structure diy_fp where
  m_f : Nat
  m_e : Int
deriving DecidableEq

/-- The shifting loop of `diy_fp::normalize`. -/
def diy_fp.normalize_loop : Nat → diy_fp → diy_fp
  | 0, w => w
  | n + 1, w =>
    if w.m_f / 2 ^ (mantissa_bits - 1) % 2 = 1 then w
    else diy_fp.normalize_loop n ⟨(w.m_f * 2) % 2 ^ mantissa_bits, w.m_e - 1⟩

/-- Modelled from the spec: `diy_fp::normalize()` of the absent header
diy_fp.h, which left-shifts the mantissa and decrements the exponent until the
top bit is set, and fails (is undefined) on a zero mantissa: `none`. -/
def diy_fp.normalize (w : diy_fp) : Option diy_fp :=
  if w.m_f % 2 ^ mantissa_bits = 0 then none
  else some (diy_fp.normalize_loop mantissa_bits ⟨w.m_f % 2 ^ mantissa_bits, w.m_e⟩)

/-- An IEEE-754 binary64 value, by its three bit fields. -/
structure binary64 where
  sign : Bool
  biased_exponent : Nat
  fraction : Nat
deriving DecidableEq

/-- `std::isnan(v)`. -/
def binary64.isnan (v : binary64) : Bool := v.biased_exponent = 2047 && v.fraction ≠ 0

/-- `std::isinf(v)`. -/
def binary64.isinf (v : binary64) : Bool := v.biased_exponent = 2047 && v.fraction = 0

/-- The comparison `v == 0`, true of both zeros. -/
def binary64.eq_zero (v : binary64) : Bool := v.biased_exponent = 0 && v.fraction = 0

/-- The comparison `v < 0`. -/
def binary64.lt_zero (v : binary64) : Bool := v.sign && !v.eq_zero && !v.isnan

/-- Unary minus. -/
def binary64.neg (v : binary64) : binary64 := { v with sign := !v.sign }

/-- Positive zero. -/
def binary64.zero : binary64 := ⟨false, 0, 0⟩

/-- The functions the parser and the formatter call whose code is in headers
that are not at hand; each is a parameter of the embedding. -/
structure deps where
  /-- `convert_numerator<4, 4>` of fraction.h. -/
  convert_numerator : Nat → Nat
  /-- `round_up(frac, lsb_pow).value` of bit_ops.h. -/
  round_up : Nat → Nat → Bool
  /-- `seq_pow<int, 10, 3>(p)` for an index outside `0..2`. -/
  seq_pow_int_outside : Int → Int
  /-- `cached_power(K)` of cached_power.h. -/
  cached_power : Int → diy_fp
  /-- `diy_fp::operator*=`. -/
  mul : diy_fp → diy_fp → diy_fp
  /-- `diy_fp::operator++`. -/
  increment : diy_fp → diy_fp
  /-- `diy_fp::downsample<double>()`: the value and its `is_accurate` flag. -/
  downsample : diy_fp → binary64 × Bool
  /-- `grisu2<alpha, gamma>(v, buffer, &len, &K)` of grisu.h, writing from the
  given index of the buffer: the new buffer, `len` and `K`. -/
  grisu2 : binary64 → (Nat → Char) → Nat → (Nat → Char) × Int × Int
  /-- `prettify<16>(buffer, len, K)` of prettify.h, from the given index. -/
  prettify : (Nat → Char) → Nat → Int → Int → (Nat → Char)

/-- Modelled from the spec: `seq_pow<int, 10, 3>(p)` of the absent header
static_pow.h, taken to be `10 ^ p` for `p` in `0..2`; outside that range the
value is what the parameter gives. -/
def seq_pow_int (X : deps) (p : Int) : Int :=
  if 0 ≤ p ∧ p ≤ 2 then (seq_pow p.toNat : Int) else X.seq_pow_int_outside p

/-- Conversion of an `int` to the 64-bit unsigned type. -/
def uint64_of_int (i : Int) : Nat := (i % 2 ^ 64).toNat

/-- Conversion of a 64-bit unsigned value to `int` (32 bits, two's complement). -/
def int_of_uint64 (n : Nat) : Int :=
  if n % 2 ^ 32 < 2 ^ 31 then (n % 2 ^ 32 : Nat) else ((n % 2 ^ 32 : Nat) : Int) - 2 ^ 32

/-! ## extract_fraction_digits -/

/-- The sum `result += (*rit) * seq_pow(pow++)` over the digits from the last
to the first, in the 64-bit mantissa type: arguments are the digits still to
add (last first), `pow` and `result`. -/
def accumulate : List Nat → Nat → Nat → Nat
  | [], _, result => result
  | d :: rest, pow, result =>
    accumulate rest (pow + 1) ((result + (d * seq_pow pow) % 2 ^ mantissa_bits) % 2 ^ mantissa_bits)

/-- The first loop of `extract_fraction_digits`: copies digits into the
zero-filled array until a non-digit or `kappa` characters. -/
def fraction_digits_fill (str : Nat → Char) : Nat → Nat → List Nat → List Nat
  | 0, _, parsed_digits => parsed_digits
  | n + 1, pos, parsed_digits =>
    let c : Int := ((str pos).toNat : Int) - ('0'.toNat : Int)
    if 0 ≤ c ∧ c ≤ 9 then fraction_digits_fill str n (pos + 1) (parsed_digits.set pos c.toNat)
    else parsed_digits

/-- Extracts up to `kappa` decimal digits from fraction part, as the numerator
over `10 ^ kappa`. -/
def extract_fraction_digits (kappa : Nat) (str : Nat → Char) : Nat :=
  accumulate (fraction_digits_fill str kappa 0 (List.replicate kappa 0)).reverse 0 0

/-! ## parse_digits -/

/-- Return structure for `parse_digits`. -/
structure digit_parse_result where
  value : Nat
  K : Int
  str_end : Nat
  sign : Bool
  frac : Nat
deriving DecidableEq

/-- The local variables of `parse_digits` during its loop (with the two
members of `ret` the loop assigns). -/
structure digit_scan where
  sign : Bool
  frac : Nat
  parsed_digits : List Nat
  dot_set : Bool
  frac_calculated : Bool
  pow_gain : Nat
  zero_substring_length : Nat
  fraction_digits_count : Int
  go_to_beach : Bool
  pos : Nat
deriving DecidableEq

/-- The variables of `parse_digits` before its loop. -/
def digit_scan.start (calc_frac : Bool) : digit_scan :=
  { sign := true, frac := 0, parsed_digits := [], dot_set := false,
    frac_calculated := !calc_frac, pow_gain := 0, zero_substring_length := 0,
    fraction_digits_count := 0, go_to_beach := false, pos := 0 }

/-- One iteration of the loop of `parse_digits`: the `switch` on `str[pos]`,
then `go_to_beach |= pos > offset; ++pos`. -/
def parse_digits_step (X : deps) (kappa : Nat) (str : Nat → Char) (st : digit_scan) :
    digit_scan :=
  let c := str st.pos
  let st1 : digit_scan :=
    if c = '0' then
      if st.parsed_digits ≠ [] ∨ st.dot_set = true then
        { st with
          zero_substring_length := st.zero_substring_length + 1
          pow_gain := st.pow_gain + (if st.dot_set then 0 else 1) }
      else st
    else if c ∈ ['1', '2', '3', '4', '5', '6', '7', '8', '9'] then
      if st.parsed_digits.length + st.zero_substring_length < kappa then
        let st2 : digit_scan :=
          if st.zero_substring_length ≠ 0 then
            { st with
              parsed_digits := st.parsed_digits ++ List.replicate st.zero_substring_length 0
              fraction_digits_count :=
                st.fraction_digits_count + ((st.zero_substring_length : Int) - (st.pow_gain : Int))
              zero_substring_length := 0
              pow_gain := 0 }
          else st
        { st2 with
          parsed_digits := st2.parsed_digits ++ [c.toNat - '0'.toNat]
          fraction_digits_count := st2.fraction_digits_count + (if st.dot_set then 1 else 0) }
      else
        let st2 : digit_scan :=
          if st.frac_calculated = false then
            { st with
              frac := X.convert_numerator
                (extract_fraction_digits fraction_decimal_digits
                  (advance str (st.pos - st.zero_substring_length))) % 256
              frac_calculated := true }
          else st
        { st2 with pow_gain := st2.pow_gain + (if st.dot_set then 0 else 1) }
    else if c = '.' then
      { st with go_to_beach := st.dot_set, dot_set := true }
    else if (c = '-' ∨ c = '+') ∧ st.pos = 0 then
      { st with sign := decide ((('-'.toNat : Int) - (c.toNat : Int)) ≠ 0) }
    else
      { st with go_to_beach := true }
  { st1 with go_to_beach := st1.go_to_beach || decide (st.pos > offset), pos := st.pos + 1 }

/-- The loop `while (!go_to_beach)` of `parse_digits`, with a bound on the
number of iterations. -/
def parse_digits_loop (X : deps) (kappa : Nat) (str : Nat → Char) :
    Nat → digit_scan → digit_scan
  | 0, st => st
  | n + 1, st =>
    if st.go_to_beach then st else parse_digits_loop X kappa str n (parse_digits_step X kappa str st)

/-- Unified method to extract and parse digits in one pass. The loop runs at
most `offset + 2` times and ends with `go_to_beach` set (`loop_ends_stopped`).
`K` is the difference of two `std::size_t` counters converted to `int`; both
stay within `offset + 2` (`counters_bounded`), so the conversion is exact. -/
def parse_digits (X : deps) (kappa : Nat) (calc_frac : Bool) (str : Nat → Char) :
    digit_parse_result :=
  let st := parse_digits_loop X kappa str (offset + 2) (digit_scan.start calc_frac)
  { value := accumulate st.parsed_digits.reverse 0 0
    K := (st.pow_gain : Int) - st.fraction_digits_count
    str_end := st.pos - 1
    sign := st.sign
    frac := st.frac }

/-! ## parse_mantissa, parse_exponent, krosh -/

/-- Return structure for `parse_mantissa`. -/
structure mantissa_parse_result where
  value : diy_fp
  K : Int
  str_end : Nat
  sign : Bool
deriving DecidableEq

/-- The `diy_fp` that `parse_mantissa` builds from the digit scan and calls
`normalize()` on: `diy_fp(digits_parts.value, 0)`. -/
def parse_mantissa_packed (X : deps) (str : Nat → Char) : diy_fp :=
  ⟨(parse_digits X decimal_q true str).value, 0⟩

/-- Tides up results of `parse_digits` for Krosh to use. The result is `none`
where the code is undefined: `normalize()` of a zero mantissa, or a failed
`assert`. -/
def parse_mantissa (X : deps) (str : Nat → Char) : Option mantissa_parse_result :=
  let digits_parts := parse_digits X decimal_q true str
  match (parse_mantissa_packed X str).normalize with
  | none => none
  | some w =>
    if digits_parts.frac ≠ 0 then
      if w.m_e < -4 then none
      else
        let lsb_pow : Nat := (4 + w.m_e).toNat
        let f : Nat := w.m_f ||| (digits_parts.frac >>> lsb_pow)
        let w1 : diy_fp := ⟨f, w.m_e⟩
        let w2 : diy_fp := if X.round_up digits_parts.frac lsb_pow then X.increment w1 else w1
        some { value := w2, K := digits_parts.K, str_end := digits_parts.str_end,
               sign := digits_parts.sign }
    else
      some { value := w, K := digits_parts.K, str_end := digits_parts.str_end,
             sign := digits_parts.sign }

/-- Return structure for `parse_exponent`. -/
structure exponent_parse_result where
  value : Int
  str_end : Nat
deriving DecidableEq

/-- Parses exponent part of the floating point string representation. -/
def parse_exponent (X : deps) (str : Nat → Char) : exponent_parse_result :=
  if str 0 ≠ 'e' ∧ str 0 ≠ 'E' then
    { value := 0, str_end := 0 }
  else
    let digit_parts := parse_digits X exponent_decimal_digits false (advance str 1)
    let value : Int :=
      int_of_uint64 ((digit_parts.value * uint64_of_int (seq_pow_int X digit_parts.K))
        % 2 ^ mantissa_bits)
    { value := if digit_parts.sign = false then -value else value
      str_end := 1 + digit_parts.str_end }

/-- Return structure, containing Krosh algorithm results. -/
structure krosh_result where
  value : binary64
  str_end : Nat
  is_accurate : Bool
deriving DecidableEq

/-- Implements Krosh algorithm, for `FloatType = double`. The result is `none`
where the code is undefined (see `parse_mantissa`). -/
def krosh (X : deps) (str : Nat → Char) : Option krosh_result :=
  match parse_mantissa X str with
  | none => none
  | some mp =>
    let ep := parse_exponent X (advance str mp.str_end)
    let K : Int := mp.K + ep.value
    let w : diy_fp := if K ≠ 0 then X.mul mp.value (X.cached_power K) else mp.value
    match w.normalize with
    | none => none
    | some w1 =>
      let v := X.downsample w1
      some { value := if mp.sign = false then v.1.neg else v.1
             str_end := mp.str_end + ep.str_end
             is_accurate := v.2 }

/-! ## ftoa -/

/-- The formatter entry point `ftoa<double>(v, buffer)`: the buffer after the
call, or `none` where an `assert` fails. -/
def ftoa (X : deps) (v : binary64) (buffer : Nat → Char) : Option (Nat → Char) :=
  if v.isnan ∨ v.isinf then none
  else if v.eq_zero then
    some (poke (poke (poke (poke buffer 0 '0') 1 '.') 2 '0') 3 (Char.ofNat 0))
  else
    let buffer1 := poke buffer 0 '-'
    let start : Nat := if v.lt_zero then 1 else 0
    let g := X.grisu2 v buffer1 start
    some (X.prettify g.1 start g.2.1 g.2.2)

/-! ## take_apart (take_apart.h) -/

/-- The constant `max_buffer_length` of take_apart.h. -/
def max_buffer_length : Nat := 32

/-- The value `std::numeric_limits<std::size_t>::max()`, for a 64-bit
`std::size_t`. -/
def size_max : Nat := 2 ^ 64 - 1

/-- An access outside a buffer of `take_apart`: the caller's mantissa buffer,
taken to hold `max_buffer_length + 1` bytes (indices 0..32), or the local
array `exp` of `max_buffer_length` bytes (indices 0..31). -/
inductive access_fault where
  | mant (index : Int)
  | exp (index : Int)
deriving DecidableEq

/-- The function `detail::tiny_atoi`, its loop running `pos` from `len - 1`
down to 0: arguments are `pos + 1`, `ret` and `multiplier`. -/
def tiny_atoi_loop (buffer : Nat → Char) : Nat → Int → Int → Int
  | 0, ret, _ => ret
  | pos + 1, ret, multiplier =>
    tiny_atoi_loop buffer pos
      (ret + multiplier * (((buffer pos).toNat : Int) - ('0'.toNat : Int))) (multiplier * 10)

/-- The function `detail::tiny_atoi(buffer, len)`. Its `assert(len <= 3)` is
not modelled: `take_apart` returns before the call when `exp_len > 3`, so the
function is only called with `len ≤ 3`. -/
def tiny_atoi (buffer : Nat → Char) (len : Nat) : Int := tiny_atoi_loop buffer len 0 1

/-- The local variables of `take_apart` during its loop; `in_exp` says that
`active_buffer`, `active_sign` and `active_len` point to the exponent's. -/
structure take_apart_scan where
  mant : Nat → Char
  exp : Nat → Char
  in_exp : Bool
  mantissa_sign : Bool
  exp_sign : Bool
  mantissa_len : Nat
  exp_len : Nat
  dot_pos : Nat
  dot_left_margin : Nat
  e_pos : Nat
  offset : Nat
  leading_zeros_cnt : Nat

/-- The variables of `take_apart` before its loop. -/
def take_apart_scan.start (buffer exp : Nat → Char) : take_apart_scan :=
  { mant := buffer, exp := exp, in_exp := false, mantissa_sign := true, exp_sign := true,
    mantissa_len := 0, exp_len := 0, dot_pos := size_max, dot_left_margin := 0,
    e_pos := size_max, offset := 2048, leading_zeros_cnt := 0 }

/-- The value `*active_len`. -/
def take_apart_scan.active_len (st : take_apart_scan) : Nat :=
  if st.in_exp then st.exp_len else st.mantissa_len

/-- The read `active_buffer[i]`. -/
def take_apart_scan.read_active (st : take_apart_scan) (i : Nat) : Except access_fault Char :=
  if st.in_exp then
    if i < max_buffer_length then .ok (st.exp i) else .error (.exp i)
  else
    if i ≤ max_buffer_length then .ok (st.mant i) else .error (.mant i)

/-- The write `active_buffer[i] = c`. -/
def take_apart_scan.write_active (st : take_apart_scan) (i : Nat) (c : Char) :
    Except access_fault take_apart_scan :=
  if st.in_exp then
    if i < max_buffer_length then .ok { st with exp := poke st.exp i c } else .error (.exp i)
  else
    if i ≤ max_buffer_length then .ok { st with mant := poke st.mant i c } else .error (.mant i)

/-- The increment `(*active_len)++`. -/
def take_apart_scan.bump_len (st : take_apart_scan) : take_apart_scan :=
  if st.in_exp then { st with exp_len := st.exp_len + 1 }
  else { st with mantissa_len := st.mantissa_len + 1 }

/-- The assignment `*active_sign = b`. -/
def take_apart_scan.set_sign (st : take_apart_scan) (b : Bool) : take_apart_scan :=
  if st.in_exp then { st with exp_sign := b } else { st with mantissa_sign := b }

/-- The branch of the digits `1` .. `9`, which `0` falls into when
`*active_len` is not zero. -/
def take_apart_digit (st : take_apart_scan) (c : Char) : Except access_fault take_apart_scan :=
  if st.active_len < max_buffer_length then
    match st.write_active st.active_len c with
    | .error f => .error f
    | .ok st1 => .ok st1.bump_len
  else
    match st.read_active (max_buffer_length - 1) with
    | .error f => .error f
    | .ok old =>
      st.write_active (max_buffer_length - 1)
        (Char.ofNat ((if old.toNat = 0 then 1 else 0) &&& (c.toNat - '0'.toNat)))

/-- One iteration of the loop of `take_apart`: the `switch` on `str[pos]`. -/
def take_apart_step (str : Nat → Char) (pos : Nat) (st : take_apart_scan) :
    Except access_fault take_apart_scan :=
  let c := str pos
  if c = '0' then
    if st.active_len = 0 then
      .ok (if st.dot_pos ≠ size_max then
        { st with leading_zeros_cnt := st.leading_zeros_cnt + 1 } else st)
    else take_apart_digit st c
  else if c ∈ ['1', '2', '3', '4', '5', '6', '7', '8', '9'] then take_apart_digit st c
  else if c = '.' then
    .ok (if st.dot_pos = size_max then { st with dot_pos := st.active_len }
      else { st with offset := pos })
  else if c = 'e' then
    if st.e_pos = size_max then
      match st.write_active st.active_len (Char.ofNat 0) with
      | .error f => .error f
      | .ok st1 =>
        .ok { st1 with e_pos := pos, dot_left_margin := st1.leading_zeros_cnt, in_exp := true }
    else .ok { st with offset := pos }
  else if c = '-' ∨ c = '+' then
    if pos = 0 ∨ pos = (st.e_pos + 1) % 2 ^ 64 then
      .ok (st.set_sign (decide ((('-'.toNat : Int) - (c.toNat : Int)) ≠ 0)))
    else .ok { st with offset := pos }
  else if c = Char.ofNat 0 then
    match st.write_active st.active_len (Char.ofNat 0) with
    | .error f => .error f
    | .ok st1 => .ok { st1 with offset := pos }
  else .ok { st with offset := pos }

/-- The loop `for (pos = 0; pos < offset; ++pos)` of `take_apart`, with a
bound on the number of iterations; `offset` starts at 2048 and only
decreases, so 2048 iterations are enough. -/
def take_apart_loop (str : Nat → Char) : Nat → Nat → take_apart_scan →
    Except access_fault take_apart_scan
  | 0, _, st => .ok st
  | n + 1, pos, st =>
    if pos < st.offset then
      match take_apart_step str pos st with
      | .error f => .error f
      | .ok st1 => take_apart_loop str n (pos + 1) st1
    else .ok st

/-- The loop `while (mant[mantissa_len - 1] == '0')` of `take_apart`, by
recursion on `mantissa_len`; with `mantissa_len = 0` the index
`mantissa_len - 1` is before the buffer. Returns `mantissa_len` and `*K`. -/
def strip_zeros (mant : Nat → Char) (dot_left_margin dot_pos : Nat) :
    Nat → Int → Except access_fault (Nat × Int)
  | 0, _ => .error (.mant (-1))
  | len + 1, K =>
    if mant len = '0' then
      strip_zeros mant dot_left_margin dot_pos len
        (if len + dot_left_margin < dot_pos then K + 1 else K)
    else .ok (len + 1, K)

/-- What `take_apart` leaves in its output parameters; `sign` and `K` are
`none` when they are not assigned. -/
structure take_apart_result where
  str_end : Nat
  buffer : Nat → Char
  sign : Option Bool
  len : Nat
  K : Option Int

/-- The function `take_apart(str, str_end, buffer, sign, len, K)`; `exp` is
the content of the local array before the call. The result is an
`access_fault` when an index is outside its buffer. -/
def take_apart (str buffer exp : Nat → Char) : Except access_fault take_apart_result :=
  match take_apart_loop str 2048 0 (take_apart_scan.start buffer exp) with
  | .error f => .error f
  | .ok st =>
    let dot_left_margin : Nat :=
      if st.e_pos = size_max ∧ st.dot_left_margin ≠ st.leading_zeros_cnt then
        st.leading_zeros_cnt
      else st.dot_left_margin
    if st.exp_len > 3 then
      .ok { str_end := 0, buffer := st.mant, sign := none, len := 0, K := none }
    else
      let K0 : Int := tiny_atoi st.exp st.exp_len
      match strip_zeros st.mant dot_left_margin st.dot_pos st.mantissa_len K0 with
      | .error f => .error f
      | .ok (mantissa_len, K1) =>
        if mantissa_len ≤ max_buffer_length then
          let K2 : Int := if st.exp_sign = false then -K1 else K1
          let K3 : Int :=
            if st.dot_pos ≠ size_max then
              int_of_uint64 (uint64_of_int
                (K2 - (((mantissa_len + dot_left_margin + 2 ^ 64 - st.dot_pos) % 2 ^ 64 : Nat) : Int)))
            else K2
          .ok { str_end := st.offset, buffer := poke st.mant mantissa_len (Char.ofNat 0),
                sign := some st.mantissa_sign, len := mantissa_len, K := some K3 }
        else .error (.mant mantissa_len)

/-- The fault of a call of `take_apart`, if any. -/
def take_apart_fault (r : Except access_fault take_apart_result) : Option access_fault :=
  match r with
  | .error f => some f
  | .ok _ => none

/-- The outputs of a call of `take_apart` that returned: the digits written
in `buffer[0..len)`, `K`, `sign` and `str_end`. -/
def take_apart_outputs (r : Except access_fault take_apart_result) :
    Option (List Char × Option Int × Option Bool × Nat) :=
  match r with
  | .error _ => none
  | .ok res => some (chars res.buffer res.len, res.K, res.sign, res.str_end)

/-- Parameters used to run the embedding on concrete inputs: every absent
function is a constant. -/
def deps.sample : deps :=
  { convert_numerator := fun _ => 0
    round_up := fun _ _ => false
    seq_pow_int_outside := fun _ => 0
    cached_power := fun _ => ⟨0, 0⟩
    mul := fun a _ => a
    increment := fun a => a
    downsample := fun _ => (binary64.zero, true)
    grisu2 := fun _ b _ => (b, 0, 0)
    prettify := fun b _ _ _ => b }

/-! ## Vocabulary of the statements -/

/-- A decimal digit character. -/
def dec_digit (c : Char) : Prop :=
  c = '0' ∨ c ∈ ['1', '2', '3', '4', '5', '6', '7', '8', '9']

instance dec_digit_decidable (c : Char) : Decidable (dec_digit c) := by
  unfold dec_digit; infer_instance

/-- Some character before index `i` is a decimal point. -/
def dot_before (str : Nat → Char) (i : Nat) : Prop := ∃ j, j < i ∧ str j = '.'

instance dot_before_decidable (str : Nat → Char) (i : Nat) : Decidable (dot_before str i) := by
  unfold dot_before; infer_instance

/-- The character at index `i` is a terminating character: not a decimal
digit, not the first `.`, and not a `+` or `-` at index 0. -/
def terminating (str : Nat → Char) (i : Nat) : Prop :=
  ¬ dec_digit (str i) ∧ ¬ (str i = '.' ∧ ¬ dot_before str i) ∧
    ¬ ((str i = '+' ∨ str i = '-') ∧ i = 0)

instance terminating_decidable (str : Nat → Char) (i : Nat) : Decidable (terminating str i) := by
  unfold terminating; infer_instance

/-- The first terminating character of the buffer is at index `t`. -/
def first_stop (str : Nat → Char) (t : Nat) : Prop :=
  terminating str t ∧ ∀ j, j < t → ¬ terminating str j

/-- The value of a digit character. -/
def digit_value (c : Char) : Nat := c.toNat - '0'.toNat

/-- The natural number written by a list of digit characters, most
significant first. -/
def nat_of_digits (l : List Char) : Nat := l.foldl (fun n c => 10 * n + digit_value c) 0

/-- The state after `k` iterations of the loop body. -/
def iter (X : deps) (kappa : Nat) (str : Nat → Char) (k : Nat) (st : digit_scan) : digit_scan :=
  (parse_digits_step X kappa str)^[k] st

/-- A scan state without the fractional remainder `frac`. -/
def digit_scan.core (st : digit_scan) : digit_scan := { st with frac := 0 }

/-- The natural number written by a list of digit values, most significant
first. -/
def nat_of_nats (l : List Nat) : Nat := l.foldl (fun n d => 10 * n + d) 0

/-- What has been read of a literal: the number its digits write (the decimal
point left out), how many of them follow the decimal point, whether the
decimal point was read, and how many digits were read. -/
structure lit_acc where
  num : Nat
  frac_len : Nat
  dot : Bool
  ndigits : Nat

/-- Reading one more digit of a literal. -/
def lit_acc.push_digit (a : lit_acc) (c : Char) : lit_acc :=
  { num := 10 * a.num + digit_value c
    frac_len := a.frac_len + (if a.dot then 1 else 0)
    dot := a.dot
    ndigits := a.ndigits + 1 }

/-- Reading the decimal point of a literal. -/
def lit_acc.push_dot (a : lit_acc) : lit_acc := { a with dot := true }

/-- The scan state agrees with what has been read of a literal, no digit
having been dropped. -/
def tracks (a : lit_acc) (st : digit_scan) : Prop :=
  st.go_to_beach = false ∧ st.dot_set = a.dot ∧
  a.num = nat_of_nats st.parsed_digits * 10 ^ st.zero_substring_length ∧
  (a.frac_len : Int) =
    st.fraction_digits_count + (st.zero_substring_length : Int) - (st.pow_gain : Int) ∧
  st.pow_gain ≤ st.zero_substring_length ∧
  st.parsed_digits.length + st.zero_substring_length ≤ a.ndigits ∧
  (∀ d, d ∈ st.parsed_digits → d ≤ 9) ∧
  (st.parsed_digits = [] → st.dot_set = false → st.zero_substring_length = 0) ∧
  (a.dot = false → a.frac_len = 0)

/-- The text of a literal: an optional sign, the digits of the integer part
and, when `dot` is set, a decimal point and the digits of the fraction part. -/
def literal_text (sgn ip fp : List Char) (dot : Bool) : List Char :=
  sgn ++ (ip ++ (if dot then '.' :: fp else []))

/-- The parts of a literal are well formed: the sign is absent, `+` or `-`,
both parts are decimal digits, and there are fraction digits only after a
decimal point. -/
def literal_ok (sgn ip fp : List Char) (dot : Bool) : Prop :=
  (sgn = [] ∨ sgn = ['+'] ∨ sgn = ['-']) ∧ (∀ c, c ∈ ip → dec_digit c) ∧
    (∀ c, c ∈ fp → dec_digit c) ∧ (dot = false → fp = [])

instance literal_ok_decidable (sgn ip fp : List Char) (dot : Bool) :
    Decidable (literal_ok sgn ip fp dot) := by
  unfold literal_ok; infer_instance

/-- The character `c` ends a literal of `n` characters: it is no digit, it is
a `.` only if the literal has its decimal point, a sign only if the literal is
not empty. -/
def ends_literal (c : Char) (dot : Bool) (n : Nat) : Prop :=
  ¬ dec_digit c ∧ (c = '.' → dot = true) ∧ ((c = '+' ∨ c = '-') → n ≠ 0)

instance ends_literal_decidable (c : Char) (dot : Bool) (n : Nat) :
    Decidable (ends_literal c dot n) := by
  unfold ends_literal; infer_instance

/-- The twenty digits of 2 ^ 64 = 18446744073709551616. -/
def two_pow_64_text : List Char :=
  ['1', '8', '4', '4', '6', '7', '4', '4', '0', '7', '3', '7', '0', '9', '5', '5', '1', '6',
    '1', '6']

/-- The text `0.00000000000000000001`: nineteen zeros between the decimal
point and the digit 1. -/
def tiny_text : List Char :=
  ['0', '.', '0', '0', '0', '0', '0', '0', '0', '0', '0', '0', '0', '0', '0', '0', '0', '0',
    '0', '0', '0', '1']

/-- The text `0.001234567890123456789`: two zeros after the decimal point, then
nineteen digits. -/
def shifted_text : List Char :=
  ['0', '.', '0', '0', '1', '2', '3', '4', '5', '6', '7', '8', '9', '0', '1', '2', '3', '4',
    '5', '6', '7', '8', '9']

/-- An unbounded run of digits: `0` everywhere. -/
def zero_run : Nat → Char := fun _ => '0'

/-- An unbounded run of digits: `7` at index 2049, `0` elsewhere. -/
def seven_run : Nat → Char := fun i => if i = offset + 1 then '7' else '0'

/-- The buffer after `ftoa` wrote `0.0` and NUL into its first four bytes. -/
def zero_text (buffer : Nat → Char) : Nat → Char :=
  poke (poke (poke (poke buffer 0 '0') 1 '.') 2 '0') 3 (Char.ofNat 0)

/-- The counters of the scan stay within the number of characters read. -/
def counters_ok (st : digit_scan) : Prop :=
  st.pow_gain ≤ st.pos ∧ st.zero_substring_length ≤ st.pos ∧
    st.fraction_digits_count + (st.zero_substring_length : Int) ≤ (st.pos : Int) ∧
    -(st.pos : Int) ≤ st.fraction_digits_count - (st.pow_gain : Int)

/-- The longest run of decimal digits at the start of the buffer, cut to at
most `kappa` characters, has `n` characters. -/
def digit_run (str : Nat → Char) (kappa n : Nat) : Prop :=
  n ≤ kappa ∧ (∀ i, i < n → dec_digit (str i)) ∧ (n < kappa → ¬ dec_digit (str n))

instance digit_run_decidable (str : Nat → Char) (kappa n : Nat) :
    Decidable (digit_run str kappa n) := by
  unfold digit_run; infer_instance

/-- The numerator of `0.d_0 … d_(n-1)` over `10 ^ kappa`: the sum over `i < n`
of `d_i × 10 ^ (kappa - 1 - i)`, the `d_i` being the first `n` characters of
the buffer. -/
def fraction_numerator (str : Nat → Char) (kappa n : Nat) : Nat :=
  ∑ i in Finset.range n, digit_value (str i) * 10 ^ (kappa - 1 - i)

/-- The digit values of the run of digits from index `pos` on, cut to `fuel`
characters. -/
def run_values (str : Nat → Char) : Nat → Nat → List Nat
  | 0, _ => []
  | fuel + 1, pos =>
    if dec_digit (str pos) then digit_value (str pos) :: run_values str fuel (pos + 1) else []

/-- The text `0.00000000000000000199`: seventeen zeros after the decimal
point, then `199`. -/
def low_text : List Char :=
  ['0', '.', '0', '0', '0', '0', '0', '0', '0', '0', '0', '0', '0', '0', '0', '0', '0', '0',
    '0', '1', '9', '9']

/-- The text `11111111111111111109`: eighteen digits `1`, then `09`. -/
def ones_text : List Char :=
  ['1', '1', '1', '1', '1', '1', '1', '1', '1', '1', '1', '1', '1', '1', '1', '1', '1', '1',
    '0', '9']

/-- The number of `0` characters at the start of a list of digits. -/
def leading_zeros : List Char → Nat
  | [] => 0
  | c :: r => if c = '0' then leading_zeros r + 1 else 0

/-- What has been read of a literal, as `lit_acc`, with the number `lead` of
zeros read before the decimal point and before any nonzero digit. -/
structure lit_full where
  num : Nat
  frac_len : Nat
  dot : Bool
  ndigits : Nat
  lead : Nat

/-- Reading one more digit of a literal. -/
def lit_full.push_digit (a : lit_full) (c : Char) : lit_full :=
  { num := 10 * a.num + digit_value c
    frac_len := a.frac_len + (if a.dot then 1 else 0)
    dot := a.dot
    ndigits := a.ndigits + 1
    lead := a.lead + (if a.num = 0 ∧ a.dot = false ∧ c = '0' then 1 else 0) }

/-- Reading the decimal point of a literal. -/
def lit_full.push_dot (a : lit_full) : lit_full := { a with dot := true }

/-- The scan state agrees with what has been read of a literal, digits having
been dropped or not: `g` digits were read after the last stored one, and they
write the number `r`. While none was dropped, they are the pending zeros. -/
def follows (kappa : Nat) (a : lit_full) (st : digit_scan) (g r : Nat) : Prop :=
  st.go_to_beach = false ∧ st.dot_set = a.dot ∧
  a.num = nat_of_nats st.parsed_digits * 10 ^ g + r ∧ r < 10 ^ g ∧
  (a.frac_len : Int) = st.fraction_digits_count + (g : Int) - (st.pow_gain : Int) ∧
  a.ndigits = a.lead + st.parsed_digits.length + g ∧
  st.parsed_digits.length ≤ kappa ∧
  (∀ d, d ∈ st.parsed_digits → d ≤ 9) ∧
  (st.parsed_digits = [] → st.dot_set = false → st.zero_substring_length = 0) ∧
  (a.dot = false → (a.num = 0 ↔ st.parsed_digits = [])) ∧
  (a.dot = false → a.frac_len = 0) ∧
  ((r = 0 ∧ g = st.zero_substring_length ∧ st.pow_gain ≤ st.zero_substring_length) ∨
    kappa ≤ st.parsed_digits.length + st.zero_substring_length)

/-- The text `12345678901234567895`, of twenty digits. -/
def twenty_text : List Char :=
  ['1', '2', '3', '4', '5', '6', '7', '8', '9', '0', '1', '2', '3', '4', '5', '6', '7', '8',
    '9', '5']

/-- The text `1e` followed by thirty-two digits `7`. -/
def long_exp_text : List Char :=
  ['1', 'e', '7', '7', '7', '7', '7', '7', '7', '7', '7', '7', '7', '7', '7', '7', '7', '7',
    '7', '7', '7', '7', '7', '7', '7', '7', '7', '7', '7', '7', '7', '7', '7', '7']

/-- A mantissa buffer of the caller, filled with `x` before the call. -/
def scratch_mant : Nat → Char := fun _ => 'x'

/-- The local array `exp`, filled with `y` before the call. -/
def scratch_exp : Nat → Char := fun _ => 'y'

/-! ## The loop of parse_digits -/

theorem iter_zero (X : deps) (kappa : Nat) (str : Nat → Char) (st : digit_scan) :
    iter X kappa str 0 st = st := rfl

theorem iter_succ (X : deps) (kappa : Nat) (str : Nat → Char) (k : Nat) (st : digit_scan) :
    iter X kappa str (k + 1) st = parse_digits_step X kappa str (iter X kappa str k st) := by
  unfold iter
  exact Function.iterate_succ_apply' _ _ _

theorem iter_succ_left (X : deps) (kappa : Nat) (str : Nat → Char) (k : Nat) (st : digit_scan) :
    iter X kappa str (k + 1) st = iter X kappa str k (parse_digits_step X kappa str st) := by
  unfold iter
  exact Function.iterate_succ_apply _ _ _

theorem step_pos (X : deps) (kappa : Nat) (str : Nat → Char) (st : digit_scan) :
    (parse_digits_step X kappa str st).pos = st.pos + 1 := rfl

theorem iter_pos (X : deps) (kappa : Nat) (str : Nat → Char) (k : Nat) (st : digit_scan) :
    (iter X kappa str k st).pos = st.pos + k := by
  induction k with
  | zero => rfl
  | succ k ih => rw [iter_succ, step_pos, ih]; omega

theorem loop_of_beach (X : deps) (kappa : Nat) (str : Nat → Char) (n : Nat) (st : digit_scan)
    (h : st.go_to_beach = true) : parse_digits_loop X kappa str n st = st := by
  cases n with
  | zero => rfl
  | succ n => simp [parse_digits_loop, h]

theorem loop_of_continue (X : deps) (kappa : Nat) (str : Nat → Char) (n : Nat) (st : digit_scan)
    (h : st.go_to_beach = false) :
    parse_digits_loop X kappa str (n + 1) st =
      parse_digits_loop X kappa str n (parse_digits_step X kappa str st) := by
  simp [parse_digits_loop, h]

/-- The loop unrolled: if the first `k` states do not ask to stop and the
next one does, the loop ends in that state. -/
theorem loop_eq_iter (X : deps) (kappa : Nat) (str : Nat → Char) (k : Nat) :
    ∀ (fuel : Nat) (st : digit_scan), k ≤ fuel →
      (∀ j, j < k → (iter X kappa str j st).go_to_beach = false) →
      (iter X kappa str k st).go_to_beach = true →
      parse_digits_loop X kappa str fuel st = iter X kappa str k st := by
  induction k with
  | zero =>
    intro fuel st _ _ hk
    exact loop_of_beach X kappa str fuel st hk
  | succ k ih =>
    intro fuel st hf hlt hk
    obtain ⟨n, rfl⟩ : ∃ n, fuel = n + 1 := ⟨fuel - 1, by omega⟩
    have h0 : st.go_to_beach = false := hlt 0 (by omega)
    rw [loop_of_continue X kappa str n st h0, iter_succ_left]
    apply ih n _ (by omega)
    · intro j hj
      have := hlt (j + 1) (by omega)
      rwa [iter_succ_left] at this
    · rwa [iter_succ_left] at hk

theorem step_beach_of_ceiling (X : deps) (kappa : Nat) (str : Nat → Char) (st : digit_scan)
    (h : offset < st.pos) : (parse_digits_step X kappa str st).go_to_beach = true := by
  simp [parse_digits_step, h]

/-- The loop of `parse_digits` halts within its bound: from a state at
position `pos` with at least `offset + 2 - pos` iterations allowed, it ends in
a state that asks to stop, reached by some number `k` of iterations. -/
theorem loop_halts (X : deps) (kappa : Nat) (str : Nat → Char) :
    ∀ (fuel : Nat) (st : digit_scan),
      (st.go_to_beach = true ∨ (offset + 2 ≤ st.pos + fuel ∧ st.pos ≤ offset + 1)) →
      ∃ k, k ≤ fuel ∧ parse_digits_loop X kappa str fuel st = iter X kappa str k st ∧
        (iter X kappa str k st).go_to_beach = true ∧
        ∀ j, j < k → (iter X kappa str j st).go_to_beach = false := by
  intro fuel
  induction fuel with
  | zero =>
    intro st h
    rcases h with h | ⟨h1, h2⟩
    · exact ⟨0, le_refl _, rfl, h, fun j hj => absurd hj (Nat.not_lt_zero j)⟩
    · omega
  | succ n ih =>
    intro st h
    by_cases hb : st.go_to_beach = true
    · exact ⟨0, Nat.zero_le _, loop_of_beach X kappa str _ st hb, hb,
        fun j hj => absurd hj (Nat.not_lt_zero j)⟩
    · have hb0 : st.go_to_beach = false := by simpa using hb
      rcases h with h | ⟨h1, h2⟩
      · exact absurd h hb
      · have hnext : (parse_digits_step X kappa str st).go_to_beach = true ∨
            (offset + 2 ≤ (parse_digits_step X kappa str st).pos + n ∧
              (parse_digits_step X kappa str st).pos ≤ offset + 1) := by
          by_cases hc : offset < st.pos
          · exact Or.inl (step_beach_of_ceiling X kappa str st hc)
          · right
            rw [step_pos]
            constructor <;> omega
        obtain ⟨k, hk, hloop, hstop, hbefore⟩ := ih _ hnext
        refine ⟨k + 1, by omega, ?_, ?_, ?_⟩
        · rw [loop_of_continue X kappa str n st hb0, iter_succ_left]
          exact hloop
        · rw [iter_succ_left]
          exact hstop
        · intro j hj
          cases j with
          | zero => exact hb0
          | succ j =>
            rw [iter_succ_left]
            exact hbefore j (by omega)

/-- The loop of `parse_digits` always ends, within `offset + 2` iterations,
in a state with `go_to_beach` set. -/
theorem loop_ends_stopped (X : deps) (kappa : Nat) (str : Nat → Char) (c : Bool) :
    (parse_digits_loop X kappa str (offset + 2) (digit_scan.start c)).go_to_beach = true := by
  obtain ⟨k, _, hloop, hstop, _⟩ := loop_halts X kappa str (offset + 2) (digit_scan.start c)
    (Or.inr ⟨by simp [digit_scan.start], by simp [digit_scan.start]⟩)
  rw [hloop]
  exact hstop

theorem step_counters_ok (X : deps) (kappa : Nat) (str : Nat → Char) (st : digit_scan)
    (h : counters_ok st) : counters_ok (parse_digits_step X kappa str st) := by
  obtain ⟨h1, h2, h3, h4⟩ := h
  unfold parse_digits_step counters_ok
  simp only
  split_ifs <;> simp only [Nat.cast_add, Nat.cast_one, Nat.cast_zero] <;>
    refine ⟨?_, ?_, ?_, ?_⟩ <;> omega

/-- In the final state the counters are within `offset + 2`, so the `int`
that `parse_digits` returns as `K` is the exact difference. -/
theorem counters_bounded (X : deps) (kappa : Nat) (str : Nat → Char) (c : Bool) :
    -((offset : Int) + 2) ≤ (parse_digits X kappa c str).K ∧
      (parse_digits X kappa c str).K ≤ (offset : Int) + 2 := by
  obtain ⟨k, hk, hloop, _, _⟩ := loop_halts X kappa str (offset + 2) (digit_scan.start c)
    (Or.inr ⟨by simp [digit_scan.start], by simp [digit_scan.start]⟩)
  have hinv : ∀ n, counters_ok (iter X kappa str n (digit_scan.start c)) := by
    intro n
    induction n with
    | zero => simp [iter, counters_ok, digit_scan.start]
    | succ n ih => rw [iter_succ]; exact step_counters_ok X kappa str _ ih
  obtain ⟨h1, h2, h3, h4⟩ := hinv k
  have hp : (iter X kappa str k (digit_scan.start c)).pos = k := by
    rw [iter_pos]; simp [digit_scan.start]
  rw [hp] at h1 h2 h3 h4
  simp only [parse_digits, hloop]
  constructor <;> omega

/-- A terminating character only sets `go_to_beach`. -/
theorem step_of_terminating (X : deps) (kappa : Nat) (str : Nat → Char) (st : digit_scan)
    (hdot : st.dot_set = true ↔ dot_before str st.pos) (h : terminating str st.pos) :
    parse_digits_step X kappa str st = { st with go_to_beach := true, pos := st.pos + 1 } := by
  obtain ⟨h1, h2, h3⟩ := h
  have h0 : str st.pos ≠ '0' := fun e => h1 (Or.inl e)
  have h9 : str st.pos ∉ ['1', '2', '3', '4', '5', '6', '7', '8', '9'] := fun e => h1 (Or.inr e)
  unfold parse_digits_step
  simp only [h0, h9, if_false]
  by_cases hd : str st.pos = '.'
  · have hb : dot_before str st.pos := by
      by_contra hn
      exact h2 ⟨hd, hn⟩
    have hs : st.dot_set = true := hdot.mpr hb
    simp [hd, hs]
  · have hsg : ¬ ((str st.pos = '-' ∨ str st.pos = '+') ∧ st.pos = 0) := by
      rintro ⟨h | h, hp⟩
      · exact h3 ⟨Or.inr h, hp⟩
      · exact h3 ⟨Or.inl h, hp⟩
    simp [hd, hsg]

/-- A character that is not terminating, below the ceiling, keeps the loop going. -/
theorem step_of_continuing (X : deps) (kappa : Nat) (str : Nat → Char) (st : digit_scan)
    (hdot : st.dot_set = true ↔ dot_before str st.pos) (h : ¬ terminating str st.pos)
    (hb : st.go_to_beach = false) (hp : st.pos ≤ offset) :
    (parse_digits_step X kappa str st).go_to_beach = false := by
  have hp1 : ¬ (offset < st.pos) := by omega
  unfold terminating at h
  by_cases h0 : str st.pos = '0'
  · unfold parse_digits_step
    simp only [h0, if_true]
    split_ifs <;> simp [hb, hp1]
  by_cases h9 : str st.pos ∈ ['1', '2', '3', '4', '5', '6', '7', '8', '9']
  · unfold parse_digits_step
    simp only [h0, h9, if_true, if_false]
    split_ifs <;> simp [hb, hp1]
  have hnd : ¬ dec_digit (str st.pos) := by
    rintro (h | h)
    · exact h0 h
    · exact h9 h
  by_cases hd : str st.pos = '.'
  · by_cases hdb : dot_before str st.pos
    · exfalso
      apply h
      refine ⟨hnd, fun hc => hc.2 hdb, ?_⟩
      rintro ⟨hc | hc, _⟩ <;> rw [hd] at hc <;> exact absurd hc (by decide)
    · have hs : st.dot_set = false := by
        cases hv : st.dot_set with
        | false => rfl
        | true => exact absurd (hdot.mp hv) hdb
      unfold parse_digits_step
      simp [hd, hs, hp1]
  · have hsg : (str st.pos = '-' ∨ str st.pos = '+') ∧ st.pos = 0 := by
      by_contra hn
      apply h
      refine ⟨hnd, fun hc => hd hc.1, ?_⟩
      rintro ⟨hc | hc, hz⟩
      · exact hn ⟨Or.inr hc, hz⟩
      · exact hn ⟨Or.inl hc, hz⟩
    unfold parse_digits_step
    simp only [h0, h9, hd, if_false]
    rw [if_pos hsg]
    simp [hb, hsg.2, offset]

theorem step_dot_set (X : deps) (kappa : Nat) (str : Nat → Char) (st : digit_scan) :
    (parse_digits_step X kappa str st).dot_set = true ↔ (st.dot_set = true ∨ str st.pos = '.') := by
  by_cases h0 : str st.pos = '0'
  · have hd : ¬ ('0' = '.') := by decide
    unfold parse_digits_step
    simp only [h0, if_true]
    split_ifs <;> simp
  by_cases h9 : str st.pos ∈ ['1', '2', '3', '4', '5', '6', '7', '8', '9']
  · have hd : str st.pos ≠ '.' := by
      intro e
      rw [e] at h9
      exact absurd h9 (by decide)
    unfold parse_digits_step
    simp only [h0, h9, if_true, if_false]
    split_ifs <;> simp [hd]
  by_cases hd : str st.pos = '.'
  · unfold parse_digits_step
    simp [hd]
  · unfold parse_digits_step
    simp only [h0, h9, hd, if_false]
    split_ifs <;> simp

theorem iter_dot_set (X : deps) (kappa : Nat) (str : Nat → Char) (c : Bool) (k : Nat) :
    (iter X kappa str k (digit_scan.start c)).dot_set = true ↔ dot_before str k := by
  induction k with
  | zero => simp [iter, digit_scan.start, dot_before]
  | succ k ih =>
    rw [iter_succ, step_dot_set, ih, iter_pos]
    simp only [digit_scan.start, Nat.zero_add]
    unfold dot_before
    constructor
    · rintro (⟨j, hj, hs⟩ | hs)
      · exact ⟨j, by omega, hs⟩
      · exact ⟨k, by omega, hs⟩
    · rintro ⟨j, hj, hs⟩
      by_cases hjk : j = k
      · right; rw [← hjk]; exact hs
      · left; exact ⟨j, by omega, hs⟩

theorem iter_start_pos (X : deps) (kappa : Nat) (str : Nat → Char) (c : Bool) (k : Nat) :
    (iter X kappa str k (digit_scan.start c)).pos = k := by
  rw [iter_pos]; simp [digit_scan.start]

/-- While no terminating character is met and the ceiling is not passed, the
loop keeps going. -/
theorem iter_continuing (X : deps) (kappa : Nat) (str : Nat → Char) (c : Bool) (k : Nat)
    (hk : k ≤ offset + 1) (h : ∀ j, j < k → ¬ terminating str j) :
    (iter X kappa str k (digit_scan.start c)).go_to_beach = false := by
  induction k with
  | zero => rfl
  | succ k ih =>
    rw [iter_succ]
    apply step_of_continuing
    · rw [iter_start_pos]; exact iter_dot_set X kappa str c k
    · rw [iter_start_pos]; exact h k (by omega)
    · exact ih (by omega) (fun j hj => h j (by omega))
    · rw [iter_start_pos]; omega

/-- The loop stops at the first terminating character when it is at an index
up to `offset + 1`: it ends in the state reached there, with `go_to_beach` set. -/
theorem loop_first_stop (X : deps) (kappa : Nat) (str : Nat → Char) (c : Bool) (t : Nat)
    (ht : t ≤ offset + 1) (h : first_stop str t) :
    parse_digits_loop X kappa str (offset + 2) (digit_scan.start c) =
      { iter X kappa str t (digit_scan.start c) with go_to_beach := true, pos := t + 1 } := by
  have hstep : iter X kappa str (t + 1) (digit_scan.start c) =
      { iter X kappa str t (digit_scan.start c) with go_to_beach := true, pos := t + 1 } := by
    rw [iter_succ, step_of_terminating]
    · rw [iter_start_pos]
    · rw [iter_start_pos]; exact iter_dot_set X kappa str c t
    · rw [iter_start_pos]; exact h.1
  rw [← hstep]
  apply loop_eq_iter X kappa str (t + 1) _ _ (by omega)
  · intro j hj
    exact iter_continuing X kappa str c j (by omega) (fun i hi => h.2 i (by omega))
  · rw [hstep]

/-- Without a terminating character up to index `offset`, the loop stops by the
ceiling, after the iteration at index `offset + 1`. -/
theorem loop_ceiling (X : deps) (kappa : Nat) (str : Nat → Char) (c : Bool)
    (h : ∀ j, j < offset + 1 → ¬ terminating str j) :
    parse_digits_loop X kappa str (offset + 2) (digit_scan.start c) =
      iter X kappa str (offset + 2) (digit_scan.start c) := by
  apply loop_eq_iter X kappa str (offset + 2) _ _ (le_refl _)
  · intro j hj
    exact iter_continuing X kappa str c j (by omega) (fun i hi => h i (by omega))
  · rw [iter_succ]
    apply step_beach_of_ceiling
    rw [iter_start_pos]; omega

/-! ## Exact bookkeeping while no digit is dropped -/

theorem nat_of_nats_snoc (l : List Nat) (d : Nat) :
    nat_of_nats (l ++ [d]) = 10 * nat_of_nats l + d := by
  simp [nat_of_nats, List.foldl_append]

theorem nat_of_nats_zeros (l : List Nat) (z : Nat) :
    nat_of_nats (l ++ List.replicate z 0) = nat_of_nats l * 10 ^ z := by
  induction z with
  | zero => simp
  | succ z ih =>
    rw [List.replicate_succ', ← List.append_assoc, nat_of_nats_snoc, ih]
    ring

theorem nat_of_nats_lt (l : List Nat) (h : ∀ d, d ∈ l → d ≤ 9) :
    nat_of_nats l < 10 ^ l.length := by
  have key : ∀ (l : List Nat) (a : Nat), (∀ d, d ∈ l → d ≤ 9) →
      l.foldl (fun n d => 10 * n + d) a + 1 ≤ (a + 1) * 10 ^ l.length := by
    intro l
    induction l with
    | nil => intro a _; simp
    | cons d r ih =>
      intro a hd
      have h1 := ih (10 * a + d) (fun x hx => hd x (List.mem_cons_of_mem _ hx))
      have h2 : d ≤ 9 := hd d (List.mem_cons_self _ _)
      have h3 : (10 * a + d + 1) * 10 ^ r.length ≤ (10 * a + 10) * 10 ^ r.length :=
        Nat.mul_le_mul_right _ (by omega)
      simp only [List.foldl_cons, List.length_cons]
      calc List.foldl (fun n d => 10 * n + d) (10 * a + d) r + 1
          ≤ (10 * a + d + 1) * 10 ^ r.length := h1
        _ ≤ (10 * a + 10) * 10 ^ r.length := h3
        _ = (a + 1) * 10 ^ (r.length + 1) := by ring
  have := key l 0 h
  simp only [Nat.zero_add, Nat.one_mul] at this
  exact this

theorem digit_value_le (c : Char) (h : c ∈ ['1', '2', '3', '4', '5', '6', '7', '8', '9']) :
    digit_value c ≤ 9 := by
  simp only [List.mem_cons, List.mem_singleton, List.not_mem_nil, or_false] at h
  rcases h with h | h | h | h | h | h | h | h | h <;> subst h <;> decide

theorem digit_value_zero : digit_value '0' = 0 := by decide

/-- Reading a digit with room left for it keeps the state in step with the literal. -/
theorem tracks_digit (X : deps) (kappa : Nat) (str : Nat → Char) (a : lit_acc) (st : digit_scan)
    (h : tracks a st) (hp : st.pos ≤ offset) (hc : dec_digit (str st.pos))
    (hroom : a.ndigits < kappa) :
    tracks (a.push_digit (str st.pos)) (parse_digits_step X kappa str st) := by
  obtain ⟨hb, hdot, hnum, hfrac, hpg, hlen, hdig, hz, hnd⟩ := h
  have hp1 : ¬ (offset < st.pos) := by omega
  rcases hc with h0 | h9
  · -- the character '0'
    unfold parse_digits_step
    simp only [h0, if_true]
    by_cases hcond : st.parsed_digits ≠ [] ∨ st.dot_set = true
    · rw [if_pos hcond]
      refine ⟨by simp [hb, hp1], hdot, ?_, ?_, ?_, ?_, hdig, ?_, ?_⟩
      · simp only [lit_acc.push_digit, digit_value_zero, hnum]
        ring
      · simp only [lit_acc.push_digit]
        rw [← hdot]
        cases hds : st.dot_set <;> simp <;> omega
      · simp only
        split_ifs <;> omega
      · simp only [lit_acc.push_digit]
        omega
      · intro h1 h2
        simp only at h1 h2
        rcases hcond with hc1 | hc1
        · exact absurd h1 hc1
        · rw [hc1] at h2; exact absurd h2 (by decide)
      · intro h1
        simp only [lit_acc.push_digit] at h1 ⊢
        simp [h1, hnd h1]
    · rw [if_neg hcond]
      have hcond1 : st.parsed_digits = [] := by
        by_contra hn
        exact hcond (Or.inl hn)
      have hcond2 : st.dot_set = false := by
        cases hv : st.dot_set with
        | false => rfl
        | true => exact absurd (Or.inr hv) hcond
      have hz0 := hz hcond1 hcond2
      have hnum0 : a.num = 0 := by rw [hnum, hcond1]; simp [nat_of_nats]
      have hdot0 : a.dot = false := by rw [← hdot, hcond2]
      refine ⟨by simp [hb, hp1], hdot, ?_, ?_, hpg, ?_, hdig, hz, ?_⟩
      · simp only [lit_acc.push_digit, digit_value_zero, hnum0, hcond1, hz0]
        simp [nat_of_nats]
      · simp only [lit_acc.push_digit, hdot0]
        simpa using hfrac
      · simp only [lit_acc.push_digit]
        omega
      · intro h1
        simp only [lit_acc.push_digit] at h1 ⊢
        simp [h1, hnd h1]
  · -- a character '1' .. '9'
    have hne0 : str st.pos ≠ '0' := by
      intro e
      rw [e] at h9
      exact absurd h9 (by decide)
    have hroom1 : st.parsed_digits.length + st.zero_substring_length < kappa := by omega
    have hv := digit_value_le _ h9
    unfold parse_digits_step
    simp only [hne0, h9, if_true, if_false, hroom1]
    by_cases hzs : st.zero_substring_length = 0
    · have hpg0 : st.pow_gain = 0 := by omega
      simp only [hzs, ne_eq, not_true_eq_false, if_false]
      refine ⟨by simp [hb, hp1], hdot, ?_, ?_, ?_, ?_, ?_, ?_, ?_⟩
      · simp only [lit_acc.push_digit, pow_zero, mul_one]
        rw [nat_of_nats_snoc, hnum, hzs]
        simp [digit_value]
      · simp only [lit_acc.push_digit]
        rw [← hdot]
        rw [hzs, hpg0] at hfrac
        cases hds : st.dot_set <;> simp <;> omega
      · simp only; omega
      · simp only [lit_acc.push_digit, List.length_append, List.length_singleton]
        omega
      · intro d hd
        simp only [List.mem_append, List.mem_singleton] at hd
        rcases hd with hd | hd
        · exact hdig d hd
        · rw [hd]; exact hv
      · intro h1
        simp at h1
      · intro h1
        simp only [lit_acc.push_digit] at h1 ⊢
        simp [h1, hnd h1]
    · simp only [hzs, ne_eq, not_false_eq_true, if_true]
      refine ⟨by simp [hb, hp1], hdot, ?_, ?_, ?_, ?_, ?_, ?_, ?_⟩
      · simp only [lit_acc.push_digit, pow_zero, mul_one]
        rw [nat_of_nats_snoc, nat_of_nats_zeros, hnum]
        simp [digit_value]
      · simp only [lit_acc.push_digit]
        rw [← hdot]
        cases hds : st.dot_set <;> simp <;> omega
      · simp only; omega
      · simp only [lit_acc.push_digit, List.length_append, List.length_singleton,
          List.length_replicate]
        omega
      · intro d hd
        simp only [List.mem_append, List.mem_singleton, List.mem_replicate] at hd
        rcases hd with (hd | hd) | hd
        · exact hdig d hd
        · omega
        · rw [hd]; exact hv
      · intro h1
        simp at h1
      · intro h1
        simp only [lit_acc.push_digit] at h1 ⊢
        simp [h1, hnd h1]

/-- Reading the first decimal point keeps the state in step with the literal. -/
theorem tracks_dot (X : deps) (kappa : Nat) (str : Nat → Char) (a : lit_acc) (st : digit_scan)
    (h : tracks a st) (hp : st.pos ≤ offset) (hc : str st.pos = '.') (hfirst : a.dot = false) :
    tracks a.push_dot (parse_digits_step X kappa str st) := by
  obtain ⟨hb, hdot, hnum, hfrac, hpg, hlen, hdig, hz, hnd⟩ := h
  have hp1 : ¬ (offset < st.pos) := by omega
  have hds : st.dot_set = false := by rw [hdot, hfirst]
  unfold parse_digits_step
  simp only [hc]
  refine ⟨by simp [hds, hp1], by simp [lit_acc.push_dot], hnum, hfrac, hpg, hlen, hdig, ?_, ?_⟩
  · intro _ h2
    simp at h2
  · intro h1
    simp [lit_acc.push_dot] at h1

/-- Reading a sign at index 0 keeps the state in step with the literal. -/
theorem tracks_sign (X : deps) (kappa : Nat) (str : Nat → Char) (a : lit_acc) (st : digit_scan)
    (h : tracks a st) (hp : st.pos = 0) (hc : str st.pos = '+' ∨ str st.pos = '-') :
    tracks a (parse_digits_step X kappa str st) := by
  obtain ⟨hb, hdot, hnum, hfrac, hpg, hlen, hdig, hz, hnd⟩ := h
  have hp1 : ¬ (offset < st.pos) := by rw [hp]; simp [offset]
  have hsg : (str st.pos = '-' ∨ str st.pos = '+') ∧ st.pos = 0 := ⟨hc.symm, hp⟩
  have h0 : str st.pos ≠ '0' := by
    rcases hc with e | e <;> rw [e] <;> decide
  have h9 : str st.pos ∉ ['1', '2', '3', '4', '5', '6', '7', '8', '9'] := by
    rcases hc with e | e <;> rw [e] <;> decide
  have hd : str st.pos ≠ '.' := by
    rcases hc with e | e <;> rw [e] <;> decide
  unfold parse_digits_step
  simp only [h0, h9, hd, if_false]
  rw [if_pos hsg]
  exact ⟨by simp [hb, hp1], hdot, hnum, hfrac, hpg, hlen, hdig, hz, hnd⟩

theorem advance_advance (str : Nat → Char) (a b : Nat) :
    advance (advance str a) b = advance str (a + b) := by
  funext i
  simp [advance, Nat.add_assoc]

theorem advance_zero (str : Nat → Char) : advance str 0 = str := by
  funext i
  simp [advance]

theorem chars_cons (str : Nat → Char) (n : Nat) :
    chars str (n + 1) = str 0 :: chars (advance str 1) n := by
  unfold chars
  rw [List.range_succ_eq_map, List.map_cons, List.map_map]
  congr 1
  apply List.map_congr_left
  intro i _
  simp [advance, Nat.add_comm 1 i]

/-- Reading a run of digits, with room for all of them: the loop goes through
the run and the state stays in step with the literal. -/
theorem tracks_run (X : deps) (kappa : Nat) (str : Nat → Char) (ds : List Char) :
    ∀ (a : lit_acc) (st : digit_scan) (fuel : Nat), tracks a st →
      (∀ c, c ∈ ds → dec_digit c) →
      chars (advance str st.pos) ds.length = ds →
      st.pos + ds.length ≤ offset + 1 →
      a.ndigits + ds.length ≤ kappa →
      tracks (ds.foldl lit_acc.push_digit a) (iter X kappa str ds.length st) ∧
      parse_digits_loop X kappa str (fuel + ds.length) st =
        parse_digits_loop X kappa str fuel (iter X kappa str ds.length st) := by
  induction ds with
  | nil =>
    intro a st fuel h _ _ _ _
    exact ⟨h, rfl⟩
  | cons c r ih =>
    intro a st fuel h hdig hchars hpos hroom
    simp only [List.length_cons] at hchars hpos hroom ⊢
    have hsplit : str st.pos = c ∧ chars (advance str (st.pos + 1)) r.length = r := by
      rw [chars_cons, advance_advance] at hchars
      simp only [List.cons.injEq] at hchars
      exact ⟨by simpa [advance] using hchars.1, hchars.2⟩
    have hstep := tracks_digit X kappa str a st h (by omega)
      (by rw [hsplit.1]; exact hdig c (List.mem_cons_self _ _)) (by omega)
    rw [hsplit.1] at hstep
    have hnext := ih (a.push_digit c) (parse_digits_step X kappa str st) fuel hstep
      (fun x hx => hdig x (List.mem_cons_of_mem _ hx))
      (by rw [step_pos]; exact hsplit.2) (by rw [step_pos]; omega)
      (by simp only [lit_acc.push_digit]; omega)
    rw [iter_succ_left, List.foldl_cons]
    refine ⟨hnext.1, ?_⟩
    rw [← Nat.add_assoc, loop_of_continue X kappa str _ st h.1]
    exact hnext.2

theorem accumulate_eq (l : List Nat) :
    ∀ (pow result : Nat), result < 2 ^ mantissa_bits →
      accumulate l pow result =
        (result + 10 ^ pow * l.foldr (fun d n => d + 10 * n) 0) % 2 ^ mantissa_bits := by
  induction l with
  | nil =>
    intro pow result h
    simp only [accumulate, List.foldr_nil, Nat.mul_zero, Nat.add_zero]
    exact (Nat.mod_eq_of_lt h).symm
  | cons d r ih =>
    intro pow result _
    simp only [accumulate, List.foldr_cons]
    rw [ih _ _ (Nat.mod_lt _ (by simp [mantissa_bits]))]
    have e : 10 ^ pow * (d + 10 * List.foldr (fun d n => d + 10 * n) 0 r) =
        d * seq_pow pow + 10 ^ (pow + 1) * List.foldr (fun d n => d + 10 * n) 0 r := by
      simp only [seq_pow]; ring
    rw [e]
    generalize d * seq_pow pow = x
    generalize 10 ^ (pow + 1) * List.foldr (fun d n => d + 10 * n) 0 r = y
    simp only [mantissa_bits]
    omega

/-- The accumulated value is the number the stored digits write, in 64 bits. -/
theorem accumulate_reverse (l : List Nat) :
    accumulate l.reverse 0 0 = nat_of_nats l % 2 ^ mantissa_bits := by
  rw [accumulate_eq _ _ _ (by simp [mantissa_bits]), List.foldr_reverse]
  simp only [pow_zero, Nat.one_mul, Nat.zero_add, nat_of_nats]
  congr 2
  funext n d
  omega

theorem chars_length (str : Nat → Char) (n : Nat) : (chars str n).length = n := by
  simp [chars]

theorem chars_add (str : Nat → Char) (a b : Nat) :
    chars str (a + b) = chars str a ++ chars (advance str a) b := by
  induction a generalizing str with
  | zero => simp [chars, advance_zero]
  | succ a ih =>
    rw [Nat.add_right_comm, chars_cons, chars_cons, ih, advance_advance, Nat.add_comm 1 a,
      List.cons_append]

theorem chars_split (str : Nat → Char) (l1 l2 : List Char)
    (h : chars str (l1 ++ l2).length = l1 ++ l2) :
    chars str l1.length = l1 ∧ chars (advance str l1.length) l2.length = l2 := by
  rw [List.length_append, chars_add] at h
  exact List.append_inj h (chars_length _ _)

/-- A character that stops the scan only sets `go_to_beach`. -/
theorem step_of_stop (X : deps) (kappa : Nat) (str : Nat → Char) (st : digit_scan)
    (h1 : ¬ dec_digit (str st.pos)) (h2 : str st.pos = '.' → st.dot_set = true)
    (h3 : (str st.pos = '+' ∨ str st.pos = '-') → st.pos ≠ 0) :
    parse_digits_step X kappa str st = { st with go_to_beach := true, pos := st.pos + 1 } := by
  have h0 : str st.pos ≠ '0' := fun e => h1 (Or.inl e)
  have h9 : str st.pos ∉ ['1', '2', '3', '4', '5', '6', '7', '8', '9'] := fun e => h1 (Or.inr e)
  unfold parse_digits_step
  simp only [h0, h9, if_false]
  by_cases hd : str st.pos = '.'
  · simp [hd, h2 hd]
  · have hsg : ¬ ((str st.pos = '-' ∨ str st.pos = '+') ∧ st.pos = 0) := by
      rintro ⟨h, hp⟩
      exact h3 h.symm hp
    simp [hd, hsg]

theorem foldl_push_digit (ds : List Char) :
    ∀ a : lit_acc, ds.foldl lit_acc.push_digit a =
      { num := ds.foldl (fun n c => 10 * n + digit_value c) a.num
        frac_len := a.frac_len + (if a.dot then ds.length else 0)
        dot := a.dot
        ndigits := a.ndigits + ds.length } := by
  induction ds with
  | nil => intro a; simp
  | cons c r ih =>
    intro a
    obtain ⟨n, f, d, k⟩ := a
    rw [List.foldl_cons, ih]
    simp only [lit_acc.push_digit, List.foldl_cons, List.length_cons]
    cases d <;> simp <;> omega

/-- The state of `parse_digits` after a well-formed literal with at most
`kappa` digits, followed by a character that ends it: the loop stops at that
character, in a state that is in step with the literal. -/
theorem literal_scan (X : deps) (kappa : Nat) (calc_frac : Bool) (str : Nat → Char)
    (sgn ip fp : List Char) (dot : Bool) (hok : literal_ok sgn ip fp dot)
    (hroom : ip.length + fp.length ≤ kappa)
    (hshort : (literal_text sgn ip fp dot).length ≤ offset)
    (htext : chars str (literal_text sgn ip fp dot).length = literal_text sgn ip fp dot)
    (hend : ends_literal (str (literal_text sgn ip fp dot).length) dot
      (literal_text sgn ip fp dot).length) :
    ∃ st : digit_scan,
      tracks ⟨nat_of_digits (ip ++ fp), fp.length, dot, ip.length + fp.length⟩ st ∧
      st.pos = (literal_text sgn ip fp dot).length ∧
      parse_digits_loop X kappa str (offset + 2) (digit_scan.start calc_frac) =
        { st with go_to_beach := true, pos := st.pos + 1 } := by
  obtain ⟨hsgn, hip, hfp, hnodot⟩ := hok
  -- the three segments of the text
  obtain ⟨ht1, ht23⟩ := chars_split str sgn _ htext
  obtain ⟨ht2, ht3⟩ := chars_split (advance str sgn.length) ip _ ht23
  rw [advance_advance] at ht3
  have hlen : (literal_text sgn ip fp dot).length =
      sgn.length + (ip.length + (if dot then '.' :: fp else []).length) := by
    simp [literal_text]
  -- the sign
  have hA : tracks ⟨0, 0, false, 0⟩ (iter X kappa str sgn.length (digit_scan.start calc_frac)) ∧
      ∀ fuel, parse_digits_loop X kappa str (fuel + sgn.length) (digit_scan.start calc_frac) =
        parse_digits_loop X kappa str fuel
          (iter X kappa str sgn.length (digit_scan.start calc_frac)) := by
    have h0 : tracks ⟨0, 0, false, 0⟩ (digit_scan.start calc_frac) := by
      simp [tracks, digit_scan.start, nat_of_nats]
    rcases hsgn with e | e | e
    · subst e
      exact ⟨h0, fun _ => rfl⟩
    · subst e
      have hc : str 0 = '+' := by simpa [chars, List.range_succ] using ht1
      refine ⟨tracks_sign X kappa str _ _ h0 rfl (Or.inl hc), fun fuel => ?_⟩
      exact loop_of_continue X kappa str fuel _ rfl
    · subst e
      have hc : str 0 = '-' := by simpa [chars, List.range_succ] using ht1
      refine ⟨tracks_sign X kappa str _ _ h0 rfl (Or.inr hc), fun fuel => ?_⟩
      exact loop_of_continue X kappa str fuel _ rfl
  obtain ⟨hA1, hA2⟩ := hA
  set s1 := iter X kappa str sgn.length (digit_scan.start calc_frac) with hs1
  have hp1 : s1.pos = sgn.length := iter_start_pos X kappa str calc_frac _
  -- the integer part
  have hB := fun fuel => tracks_run X kappa str ip ⟨0, 0, false, 0⟩ s1 fuel hA1 hip
    (by rw [hp1]; exact ht2) (by rw [hp1]; omega) (by simp only; omega)
  set s2 := iter X kappa str ip.length s1 with hs2
  have hp2 : s2.pos = sgn.length + ip.length := by rw [hs2, iter_pos, hp1]
  rw [foldl_push_digit] at hB
  simp only [Bool.false_eq_true, if_false, Nat.add_zero, Nat.zero_add] at hB
  have hB1 := (hB 0).1
  have hB2 := fun fuel => (hB fuel).2
  cases dot with
  | false =>
    have hfp0 : fp = [] := hnodot rfl
    subst hfp0
    simp only [Bool.false_eq_true, if_false, List.length_nil, Nat.add_zero] at hlen hshort
    refine ⟨s2, ?_, ?_, ?_⟩
    · simpa [nat_of_digits] using hB1
    · rw [hp2, hlen]
    · obtain ⟨h1, h2, h3⟩ := hend
      rw [hlen, ← hp2] at h1 h2 h3
      have hstop := step_of_stop X kappa str s2 h1
        (fun e => absurd (h2 e) (by decide)) h3
      have hfuel : offset + 2 = ((offset + 1 - s2.pos + 1) + ip.length) + sgn.length := by
        rw [hp2]; omega
      rw [hfuel, hA2, hB2, loop_of_continue X kappa str _ s2 hB1.1, hstop]
      exact loop_of_beach X kappa str _ _ rfl
  | true =>
    simp only [if_true, List.length_cons] at hlen ht3 hshort
    obtain ⟨ht3a, ht3b⟩ := chars_split (advance str (sgn.length + ip.length)) ['.'] fp ht3
    rw [advance_advance] at ht3b
    have hcdot : str s2.pos = '.' := by
      rw [hp2]
      simpa [chars, advance, List.range_succ] using ht3a
    have hC := tracks_dot X kappa str _ s2 hB1 (by rw [hp2]; omega) hcdot rfl
    set s3 := parse_digits_step X kappa str s2 with hs3
    have hp3 : s3.pos = sgn.length + ip.length + 1 := by rw [hs3, step_pos, hp2]
    have hD := fun fuel => tracks_run X kappa str fp _ s3 fuel hC hfp
      (by rw [hp3]; exact ht3b) (by rw [hp3]; omega)
      (by simp only [lit_acc.push_dot]; omega)
    set s4 := iter X kappa str fp.length s3 with hs4
    have hp4 : s4.pos = sgn.length + ip.length + 1 + fp.length := by rw [hs4, iter_pos, hp3]
    rw [foldl_push_digit] at hD
    simp only [lit_acc.push_dot, if_true] at hD
    have hD1 := (hD 0).1
    have hD2 := fun fuel => (hD fuel).2
    refine ⟨s4, ?_, ?_, ?_⟩
    · simpa [nat_of_digits, List.foldl_append] using hD1
    · rw [hp4, hlen]; omega
    · obtain ⟨h1, h2, h3⟩ := hend
      have hpe : (literal_text sgn ip fp true).length = s4.pos := by rw [hp4, hlen]; omega
      rw [hpe] at h1 h2 h3
      have hstop := step_of_stop X kappa str s4 h1 (fun _ => by rw [hD1.2.1]) h3
      have hfuel : offset + 2 =
          ((((offset + 1 - s4.pos + 1) + fp.length) + 1) + ip.length) + sgn.length := by
        rw [hp4]; omega
      rw [hfuel, hA2, hB2, loop_of_continue X kappa str _ s2 hB1.1, ← hs3, hD2,
        loop_of_continue X kappa str _ s4 hD1.1, hstop]
      exact loop_of_beach X kappa str _ _ rfl

/-! ## What the scan depends on -/

/-- One iteration depends on the buffer only through the character at `pos`,
but for the fractional remainder `frac`, and on no absent function. -/
theorem step_core (X Y : deps) (kappa : Nat) (s1 s2 : Nat → Char) (st1 st2 : digit_scan)
    (h : st1.core = st2.core) (hc : s1 st1.pos = s2 st2.pos) :
    (parse_digits_step X kappa s1 st1).core = (parse_digits_step Y kappa s2 st2).core := by
  obtain ⟨sg1, fr1, pd1, dt1, fc1, pg1, zs1, fd1, gb1, ps1⟩ := st1
  obtain ⟨sg2, fr2, pd2, dt2, fc2, pg2, zs2, fd2, gb2, ps2⟩ := st2
  simp only [digit_scan.core, digit_scan.mk.injEq, true_and] at h
  obtain ⟨rfl, rfl, rfl, rfl, rfl, rfl, rfl, rfl, rfl⟩ := h
  simp only at hc
  unfold parse_digits_step digit_scan.core
  simp only [hc]
  split_ifs <;> simp

theorem iter_core_agree (X Y : deps) (kappa : Nat) (s1 s2 : Nat → Char) (c : Bool) (n : Nat)
    (h : ∀ j, j < n → s1 j = s2 j) :
    (iter X kappa s1 n (digit_scan.start c)).core = (iter Y kappa s2 n (digit_scan.start c)).core := by
  induction n with
  | zero => rfl
  | succ n ih =>
    rw [iter_succ, iter_succ]
    apply step_core
    · exact ih (fun j hj => h j (by omega))
    · rw [iter_start_pos, iter_start_pos]
      exact h n (by omega)

theorem core_go_to_beach (st1 st2 : digit_scan) (h : st1.core = st2.core) :
    st1.go_to_beach = st2.go_to_beach := by
  have := congrArg digit_scan.go_to_beach h
  simpa [digit_scan.core] using this

/-- The final state of the loop, but for `frac`, depends only on the
characters at indices up to `offset + 1`, and on no absent function. -/
theorem loop_core_agree (X Y : deps) (kappa : Nat) (s1 s2 : Nat → Char) (c : Bool)
    (h : ∀ j, j < offset + 2 → s1 j = s2 j) :
    (parse_digits_loop X kappa s1 (offset + 2) (digit_scan.start c)).core =
      (parse_digits_loop Y kappa s2 (offset + 2) (digit_scan.start c)).core := by
  obtain ⟨k, hk, hloop, hstop, hbefore⟩ := loop_halts X kappa s1 (offset + 2) (digit_scan.start c)
    (Or.inr ⟨by simp [digit_scan.start], by simp [digit_scan.start]⟩)
  have hag : ∀ j, j ≤ k → (iter X kappa s1 j (digit_scan.start c)).core =
      (iter Y kappa s2 j (digit_scan.start c)).core := fun j hj =>
    iter_core_agree X Y kappa s1 s2 c j (fun i hi => h i (by omega))
  have hloop2 : parse_digits_loop Y kappa s2 (offset + 2) (digit_scan.start c) =
      iter Y kappa s2 k (digit_scan.start c) := by
    apply loop_eq_iter Y kappa s2 k _ _ hk
    · intro j hj
      rw [← core_go_to_beach _ _ (hag j (by omega))]
      exact hbefore j hj
    · rw [← core_go_to_beach _ _ (hag k (le_refl _))]
      exact hstop
  rw [hloop, hloop2]
  exact hag k (le_refl _)

/-- Two buffers that agree before their common first terminating character
are scanned to the same final state, but for `frac`. -/
theorem loop_core_agree_of_stop (X Y : deps) (kappa : Nat) (s1 s2 : Nat → Char) (c : Bool)
    (t : Nat) (h : ∀ j, j < t → s1 j = s2 j) (h1 : first_stop s1 t) (h2 : first_stop s2 t) :
    (parse_digits_loop X kappa s1 (offset + 2) (digit_scan.start c)).core =
      (parse_digits_loop Y kappa s2 (offset + 2) (digit_scan.start c)).core := by
  by_cases ht : t ≤ offset + 1
  · rw [loop_first_stop X kappa s1 c t ht h1, loop_first_stop Y kappa s2 c t ht h2]
    have := iter_core_agree X Y kappa s1 s2 c t h
    simp only [digit_scan.core, digit_scan.mk.injEq] at this ⊢
    obtain ⟨e1, e2, e3, e4, e5, e6, e7, e8, e9, e10⟩ := this
    exact ⟨e1, e2, e3, e4, e5, e6, e7, e8, trivial, trivial⟩
  · exact loop_core_agree X Y kappa s1 s2 c (fun j hj => h j (by omega))

/-- The members of the result other than `frac`, read off the core of the
final state. -/
theorem parse_digits_of_core (X Y : deps) (kappa : Nat) (c : Bool) (s1 s2 : Nat → Char)
    (h : (parse_digits_loop X kappa s1 (offset + 2) (digit_scan.start c)).core =
      (parse_digits_loop Y kappa s2 (offset + 2) (digit_scan.start c)).core) :
    (parse_digits X kappa c s1).value = (parse_digits Y kappa c s2).value ∧
    (parse_digits X kappa c s1).K = (parse_digits Y kappa c s2).K ∧
    (parse_digits X kappa c s1).str_end = (parse_digits Y kappa c s2).str_end ∧
    (parse_digits X kappa c s1).sign = (parse_digits Y kappa c s2).sign := by
  simp only [digit_scan.core, digit_scan.mk.injEq] at h
  obtain ⟨e1, -, e3, e4, e5, e6, e7, e8, e9, e10⟩ := h
  simp only [parse_digits, e1, e3, e6, e8, e10, and_self]

/-- The value, `K`, `str_end` and sign that `parse_digits` returns do not
depend on the absent function `convert_numerator`. -/
theorem parse_digits_deps_irrelevant (X Y : deps) (kappa : Nat) (c : Bool) (str : Nat → Char) :
    (parse_digits X kappa c str).value = (parse_digits Y kappa c str).value ∧
    (parse_digits X kappa c str).K = (parse_digits Y kappa c str).K ∧
    (parse_digits X kappa c str).str_end = (parse_digits Y kappa c str).str_end ∧
    (parse_digits X kappa c str).sign = (parse_digits Y kappa c str).sign :=
  parse_digits_of_core X Y kappa c str str
    (loop_core_agree X Y kappa str str c (fun _ _ => rfl))

/-! ## C2: exact decimal bookkeeping -/

theorem literal_text_length_le (sgn ip fp : List Char) (dot : Bool)
    (hok : literal_ok sgn ip fp dot) :
    (literal_text sgn ip fp dot).length ≤ ip.length + fp.length + 2 := by
  obtain ⟨hsgn, _, _, hnodot⟩ := hok
  have h1 : sgn.length ≤ 1 := by
    rcases hsgn with e | e | e <;> simp [e]
  cases dot with
  | false =>
    simp only [literal_text, List.length_append, Bool.false_eq_true, if_false, List.length_nil]
    omega
  | true =>
    simp only [literal_text, List.length_append, if_true, List.length_cons]
    omega

/-- C2 (amended): for every capacity `kappa ≤ decimal_q = 19` and every input
made of an optional leading sign, then decimal digits with at most one `.`,
holding at most `kappa` digit characters and followed by a character that ends
the literal, `parse_digits<kappa, calc_frac>` returns `value` and `K` with
`value × 10 ^ K` exactly the unsigned rational number the literal denotes: the
number its digits write divided by ten to the number of fraction digits. -/
theorem parse_digits_exact (X : deps) (kappa : Nat) (calc_frac : Bool) (str : Nat → Char)
    (sgn ip fp : List Char) (dot : Bool) (hk : kappa ≤ decimal_q)
    (hok : literal_ok sgn ip fp dot) (hroom : ip.length + fp.length ≤ kappa)
    (htext : chars str (literal_text sgn ip fp dot).length = literal_text sgn ip fp dot)
    (hend : ends_literal (str (literal_text sgn ip fp dot).length) dot
      (literal_text sgn ip fp dot).length) :
    ((parse_digits X kappa calc_frac str).value : ℚ) *
        (10 : ℚ) ^ (parse_digits X kappa calc_frac str).K =
      (nat_of_digits (ip ++ fp) : ℚ) / (10 : ℚ) ^ fp.length := by
  have hlen := literal_text_length_le sgn ip fp dot hok
  have hshort : (literal_text sgn ip fp dot).length ≤ offset := by
    simp only [decimal_q] at hk
    simp only [offset]
    omega
  obtain ⟨st, htr, _, hloop⟩ :=
    literal_scan X kappa calc_frac str sgn ip fp dot hok hroom hshort htext hend
  obtain ⟨_, _, hnum, hfrac, _, hlen2, hdig, _, _⟩ := htr
  simp only at hnum hfrac hlen2
  have hsize : st.parsed_digits.length ≤ 19 := by
    simp only [decimal_q] at hk
    omega
  have hlt : nat_of_nats st.parsed_digits < 2 ^ mantissa_bits := by
    have h1 := nat_of_nats_lt st.parsed_digits hdig
    have h2 : 10 ^ st.parsed_digits.length ≤ 10 ^ 19 := Nat.pow_le_pow_right (by norm_num) hsize
    have h3 : (10 : Nat) ^ 19 < 2 ^ mantissa_bits := by norm_num [mantissa_bits]
    omega
  have hval : (parse_digits X kappa calc_frac str).value = nat_of_nats st.parsed_digits := by
    simp only [parse_digits, hloop]
    rw [accumulate_reverse, Nat.mod_eq_of_lt hlt]
  have hK : (parse_digits X kappa calc_frac str).K =
      (st.zero_substring_length : Int) - (fp.length : Int) := by
    simp only [parse_digits, hloop]
    omega
  rw [hval, hK, hnum, zpow_sub₀ (by norm_num : (10 : ℚ) ≠ 0), zpow_natCast, zpow_natCast]
  push_cast
  ring

/-- The theorem `parse_digits_exact` at the literal `100.5` with capacity 19:
value 1005 and K = -1; and the other examples of C2: `0.001` gives value 1 and
K = -3, `100` gives value 1 and K = 2. -/
theorem parse_digits_exact_witness :
    literal_ok [] ['1', '0', '0'] ['5'] true ∧
    ((parse_digits deps.sample 19 true (cstr ['1', '0', '0', '.', '5'])).value : ℚ) *
        (10 : ℚ) ^ (parse_digits deps.sample 19 true (cstr ['1', '0', '0', '.', '5'])).K =
      (nat_of_digits (['1', '0', '0'] ++ ['5']) : ℚ) / (10 : ℚ) ^ ['5'].length ∧
    (parse_digits deps.sample 19 true (cstr ['1', '0', '0', '.', '5'])).value = 1005 ∧
    (parse_digits deps.sample 19 true (cstr ['1', '0', '0', '.', '5'])).K = -1 ∧
    (parse_digits deps.sample 19 true (cstr ['0', '.', '0', '0', '1'])).value = 1 ∧
    (parse_digits deps.sample 19 true (cstr ['0', '.', '0', '0', '1'])).K = -3 ∧
    (parse_digits deps.sample 19 true (cstr ['1', '0', '0'])).value = 1 ∧
    (parse_digits deps.sample 19 true (cstr ['1', '0', '0'])).K = 2 :=
  ⟨by decide,
    parse_digits_exact deps.sample 19 true (cstr ['1', '0', '0', '.', '5']) []
      ['1', '0', '0'] ['5'] true (by decide) (by decide) (by decide) (by decide) (by decide),
    by decide, by decide, by decide, by decide, by decide, by decide⟩

/-- C2 as stated, for every capacity, fails at capacity 20: the literal
`18446744073709551616` is well formed, has 20 digits and is followed by NUL,
but the 64-bit accumulation wraps around and `parse_digits<20, true>` returns
value 0 and K = 0, while the literal denotes 2 ^ 64. -/
theorem parse_digits_exact_fails_at_capacity_20 :
    literal_ok [] two_pow_64_text [] false ∧
    two_pow_64_text.length + ([] : List Char).length ≤ 20 ∧
    chars (cstr two_pow_64_text) (literal_text [] two_pow_64_text [] false).length =
      literal_text [] two_pow_64_text [] false ∧
    ends_literal (cstr two_pow_64_text (literal_text [] two_pow_64_text [] false).length) false
      (literal_text [] two_pow_64_text [] false).length ∧
    (parse_digits deps.sample 20 true (cstr two_pow_64_text)).value = 0 ∧
    (parse_digits deps.sample 20 true (cstr two_pow_64_text)).K = 0 ∧
    nat_of_digits (two_pow_64_text ++ []) = 2 ^ 64 ∧
    ((parse_digits deps.sample 20 true (cstr two_pow_64_text)).value : ℚ) *
        (10 : ℚ) ^ (parse_digits deps.sample 20 true (cstr two_pow_64_text)).K ≠
      (nat_of_digits (two_pow_64_text ++ []) : ℚ) / (10 : ℚ) ^ ([] : List Char).length := by
  have hv : (parse_digits deps.sample 20 true (cstr two_pow_64_text)).value = 0 := by decide
  have hK : (parse_digits deps.sample 20 true (cstr two_pow_64_text)).K = 0 := by decide
  have hn : nat_of_digits (two_pow_64_text ++ []) = 2 ^ 64 := by decide
  refine ⟨by decide, by decide, by decide, by decide, hv, hK, hn, ?_⟩
  rw [hv, hK, hn]
  norm_num

/-! ## C7, C8: sign detection and the end-of-input offset -/

theorem step_sign (X : deps) (kappa : Nat) (str : Nat → Char) (st : digit_scan) :
    (parse_digits_step X kappa str st).sign =
      if (str st.pos = '-' ∨ str st.pos = '+') ∧ st.pos = 0 then decide (str st.pos ≠ '-')
      else st.sign := by
  by_cases h0 : str st.pos = '0'
  · have hs : ¬ ((str st.pos = '-' ∨ str st.pos = '+') ∧ st.pos = 0) := by
      rw [h0]; rintro ⟨h | h, _⟩ <;> exact absurd h (by decide)
    rw [if_neg hs]
    unfold parse_digits_step
    simp only [h0, if_true]
    split_ifs <;> rfl
  by_cases h9 : str st.pos ∈ ['1', '2', '3', '4', '5', '6', '7', '8', '9']
  · have hs : ¬ ((str st.pos = '-' ∨ str st.pos = '+') ∧ st.pos = 0) := by
      rintro ⟨h | h, _⟩ <;> rw [h] at h9 <;> exact absurd h9 (by decide)
    rw [if_neg hs]
    unfold parse_digits_step
    simp only [h0, h9, if_true, if_false]
    split_ifs <;> rfl
  by_cases hd : str st.pos = '.'
  · have hs : ¬ ((str st.pos = '-' ∨ str st.pos = '+') ∧ st.pos = 0) := by
      rw [hd]; rintro ⟨h | h, _⟩ <;> exact absurd h (by decide)
    rw [if_neg hs]
    unfold parse_digits_step
    simp only [hd]
    rfl
  · unfold parse_digits_step
    simp only [h0, h9, hd, if_false]
    by_cases hs : (str st.pos = '-' ∨ str st.pos = '+') ∧ st.pos = 0
    · rw [if_pos hs, if_pos hs]
      show decide ((('-'.toNat : Int) - ((str st.pos).toNat : Int)) ≠ 0) = decide (str st.pos ≠ '-')
      rcases hs.1 with e | e <;> rw [e] <;> decide
    · rw [if_neg hs, if_neg hs]

theorem iter_sign (X : deps) (kappa : Nat) (str : Nat → Char) (c : Bool) (k : Nat) :
    (iter X kappa str (k + 1) (digit_scan.start c)).sign = decide (str 0 ≠ '-') := by
  induction k with
  | zero =>
    rw [iter_succ, iter_zero, step_sign]
    simp only [digit_scan.start, and_true]
    by_cases hs : str 0 = '-' ∨ str 0 = '+'
    · rw [if_pos hs]
    · rw [if_neg hs]
      have : str 0 ≠ '-' := fun e => hs (Or.inl e)
      simp [this]
  | succ k ih =>
    rw [iter_succ, step_sign, iter_start_pos, ih]
    simp

/-- The final state of the loop is the state after some `k + 1` iterations,
with `k ≤ offset + 1`. -/
theorem loop_is_iter (X : deps) (kappa : Nat) (str : Nat → Char) (c : Bool) :
    ∃ k, k ≤ offset + 1 ∧
      parse_digits_loop X kappa str (offset + 2) (digit_scan.start c) =
        iter X kappa str (k + 1) (digit_scan.start c) := by
  obtain ⟨k, hk, hloop, hstop, _⟩ := loop_halts X kappa str (offset + 2) (digit_scan.start c)
    (Or.inr ⟨by simp [digit_scan.start], by simp [digit_scan.start]⟩)
  cases k with
  | zero => exact absurd hstop (by simp [iter, digit_scan.start])
  | succ k => exact ⟨k, by omega, hloop⟩

/-- The scan never returns an offset beyond `offset + 1`. -/
theorem parse_digits_str_end_le (X : deps) (kappa : Nat) (c : Bool) (str : Nat → Char) :
    (parse_digits X kappa c str).str_end ≤ offset + 1 := by
  obtain ⟨k, hk, hloop⟩ := loop_is_iter X kappa str c
  simp only [parse_digits, hloop, iter_start_pos]
  omega

theorem parse_digits_str_end_of_stop (X : deps) (kappa : Nat) (c : Bool) (str : Nat → Char)
    (t : Nat) (ht : t ≤ offset + 1) (h : first_stop str t) :
    (parse_digits X kappa c str).str_end = t := by
  simp only [parse_digits, loop_first_stop X kappa str c t ht h]
  omega

theorem dot_before_cut (str : Nat → Char) (i j : Nat) (h : j ≤ i) :
    dot_before (cut str i) j ↔ dot_before str j := by
  unfold dot_before cut
  constructor
  · rintro ⟨m, hm, hs⟩
    rw [if_pos (by omega)] at hs
    exact ⟨m, hm, hs⟩
  · rintro ⟨m, hm, hs⟩
    exact ⟨m, hm, by rw [if_pos (by omega)]; exact hs⟩

theorem terminating_cut_lt (str : Nat → Char) (i j : Nat) (h : j < i) :
    terminating (cut str i) j ↔ terminating str j := by
  unfold terminating
  rw [dot_before_cut str i j (by omega)]
  have e : cut str i j = str j := by simp [cut, h]
  rw [e]

theorem terminating_cut_self (str : Nat → Char) (i : Nat) : terminating (cut str i) i := by
  have e : cut str i i = Char.ofNat 0 := by simp [cut]
  unfold terminating
  rw [e]
  refine ⟨by decide, ?_, ?_⟩
  · rintro ⟨h, _⟩; exact absurd h (by decide)
  · rintro ⟨h | h, _⟩ <;> exact absurd h (by decide)

theorem first_stop_cut (str : Nat → Char) (i t : Nat) (hti : t ≤ i) (h : first_stop str t) :
    first_stop (cut str i) t := by
  refine ⟨?_, fun j hj => ?_⟩
  · by_cases e : t = i
    · rw [e]; exact terminating_cut_self str i
    · exact (terminating_cut_lt str i t (by omega)).mpr h.1
  · rw [terminating_cut_lt str i j (by omega)]
    exact h.2 j hj

theorem first_stop_exists (str : Nat → Char) (i : Nat) (h : terminating str i) :
    ∃ t, t ≤ i ∧ first_stop str t := by
  have hex : ∃ j, terminating str j := ⟨i, h⟩
  refine ⟨Nat.find hex, Nat.find_min' hex h, Nat.find_spec hex, fun j hj => Nat.find_min hex hj⟩

theorem terminating_of_sign (str : Nat → Char) (i : Nat) (hi : 1 ≤ i)
    (hs : str i = '+' ∨ str i = '-') : terminating str i := by
  unfold terminating
  refine ⟨?_, ?_, ?_⟩
  · rcases hs with e | e <;> rw [e] <;> decide
  · rintro ⟨h, _⟩
    rcases hs with e | e <;> rw [e] at h <;> exact absurd h (by decide)
  · rintro ⟨_, h⟩
    omega

/-- The returned sign is false exactly when the first character is `-`. -/
theorem sign_false_iff (X : deps) (kappa : Nat) (calc_frac : Bool) (str : Nat → Char) :
    (parse_digits X kappa calc_frac str).sign = false ↔ str 0 = '-' := by
  obtain ⟨k, _, hloop⟩ := loop_is_iter X kappa str calc_frac
  simp only [parse_digits, hloop, iter_sign]
  simp

/-- C7: for every input the returned sign is false exactly when the character
at index 0 is `-`; and a `+` or `-` at an index `i` other than 0 terminates
the scan: the returned `str_end` is at most `i`, it is `i` when no terminating
character comes before `i` and `i` is within the ceiling, and value and `K` are
those of the buffer cut at `i`, that is computed from the characters before
it only. -/
theorem parse_digits_sign (X : deps) (kappa : Nat) (calc_frac : Bool) (str : Nat → Char) :
    ((parse_digits X kappa calc_frac str).sign = false ↔ str 0 = '-') ∧
    ∀ i, 1 ≤ i → (str i = '+' ∨ str i = '-') →
      (parse_digits X kappa calc_frac str).str_end ≤ i ∧
      ((∀ j, j < i → ¬ terminating str j) → i ≤ offset + 1 →
        (parse_digits X kappa calc_frac str).str_end = i) ∧
      (parse_digits X kappa calc_frac str).value =
        (parse_digits X kappa calc_frac (cut str i)).value ∧
      (parse_digits X kappa calc_frac str).K = (parse_digits X kappa calc_frac (cut str i)).K := by
  constructor
  · exact sign_false_iff X kappa calc_frac str
  · intro i hi hs
    have hterm := terminating_of_sign str i hi hs
    obtain ⟨t, hti, hfirst⟩ := first_stop_exists str i hterm
    refine ⟨?_, ?_, ?_⟩
    · by_cases ht : t ≤ offset + 1
      · rw [parse_digits_str_end_of_stop X kappa calc_frac str t ht hfirst]
        exact hti
      · have := parse_digits_str_end_le X kappa calc_frac str
        omega
    · intro hnone hle
      exact parse_digits_str_end_of_stop X kappa calc_frac str i hle ⟨hterm, hnone⟩
    · have hcore := loop_core_agree_of_stop X X kappa str (cut str i) calc_frac t
        (fun j hj => by simp only [cut]; rw [if_pos (by omega)]) hfirst (first_stop_cut str i t hti hfirst)
      have := parse_digits_of_core X X kappa calc_frac str (cut str i) hcore
      exact ⟨this.1, this.2.1⟩

/-- The examples of C7: `1-2` gives value 1, offset 1 and a positive sign;
`+-1` gives value 0 and offset 1; `-5` gives a negative sign. -/
theorem parse_digits_sign_examples :
    (parse_digits deps.sample decimal_q true (cstr ['1', '-', '2'])).value = 1 ∧
    (parse_digits deps.sample decimal_q true (cstr ['1', '-', '2'])).str_end = 1 ∧
    (parse_digits deps.sample decimal_q true (cstr ['1', '-', '2'])).sign = true ∧
    (parse_digits deps.sample decimal_q true (cstr ['+', '-', '1'])).value = 0 ∧
    (parse_digits deps.sample decimal_q true (cstr ['+', '-', '1'])).str_end = 1 ∧
    (parse_digits deps.sample decimal_q true (cstr ['-', '5'])).sign = false := by
  have h := (parse_digits_sign deps.sample decimal_q true (cstr ['-', '5'])).1
  exact ⟨by decide, by decide, by decide, by decide, by decide, h.mpr (by decide)⟩

/-- C8: for every input whose first terminating character is at an index
`t ≤ 2048`, `parse_digits` returns `str_end = str + t`, and its value and `K`
depend only on the characters before index `t`: any buffer with the same
characters before `t` and its first terminating character at `t` gives the
same value and `K`. A second decimal point is a terminating character. -/
theorem parse_digits_str_end (X : deps) (kappa : Nat) (calc_frac : Bool) (str : Nat → Char)
    (t : Nat) (ht : t ≤ offset) (h : first_stop str t) :
    (parse_digits X kappa calc_frac str).str_end = t ∧
    (∀ (Y : deps) (str2 : Nat → Char), (∀ j, j < t → str2 j = str j) → first_stop str2 t →
      (parse_digits Y kappa calc_frac str2).value = (parse_digits X kappa calc_frac str).value ∧
      (parse_digits Y kappa calc_frac str2).K = (parse_digits X kappa calc_frac str).K) ∧
    (∀ i, str i = '.' → dot_before str i → terminating str i) := by
  refine ⟨parse_digits_str_end_of_stop X kappa calc_frac str t (by omega) h, ?_, ?_⟩
  · intro Y str2 hag h2
    have hcore := loop_core_agree_of_stop Y X kappa str2 str calc_frac t hag h2 h
    have := parse_digits_of_core Y X kappa calc_frac str2 str hcore
    exact ⟨this.1, this.2.1⟩
  · intro i hd hb
    unfold terminating
    rw [hd]
    refine ⟨by decide, fun hc => hc.2 hb, ?_⟩
    rintro ⟨hc | hc, _⟩ <;> exact absurd hc (by decide)

/-- The theorem `parse_digits_str_end` at the input `1.2.3`, whose second
decimal point is at index 3: offset 3, value 12, K = -1. -/
theorem parse_digits_str_end_witness :
    first_stop (cstr ['1', '.', '2', '.', '3']) 3 ∧
    (parse_digits deps.sample decimal_q true (cstr ['1', '.', '2', '.', '3'])).str_end = 3 ∧
    (parse_digits deps.sample decimal_q true (cstr ['1', '.', '2', '.', '3'])).value = 12 ∧
    (parse_digits deps.sample decimal_q true (cstr ['1', '.', '2', '.', '3'])).K = -1 :=
  ⟨by unfold first_stop; decide,
    (parse_digits_str_end deps.sample decimal_q true (cstr ['1', '.', '2', '.', '3']) 3
      (by decide) (by unfold first_stop; decide)).1,
    by decide, by decide⟩

/-! ## C6: the exponent suffix -/

/-- C6: for every input made of `e` or `E`, an optional `+` or `-`, then one to
three decimal digits, followed by a character that is neither a digit nor `.`,
`parse_exponent` returns the integer the digits write, negated exactly when the
sign is `-`, and `str_end` just after the last digit. -/
theorem parse_exponent_value (X : deps) (str : Nat → Char) (sgn ds : List Char)
    (hmark : str 0 = 'e' ∨ str 0 = 'E')
    (hsgn : sgn = [] ∨ sgn = ['+'] ∨ sgn = ['-'])
    (hds : ∀ c, c ∈ ds → dec_digit c) (hlen : 1 ≤ ds.length ∧ ds.length ≤ 3)
    (htext : chars (advance str 1) (sgn ++ ds).length = sgn ++ ds)
    (hend : ¬ dec_digit (str (1 + (sgn ++ ds).length)) ∧ str (1 + (sgn ++ ds).length) ≠ '.') :
    parse_exponent X str =
      { value := if sgn = ['-'] then -(nat_of_digits ds : Int) else (nat_of_digits ds : Int)
        str_end := 1 + (sgn ++ ds).length } := by
  have htxt : literal_text sgn ds [] false = sgn ++ ds := by simp [literal_text]
  have hn : 1 ≤ (sgn ++ ds).length := by
    rw [List.length_append]; omega
  have hsl : sgn.length ≤ 1 := by
    rcases hsgn with e | e | e <;> simp [e]
  obtain ⟨st, htr, hpos, hloop⟩ := literal_scan X exponent_decimal_digits false (advance str 1)
    sgn ds [] false ⟨hsgn, hds, by simp, fun _ => rfl⟩
    (by simp only [exponent_decimal_digits, List.length_nil]; omega)
    (by rw [htxt, List.length_append]; simp only [offset]; omega)
    (by rw [htxt]; exact htext)
    (by
      rw [htxt]
      refine ⟨by simpa [advance] using hend.1, fun e => ?_, fun _ => by omega⟩
      exact absurd (by simpa [advance] using e) hend.2)
  obtain ⟨_, hdot, hnum, hfrac, hpg, hlen2, hdig, hz, _⟩ := htr
  simp only [List.append_nil, List.length_nil, Nat.add_zero, Nat.cast_zero] at hnum hfrac hlen2
  rw [htxt] at hpos
  -- the value and K of the digit scan
  have hP := nat_of_nats_lt st.parsed_digits hdig
  have hzle : st.zero_substring_length ≤ 2 := by
    by_cases he : st.parsed_digits = []
    · have := hz he hdot
      omega
    · have : 1 ≤ st.parsed_digits.length := List.length_pos.mpr he
      omega
  have hN : nat_of_digits ds < 1000 := by
    have h1 : nat_of_nats st.parsed_digits * 10 ^ st.zero_substring_length <
        10 ^ st.parsed_digits.length * 10 ^ st.zero_substring_length :=
      Nat.mul_lt_mul_of_pos_right hP (by positivity)
    rw [← pow_add] at h1
    have h2 : 10 ^ (st.parsed_digits.length + st.zero_substring_length) ≤ 10 ^ 3 :=
      Nat.pow_le_pow_right (by norm_num) (by omega)
    omega
  have hPlt : nat_of_nats st.parsed_digits < 2 ^ mantissa_bits := by
    have : nat_of_nats st.parsed_digits ≤
        nat_of_nats st.parsed_digits * 10 ^ st.zero_substring_length :=
      Nat.le_mul_of_pos_right _ (by positivity)
    simp only [mantissa_bits]
    omega
  have hval : (parse_digits X exponent_decimal_digits false (advance str 1)).value =
      nat_of_nats st.parsed_digits := by
    simp only [parse_digits, hloop]
    rw [accumulate_reverse, Nat.mod_eq_of_lt hPlt]
  have hK : (parse_digits X exponent_decimal_digits false (advance str 1)).K =
      (st.zero_substring_length : Int) := by
    simp only [parse_digits, hloop]
    omega
  have hend2 : (parse_digits X exponent_decimal_digits false (advance str 1)).str_end =
      (sgn ++ ds).length := by
    simp only [parse_digits, hloop, hpos]
    omega
  have hsign := sign_false_iff X exponent_decimal_digits false (advance str 1)
  have hfirst : advance str 1 0 = '-' ↔ sgn = ['-'] := by
    obtain ⟨h1, h2⟩ := chars_split (advance str 1) sgn ds htext
    rcases hsgn with e | e | e
    · subst e
      simp only [List.length_nil, advance_zero] at h2
      obtain ⟨c, r, hcr⟩ : ∃ c r, ds = c :: r := by
        cases ds with
        | nil => simp at hlen
        | cons c r => exact ⟨c, r, rfl⟩
      subst hcr
      rw [List.length_cons, chars_cons] at h2
      have hc : advance str 1 0 = c := (List.cons.inj h2).1
      have hdc : dec_digit c := hds c (List.mem_cons_self _ _)
      rw [hc]
      constructor
      · intro e
        rw [e] at hdc
        exact absurd hdc (by decide)
      · intro e
        exact absurd e (by simp)
    · subst e
      have hc : advance str 1 0 = '+' := by simpa [chars, List.range_succ] using h1
      rw [hc]
      constructor
      · intro e; exact absurd e (by decide)
      · intro e; exact absurd e (by decide)
    · subst e
      have hc : advance str 1 0 = '-' := by simpa [chars, List.range_succ] using h1
      rw [hc]
      simp
  have hprod : int_of_uint64 ((nat_of_nats st.parsed_digits *
      uint64_of_int (seq_pow_int X (st.zero_substring_length : Int))) % 2 ^ mantissa_bits) =
      (nat_of_digits ds : Int) := by
    have hsp : seq_pow_int X (st.zero_substring_length : Int) =
        ((10 ^ st.zero_substring_length : Nat) : Int) := by
      unfold seq_pow_int
      rw [if_pos ⟨by omega, by omega⟩]
      simp [seq_pow]
    have hpow : 10 ^ st.zero_substring_length ≤ 100 := by
      have : 10 ^ st.zero_substring_length ≤ 10 ^ 2 := Nat.pow_le_pow_right (by norm_num) hzle
      omega
    have hu : uint64_of_int ((10 ^ st.zero_substring_length : Nat) : Int) =
        10 ^ st.zero_substring_length := by
      unfold uint64_of_int
      generalize 10 ^ st.zero_substring_length = p at hpow
      omega
    rw [hsp, hu, ← hnum]
    unfold int_of_uint64
    simp only [mantissa_bits]
    have h1 : nat_of_digits ds % 2 ^ 64 % 2 ^ 32 = nat_of_digits ds := by omega
    rw [h1, if_pos (by omega)]
  have hnm : ¬ (str 0 ≠ 'e' ∧ str 0 ≠ 'E') := by
    rintro ⟨h1, h2⟩
    rcases hmark with e | e
    · exact h1 e
    · exact h2 e
  unfold parse_exponent
  rw [if_neg hnm]
  simp only [hval, hK, hend2, hprod]
  by_cases hm : sgn = ['-']
  · have : (parse_digits X exponent_decimal_digits false (advance str 1)).sign = false :=
      hsign.mpr (hfirst.mpr hm)
    simp [this, hm]
  · have : ¬ (parse_digits X exponent_decimal_digits false (advance str 1)).sign = false :=
      fun e => hm (hfirst.mp (hsign.mp e))
    simp [this, hm]

/-- The theorem `parse_exponent_value` at the input `e-10x`: value -10 and
offset 4; and the input `E007` gives 7. -/
theorem parse_exponent_value_witness :
    parse_exponent deps.sample (cstr ['e', '-', '1', '0', 'x']) =
      { value := if ['-'] = ['-'] then -(nat_of_digits ['1', '0'] : Int)
          else (nat_of_digits ['1', '0'] : Int)
        str_end := 1 + (['-'] ++ ['1', '0']).length } ∧
    (parse_exponent deps.sample (cstr ['e', '-', '1', '0', 'x'])).value = -10 ∧
    (parse_exponent deps.sample (cstr ['e', '-', '1', '0', 'x'])).str_end = 4 ∧
    (parse_exponent deps.sample (cstr ['E', '0', '0', '7'])).value = 7 :=
  ⟨parse_exponent_value deps.sample (cstr ['e', '-', '1', '0', 'x']) ['-'] ['1', '0']
      (by decide) (by decide) (by decide) (by decide) (by decide) (by decide),
    by decide, by decide, by decide⟩

/-! ## C3: zeros after the decimal point use up capacity -/

/-- C3, the code at two failing inputs, with capacity `decimal_q = 19`.
For `0.` followed by 19 zeros and `1` the claim gives value 1 and K = -20; the
code drops the digit and returns value 0 and K = 0. For
`0.001234567890123456789`, with 19 digits from the first nonzero one on, the
claim gives value 1234567890123456789 and K = -21; the code stores the two
zeros, drops `89` and returns value 12345678901234567 and K = -19. -/
theorem parse_digits_leading_zeros_use_capacity (X : deps) :
    (parse_digits X decimal_q true (cstr tiny_text)).value = 0 ∧
    (parse_digits X decimal_q true (cstr tiny_text)).K = 0 ∧
    (parse_digits X decimal_q true (cstr shifted_text)).value = 12345678901234567 ∧
    (parse_digits X decimal_q true (cstr shifted_text)).K = -19 := by
  have h1 := parse_digits_deps_irrelevant X deps.sample decimal_q true (cstr tiny_text)
  have h2 := parse_digits_deps_irrelevant X deps.sample decimal_q true (cstr shifted_text)
  rw [h1.1, h1.2.1, h2.1, h2.2.1]
  exact ⟨by decide, by decide, by decide, by decide⟩

/-! ## C4: a mantissa without digits -/

theorem step_no_digit (X : deps) (kappa : Nat) (str : Nat → Char) (st : digit_scan)
    (h : ¬ dec_digit (str st.pos)) :
    (parse_digits_step X kappa str st).parsed_digits = st.parsed_digits ∧
    (parse_digits_step X kappa str st).pow_gain = st.pow_gain ∧
    (parse_digits_step X kappa str st).fraction_digits_count = st.fraction_digits_count := by
  have h0 : str st.pos ≠ '0' := fun e => h (Or.inl e)
  have h9 : str st.pos ∉ ['1', '2', '3', '4', '5', '6', '7', '8', '9'] := fun e => h (Or.inr e)
  unfold parse_digits_step
  simp only [h0, h9, if_false]
  split_ifs <;> exact ⟨rfl, rfl, rfl⟩

theorem iter_no_digit (X : deps) (kappa : Nat) (str : Nat → Char) (c : Bool) (n : Nat)
    (h : ∀ j, j < n → ¬ dec_digit (str j)) :
    (iter X kappa str n (digit_scan.start c)).parsed_digits = [] ∧
    (iter X kappa str n (digit_scan.start c)).pow_gain = 0 ∧
    (iter X kappa str n (digit_scan.start c)).fraction_digits_count = 0 := by
  induction n with
  | zero => exact ⟨rfl, rfl, rfl⟩
  | succ n ih =>
    have hstep := step_no_digit X kappa str (iter X kappa str n (digit_scan.start c))
      (by rw [iter_start_pos]; exact h n (by omega))
    have hprev := ih (fun j hj => h j (by omega))
    rw [iter_succ, hstep.1, hstep.2.1, hstep.2.2]
    exact hprev

/-- Before any digit, only a sign at index 0 and one decimal point can be read:
the scan stops at index 2 at the latest. -/
theorem first_stop_no_digit_le (str : Nat → Char) (t : Nat) (h : first_stop str t)
    (hnd : ∀ j, j < t → ¬ dec_digit (str j)) : t ≤ 2 := by
  by_contra hgt
  have h1 : ¬ terminating str 1 := h.2 1 (by omega)
  have h2 : ¬ terminating str 2 := h.2 2 (by omega)
  have hd1 : str 1 = '.' := by
    by_contra hne
    apply h1
    exact ⟨hnd 1 (by omega), fun hc => hne hc.1, fun hc => absurd hc.2 (by omega)⟩
  apply h2
  refine ⟨hnd 2 (by omega), fun hc => hc.2 ⟨1, by omega, hd1⟩, fun hc => absurd hc.2 (by omega)⟩

/-- C4 (amended): for every input in which the digit scan stops before any
decimal digit has been read, at its first terminating character of index `t`,
`parse_digits<decimal_q, true>` returns value 0 and K = 0 and `str_end` at
that character, which is at index 2 at the latest; `str_end` is the start of
the input exactly when the first character is neither a sign nor `.`. -/
theorem parse_digits_no_digit (X : deps) (str : Nat → Char) (t : Nat) (h : first_stop str t)
    (hnd : ∀ j, j < t → ¬ dec_digit (str j)) :
    (parse_digits X decimal_q true str).value = 0 ∧
    (parse_digits X decimal_q true str).K = 0 ∧
    (parse_digits X decimal_q true str).str_end = t ∧ t ≤ 2 ∧
    ((parse_digits X decimal_q true str).str_end = 0 ↔
      (str 0 ≠ '+' ∧ str 0 ≠ '-' ∧ str 0 ≠ '.')) := by
  have ht2 := first_stop_no_digit_le str t h hnd
  have hloop := loop_first_stop X decimal_q str true t (by simp only [offset]; omega) h
  have hst := iter_no_digit X decimal_q str true t hnd
  have hend : (parse_digits X decimal_q true str).str_end = t :=
    parse_digits_str_end_of_stop X decimal_q true str t (by simp only [offset]; omega) h
  refine ⟨?_, ?_, hend, ht2, ?_⟩
  · simp only [parse_digits, hloop, hst.1]
    rfl
  · simp only [parse_digits, hloop, hst.2.1, hst.2.2]
    rfl
  · rw [hend]
    constructor
    · intro ht0
      subst ht0
      obtain ⟨h1, h2, h3⟩ := h.1
      refine ⟨fun e => h3 ⟨Or.inl e, rfl⟩, fun e => h3 ⟨Or.inr e, rfl⟩, fun e => h2 ⟨e, ?_⟩⟩
      rintro ⟨j, hj, _⟩
      omega
    · rintro ⟨hp, hm, hd⟩
      by_contra hne
      have h0 : ¬ terminating str 0 := h.2 0 (by omega)
      apply h0
      refine ⟨hnd 0 (by omega), fun hc => hd hc.1, ?_⟩
      rintro ⟨hc | hc, _⟩
      · exact hp hc
      · exact hm hc

/-- The theorem `parse_digits_no_digit` at the input `abc`: offset 0 and
value 0. -/
theorem parse_digits_no_digit_witness :
    first_stop (cstr ['a', 'b', 'c']) 0 ∧
    (parse_digits deps.sample decimal_q true (cstr ['a', 'b', 'c'])).value = 0 ∧
    (parse_digits deps.sample decimal_q true (cstr ['a', 'b', 'c'])).str_end = 0 :=
  have h := parse_digits_no_digit deps.sample (cstr ['a', 'b', 'c']) 0
    (by unfold first_stop; decide) (by decide)
  ⟨by unfold first_stop; decide, h.1, h.2.2.1⟩

/-- C4 as stated fails at the input `-x`: the scan stops at `x`, before any
digit has been read, and `str_end` is offset 1, not the start of the input;
the same holds of `+` and of `.`. -/
theorem parse_digits_no_digit_consumes_sign :
    first_stop (cstr ['-', 'x']) 1 ∧ ¬ dec_digit (cstr ['-', 'x'] 0) ∧
    (parse_digits deps.sample decimal_q true (cstr ['-', 'x'])).value = 0 ∧
    (parse_digits deps.sample decimal_q true (cstr ['-', 'x'])).str_end = 1 ∧
    (parse_digits deps.sample decimal_q true (cstr ['-', 'x'])).str_end ≠ 0 ∧
    (parse_digits deps.sample decimal_q true (cstr ['+'])).str_end = 1 ∧
    (parse_digits deps.sample decimal_q true (cstr ['.'])).str_end = 1 :=
  ⟨by unfold first_stop; decide, by decide, by decide, by decide, by decide, by decide,
    by decide⟩

/-! ## C5: an over-long exponent suffix -/

/-- C5, the code at the failing input `e1234`: the claim gives value 0 and
`str_end` at the position given; `parse_exponent` returns 1230, the first
three digits with the fourth folded into a factor ten, and `str_end` after the
last digit, at offset 5. -/
theorem parse_exponent_over_long (X : deps) :
    parse_exponent X (cstr ['e', '1', '2', '3', '4']) = { value := 1230, str_end := 5 } := by
  have h := parse_digits_deps_irrelevant X deps.sample exponent_decimal_digits false
    (advance (cstr ['e', '1', '2', '3', '4']) 1)
  have hv : (parse_digits deps.sample exponent_decimal_digits false
      (advance (cstr ['e', '1', '2', '3', '4']) 1)).value = 123 := by decide
  have hK : (parse_digits deps.sample exponent_decimal_digits false
      (advance (cstr ['e', '1', '2', '3', '4']) 1)).K = 1 := by decide
  have he : (parse_digits deps.sample exponent_decimal_digits false
      (advance (cstr ['e', '1', '2', '3', '4']) 1)).str_end = 4 := by decide
  have hs : (parse_digits deps.sample exponent_decimal_digits false
      (advance (cstr ['e', '1', '2', '3', '4']) 1)).sign = true := by decide
  have hm : ¬ (cstr ['e', '1', '2', '3', '4'] 0 ≠ 'e' ∧ cstr ['e', '1', '2', '3', '4'] 0 ≠ 'E') := by
    decide
  unfold parse_exponent
  rw [if_neg hm]
  simp only [h.1, h.2.1, h.2.2.1, h.2.2.2, hv, hK, he, hs]
  have hp : seq_pow_int X 1 = 10 := by
    unfold seq_pow_int
    rw [if_pos (by decide)]
    rfl
  rw [hp]
  decide

/-! ## C9: the input-length ceiling -/

theorem iter_zero_run (X : deps) (kappa : Nat) (str : Nat → Char) (c : Bool) (n : Nat)
    (hn : n ≤ offset + 1) (h : ∀ j, j < n → str j = '0') :
    iter X kappa str n (digit_scan.start c) = { digit_scan.start c with pos := n } := by
  induction n with
  | zero => rfl
  | succ n ih =>
    rw [iter_succ, ih (by omega) (fun j hj => h j (by omega))]
    have hc : str n = '0' := h n (by omega)
    have hp : ¬ (offset < n) := by omega
    unfold parse_digits_step
    simp [hc, digit_scan.start, hp]

theorem not_terminating_of_digit (str : Nat → Char) (j : Nat) (h : dec_digit (str j)) :
    ¬ terminating str j := fun ht => ht.1 h

/-- C9, the code at two unbounded runs of digits, with the capacity and the
flag of the mantissa scan. On the run of `0` the returned `str_end` is
`str + 2049`, one more than the claimed bound of 2048. On the run with `7` at
index 2049 the character at index 2049 is examined and stored: value 7. -/
theorem parse_digits_passes_ceiling (X : deps) :
    (parse_digits X decimal_q true zero_run).str_end = 2049 ∧
    (parse_digits X decimal_q true zero_run).value = 0 ∧
    (parse_digits X decimal_q true seven_run).str_end = 2049 ∧
    (parse_digits X decimal_q true seven_run).value = 7 := by
  have hz : ∀ j, j < offset + 1 → ¬ terminating zero_run j := fun j _ =>
    not_terminating_of_digit zero_run j (Or.inl rfl)
  have hs : ∀ j, j < offset + 1 → ¬ terminating seven_run j := fun j hj =>
    not_terminating_of_digit seven_run j (Or.inl (by simp only [seven_run]; rw [if_neg (by omega)]))
  have h1 : parse_digits_loop X decimal_q zero_run (offset + 2) (digit_scan.start true) =
      { digit_scan.start true with go_to_beach := true, pos := offset + 2 } := by
    rw [loop_ceiling X decimal_q zero_run true hz, iter_succ,
      iter_zero_run X decimal_q zero_run true (offset + 1) (le_refl _) (fun _ _ => rfl)]
    unfold parse_digits_step
    simp [zero_run, digit_scan.start, offset]
  have h2 : parse_digits_loop X decimal_q seven_run (offset + 2) (digit_scan.start true) =
      { digit_scan.start true with parsed_digits := [7], go_to_beach := true, pos := offset + 2 } := by
    rw [loop_ceiling X decimal_q seven_run true hs, iter_succ,
      iter_zero_run X decimal_q seven_run true (offset + 1) (le_refl _)
        (fun j hj => by simp only [seven_run]; rw [if_neg (by omega)])]
    have hc : seven_run (offset + 1) = '7' := by simp [seven_run]
    have h0 : ¬ ('7' = '0') := by decide
    unfold parse_digits_step
    simp only [hc, h0, if_false]
    simp [digit_scan.start, offset, decimal_q]
  simp only [parse_digits, h1, h2]
  exact ⟨rfl, rfl, rfl, rfl⟩

/-! ## C10, C1: the zero mantissa -/

theorem normalize_zero (e : Int) : (diy_fp.mk 0 e).normalize = none := by
  simp [diy_fp.normalize]

theorem parse_mantissa_of_zero (X : deps) (str : Nat → Char)
    (h : (parse_digits X decimal_q true str).value = 0) :
    parse_mantissa_packed X str = ⟨0, 0⟩ ∧ parse_mantissa X str = none := by
  have hp : parse_mantissa_packed X str = ⟨0, 0⟩ := by
    simp only [parse_mantissa_packed, h]
  refine ⟨hp, ?_⟩
  unfold parse_mantissa
  simp only [hp, normalize_zero]

/-- C10, the code at the inputs `0`, `0.0` and `-0.0`: the digit scan returns
value 0, so the `diy_fp` that `parse_mantissa` builds and calls `normalize()`
on has mantissa 0, against the precondition of `normalize()`; in the
embedding `parse_mantissa` is undefined there. -/
theorem parse_mantissa_normalizes_zero (X : deps) :
    parse_mantissa_packed X (cstr ['0']) = ⟨0, 0⟩ ∧
    parse_mantissa_packed X (cstr ['0', '.', '0']) = ⟨0, 0⟩ ∧
    parse_mantissa_packed X (cstr ['-', '0', '.', '0']) = ⟨0, 0⟩ ∧
    parse_mantissa X (cstr ['0']) = none ∧
    parse_mantissa X (cstr ['0', '.', '0']) = none ∧
    parse_mantissa X (cstr ['-', '0', '.', '0']) = none := by
  have h1 : (parse_digits X decimal_q true (cstr ['0'])).value = 0 := by
    rw [(parse_digits_deps_irrelevant X deps.sample decimal_q true (cstr ['0'])).1]
    decide
  have h2 : (parse_digits X decimal_q true (cstr ['0', '.', '0'])).value = 0 := by
    rw [(parse_digits_deps_irrelevant X deps.sample decimal_q true (cstr ['0', '.', '0'])).1]
    decide
  have h3 : (parse_digits X decimal_q true (cstr ['-', '0', '.', '0'])).value = 0 := by
    rw [(parse_digits_deps_irrelevant X deps.sample decimal_q true
      (cstr ['-', '0', '.', '0'])).1]
    decide
  exact ⟨(parse_mantissa_of_zero X _ h1).1, (parse_mantissa_of_zero X _ h2).1,
    (parse_mantissa_of_zero X _ h3).1, (parse_mantissa_of_zero X _ h1).2,
    (parse_mantissa_of_zero X _ h2).2, (parse_mantissa_of_zero X _ h3).2⟩

theorem dot_before_congr (s1 s2 : Nat → Char) (t : Nat) (h : ∀ j, j < t → s1 j = s2 j) :
    dot_before s1 t ↔ dot_before s2 t := by
  unfold dot_before
  constructor
  · rintro ⟨j, hj, hs⟩
    exact ⟨j, hj, by rw [← h j hj]; exact hs⟩
  · rintro ⟨j, hj, hs⟩
    exact ⟨j, hj, by rw [h j hj]; exact hs⟩

theorem terminating_congr (s1 s2 : Nat → Char) (t : Nat) (h : ∀ j, j ≤ t → s1 j = s2 j) :
    terminating s1 t ↔ terminating s2 t := by
  unfold terminating
  rw [h t (le_refl _), dot_before_congr s1 s2 t (fun j hj => h j (by omega))]

theorem first_stop_congr (s1 s2 : Nat → Char) (t : Nat) (h : ∀ j, j ≤ t → s1 j = s2 j)
    (h1 : first_stop s1 t) : first_stop s2 t := by
  refine ⟨(terminating_congr s1 s2 t h).mp h1.1, fun j hj => ?_⟩
  rw [← terminating_congr s1 s2 j (fun i hi => h i (by omega))]
  exact h1.2 j hj

theorem zero_text_agrees (buffer : Nat → Char) :
    ∀ j, j ≤ 3 → cstr ['0', '.', '0'] j = zero_text buffer j := by
  intro j hj
  interval_cases j <;> rfl

/-- C1, the code at the failing input v = 0.0: `ftoa` writes the text `0.0`,
and on that text the parser hands a zero mantissa to `normalize()`, which is
undefined there, so `krosh` returns no value to compare with v; the claim says
the parse returns exactly v. Negative zero gets the same text. -/
theorem round_trip_fails_at_zero (X : deps) (buffer : Nat → Char) :
    ftoa X binary64.zero buffer = some (zero_text buffer) ∧
    ftoa X binary64.zero.neg buffer = some (zero_text buffer) ∧
    parse_mantissa_packed X (zero_text buffer) = ⟨0, 0⟩ ∧
    krosh X (zero_text buffer) = none := by
  have hstop : first_stop (cstr ['0', '.', '0']) 3 := by unfold first_stop; decide
  have hcore := loop_core_agree_of_stop X deps.sample decimal_q (zero_text buffer)
    (cstr ['0', '.', '0']) true 3 (fun j hj => (zero_text_agrees buffer j (by omega)).symm)
    (first_stop_congr _ _ 3 (zero_text_agrees buffer) hstop) hstop
  have hv : (parse_digits X decimal_q true (zero_text buffer)).value = 0 := by
    rw [(parse_digits_of_core X deps.sample decimal_q true _ _ hcore).1]
    decide
  have hm := parse_mantissa_of_zero X (zero_text buffer) hv
  refine ⟨rfl, rfl, hm.1, ?_⟩
  unfold krosh
  simp only [hm.2]

/-! ## C11, C12: ftoa of zero -/

theorem eq_zero_not_special (v : binary64) (h : v.eq_zero = true) :
    ¬ (v.isnan = true ∨ v.isinf = true) := by
  simp only [binary64.eq_zero, Bool.and_eq_true, decide_eq_true_eq] at h
  simp [binary64.isnan, binary64.isinf, h.1]

theorem ftoa_of_eq_zero (X : deps) (v : binary64) (buffer : Nat → Char)
    (h : v.eq_zero = true) : ftoa X v buffer = some (zero_text buffer) := by
  unfold ftoa
  rw [if_neg (eq_zero_not_special v h), if_pos h]
  rfl

/-- C12: for every v with `v == 0`, `ftoa` writes exactly the four bytes `0`,
`.`, `0`, NUL into `buffer[0..3]` and leaves every other byte as it was; the
result is the same whatever `grisu2` and `prettify` are, neither being
entered. -/
theorem ftoa_zero_literal (X : deps) (v : binary64) (buffer : Nat → Char)
    (h : v.eq_zero = true) :
    ftoa X v buffer = some (zero_text buffer) ∧
    zero_text buffer 0 = '0' ∧ zero_text buffer 1 = '.' ∧ zero_text buffer 2 = '0' ∧
    zero_text buffer 3 = Char.ofNat 0 ∧
    (∀ j, 4 ≤ j → zero_text buffer j = buffer j) ∧
    (∀ Y : deps, ftoa Y v buffer = ftoa X v buffer) := by
  refine ⟨ftoa_of_eq_zero X v buffer h, rfl, rfl, rfl, rfl, ?_, ?_⟩
  · intro j hj
    simp only [zero_text, poke]
    rw [if_neg (by omega), if_neg (by omega), if_neg (by omega), if_neg (by omega)]
  · intro Y
    rw [ftoa_of_eq_zero X v buffer h, ftoa_of_eq_zero Y v buffer h]

/-- The theorem `ftoa_zero_literal` at v = +0.0 and a buffer of `x`: the
text is `0.0`, NUL, and the fifth byte is still `x`. -/
theorem ftoa_zero_literal_witness :
    binary64.zero.eq_zero = true ∧
    (ftoa deps.sample binary64.zero (fun _ => 'x')).map (fun b => chars b 5) =
      some ['0', '.', '0', Char.ofNat 0, 'x'] :=
  ⟨rfl, by
    rw [(ftoa_zero_literal deps.sample binary64.zero (fun _ => 'x') rfl).1]
    decide⟩

/-! ## C13: no exponent marker -/

/-- C13: for every input whose first character is neither `e` nor `E`,
`parse_exponent` returns value 0 and `str_end` equal to the position it was
given. -/
theorem parse_exponent_no_marker (X : deps) (str : Nat → Char)
    (h : str 0 ≠ 'e' ∧ str 0 ≠ 'E') :
    parse_exponent X str = { value := 0, str_end := 0 } := by
  unfold parse_exponent
  rw [if_pos h]

/-- The theorem `parse_exponent_no_marker` at the inputs `x12` and the empty
string. -/
theorem parse_exponent_no_marker_witness :
    parse_exponent deps.sample (cstr ['x', '1', '2']) = { value := 0, str_end := 0 } ∧
    (parse_exponent deps.sample (cstr [])).str_end = 0 :=
  ⟨parse_exponent_no_marker deps.sample (cstr ['x', '1', '2']) (by decide), by decide⟩

/-! ## C15: termination of the digit scan -/

/-- C15: for every character sequence the loop of `parse_digits` terminates:
there is a number `k ≤ offset + 2 = 2050` of iterations, after which
`go_to_beach` is set for the first time, and with any bound of at least
`offset + 2` iterations the loop ends in the state reached by those `k`
iterations. -/
theorem parse_digits_terminates (X : deps) (kappa : Nat) (calc_frac : Bool) (str : Nat → Char) :
    ∃ k, k ≤ offset + 2 ∧ offset + 2 = 2050 ∧
      (iter X kappa str k (digit_scan.start calc_frac)).go_to_beach = true ∧
      (∀ j, j < k → (iter X kappa str j (digit_scan.start calc_frac)).go_to_beach = false) ∧
      ∀ fuel, offset + 2 ≤ fuel →
        parse_digits_loop X kappa str fuel (digit_scan.start calc_frac) =
          iter X kappa str k (digit_scan.start calc_frac) := by
  obtain ⟨k, hk, _, hstop, hbefore⟩ :=
    loop_halts X kappa str (offset + 2) (digit_scan.start calc_frac)
      (Or.inr ⟨by simp [digit_scan.start], by simp [digit_scan.start]⟩)
  refine ⟨k, hk, rfl, hstop, hbefore, fun fuel hf => ?_⟩
  exact loop_eq_iter X kappa str k fuel _ (by omega) hbefore hstop

/-- The run of `0` without end: the loop stops after 2050 iterations. -/
theorem parse_digits_terminates_example :
    (parse_digits_loop deps.sample decimal_q zero_run (offset + 2)
      (digit_scan.start true)).go_to_beach = true ∧
    (parse_digits_loop deps.sample decimal_q zero_run (offset + 2)
      (digit_scan.start true)).pos = 2050 := by
  obtain ⟨k, hk, _, hstop, hbefore, hloop⟩ :=
    parse_digits_terminates deps.sample decimal_q true zero_run
  have h1 : parse_digits_loop deps.sample decimal_q zero_run (offset + 2)
      (digit_scan.start true) = iter deps.sample decimal_q zero_run (offset + 2)
      (digit_scan.start true) :=
    loop_ceiling deps.sample decimal_q zero_run true
      (fun j _ => not_terminating_of_digit zero_run j (Or.inl rfl))
  constructor
  · rw [hloop (offset + 2) (le_refl _)]
    exact hstop
  · rw [h1, iter_start_pos]
    rfl

/-! ## C20: the capacity invariant -/

/-- The stored digits never exceed the capacity and are digit values. -/
theorem step_capacity (X : deps) (kappa : Nat) (str : Nat → Char) (st : digit_scan)
    (h : st.parsed_digits.length ≤ kappa ∧ ∀ d, d ∈ st.parsed_digits → d ≤ 9) :
    (parse_digits_step X kappa str st).parsed_digits.length ≤ kappa ∧
      ∀ d, d ∈ (parse_digits_step X kappa str st).parsed_digits → d ≤ 9 := by
  obtain ⟨hl, hd⟩ := h
  by_cases h0 : str st.pos = '0'
  · unfold parse_digits_step
    simp only [h0, if_true]
    split_ifs <;> exact ⟨hl, hd⟩
  by_cases h9 : str st.pos ∈ ['1', '2', '3', '4', '5', '6', '7', '8', '9']
  · have hv := digit_value_le _ h9
    unfold digit_value at hv
    unfold parse_digits_step
    simp only [h0, h9, if_true, if_false]
    by_cases hroom : st.parsed_digits.length + st.zero_substring_length < kappa
    · simp only [hroom, if_true]
      by_cases hz : st.zero_substring_length = 0
      · simp only [hz, ne_eq, not_true_eq_false, if_false, List.length_append,
          List.length_singleton, List.mem_append, List.mem_singleton]
        refine ⟨by omega, fun d hd2 => ?_⟩
        rcases hd2 with hd2 | hd2
        · exact hd d hd2
        · rw [hd2]; exact hv
      · simp only [hz, ne_eq, not_false_eq_true, if_true, List.length_append,
          List.length_singleton, List.length_replicate, List.mem_append, List.mem_singleton,
          List.mem_replicate]
        refine ⟨by omega, fun d hd2 => ?_⟩
        rcases hd2 with (hd2 | hd2) | hd2
        · exact hd d hd2
        · omega
        · rw [hd2]; exact hv
    · simp only [hroom, if_false]
      split_ifs <;> exact ⟨hl, hd⟩
  · unfold parse_digits_step
    simp only [h0, h9, if_false]
    split_ifs <;> exact ⟨hl, hd⟩

theorem iter_capacity (X : deps) (kappa : Nat) (str : Nat → Char) (c : Bool) (n : Nat) :
    (iter X kappa str n (digit_scan.start c)).parsed_digits.length ≤ kappa ∧
      ∀ d, d ∈ (iter X kappa str n (digit_scan.start c)).parsed_digits → d ≤ 9 := by
  induction n with
  | zero => simp [iter, digit_scan.start]
  | succ n ih => rw [iter_succ]; exact step_capacity X kappa str _ ih

/-- C20: at every step of the scan the number of stored digits is at most
`kappa`, so the returned value is less than `10 ^ kappa`; with
`kappa = decimal_q = 19` the value is at most `10 ^ 19 - 1 < 2 ^ 64` and it is
the number the stored digits write, not reduced: the 64-bit accumulation
never wraps around, for every input. -/
theorem parse_digits_capacity (X : deps) (kappa : Nat) (calc_frac : Bool) (str : Nat → Char) :
    (∀ n, (iter X kappa str n (digit_scan.start calc_frac)).parsed_digits.length ≤ kappa) ∧
    (parse_digits_loop X kappa str (offset + 2)
      (digit_scan.start calc_frac)).parsed_digits.length ≤ kappa ∧
    (parse_digits X kappa calc_frac str).value < 10 ^ kappa ∧
    (parse_digits X decimal_q calc_frac str).value ≤ 10 ^ 19 - 1 ∧
    10 ^ 19 - 1 < 2 ^ mantissa_bits ∧
    (parse_digits X decimal_q calc_frac str).value =
      nat_of_nats (parse_digits_loop X decimal_q str (offset + 2)
        (digit_scan.start calc_frac)).parsed_digits := by
  have key : ∀ kp : Nat,
      (parse_digits_loop X kp str (offset + 2) (digit_scan.start calc_frac)).parsed_digits.length
        ≤ kp ∧
      (parse_digits X kp calc_frac str).value ≤
        nat_of_nats (parse_digits_loop X kp str (offset + 2)
          (digit_scan.start calc_frac)).parsed_digits ∧
      nat_of_nats (parse_digits_loop X kp str (offset + 2)
        (digit_scan.start calc_frac)).parsed_digits < 10 ^ kp := by
    intro kp
    obtain ⟨k, _, hloop⟩ := loop_is_iter X kp str calc_frac
    have hc := iter_capacity X kp str calc_frac (k + 1)
    rw [← hloop] at hc
    refine ⟨hc.1, ?_, ?_⟩
    · simp only [parse_digits]
      rw [accumulate_reverse]
      exact Nat.mod_le _ _
    · have h1 := nat_of_nats_lt _ hc.2
      have h2 : 10 ^ (parse_digits_loop X kp str (offset + 2)
          (digit_scan.start calc_frac)).parsed_digits.length ≤ 10 ^ kp :=
        Nat.pow_le_pow_right (by norm_num) hc.1
      omega
  have h19 := key decimal_q
  have hlt : (10 : Nat) ^ 19 - 1 < 2 ^ mantissa_bits := by norm_num [mantissa_bits]
  refine ⟨fun n => (iter_capacity X kappa str calc_frac n).1, (key kappa).1, ?_, ?_, hlt, ?_⟩
  · have := key kappa
    omega
  · simp only [decimal_q] at h19
    simp only [decimal_q]
    omega
  · simp only [parse_digits]
    rw [accumulate_reverse, Nat.mod_eq_of_lt]
    simp only [decimal_q] at h19
    simp only [decimal_q]
    omega

/-! ## C17: extract_fraction_digits -/

theorem dec_digit_iff (c : Char) : dec_digit c ↔ 48 ≤ c.toNat ∧ c.toNat ≤ 57 := by
  constructor
  · rintro (h | h)
    · subst h; decide
    · simp only [List.mem_cons, List.mem_singleton, List.not_mem_nil, or_false] at h
      rcases h with h | h | h | h | h | h | h | h | h <;> subst h <;> decide
  · rintro ⟨h1, h2⟩
    have hc : c = Char.ofNat c.toNat := (Char.ofNat_toNat c).symm
    generalize c.toNat = k at h1 h2 hc
    subst hc
    interval_cases k <;> decide

/-- The test of `extract_fraction_digits` on `str[pos] - '0'` is the test for
a decimal digit. -/
theorem digit_test_iff (c : Char) :
    (0 ≤ ((c.toNat : Int) - ('0'.toNat : Int)) ∧ ((c.toNat : Int) - ('0'.toNat : Int)) ≤ 9) ↔
      dec_digit c := by
  rw [dec_digit_iff]
  have : '0'.toNat = 48 := by decide
  rw [this]
  omega

theorem digit_test_value (c : Char) (h : dec_digit c) :
    (((c.toNat : Int) - ('0'.toNat : Int))).toNat = digit_value c := by
  rw [dec_digit_iff] at h
  unfold digit_value
  have : '0'.toNat = 48 := by decide
  rw [this]
  omega

theorem set_at_length (l : List Nat) (x d : Nat) (r : List Nat) :
    (l ++ x :: r).set l.length d = l ++ d :: r := by
  induction l with
  | nil => rfl
  | cons a t ih => simp [List.set, ih]

/-- The array after the first loop: the digits of the run, then zeros. -/
theorem fraction_digits_fill_eq (str : Nat → Char) (fuel : Nat) :
    ∀ (pos : Nat) (filled : List Nat), filled.length = pos →
      fraction_digits_fill str fuel pos (filled ++ List.replicate fuel 0) =
        filled ++ run_values str fuel pos ++
          List.replicate (fuel - (run_values str fuel pos).length) 0 := by
  induction fuel with
  | zero =>
    intro pos filled _
    simp [fraction_digits_fill, run_values]
  | succ fuel ih =>
    intro pos filled hlen
    unfold fraction_digits_fill run_values
    simp only
    by_cases hd : dec_digit (str pos)
    · rw [if_pos ((digit_test_iff _).mpr hd), if_pos hd, digit_test_value _ hd]
      rw [List.replicate_succ, ← hlen, set_at_length]
      have h2 : filled ++ digit_value (str filled.length) :: List.replicate fuel 0 =
          (filled ++ [digit_value (str filled.length)]) ++ List.replicate fuel 0 := by simp
      rw [h2, ih (filled.length + 1) _ (by simp)]
      simp
    · rw [if_neg (fun h => hd ((digit_test_iff _).mp h)), if_neg hd]
      simp

theorem run_values_of_run (str : Nat → Char) (fuel : Nat) :
    ∀ (pos n : Nat), n ≤ fuel → (∀ i, i < n → dec_digit (str (pos + i))) →
      (n < fuel → ¬ dec_digit (str (pos + n))) →
      run_values str fuel pos = (chars (advance str pos) n).map digit_value := by
  induction fuel with
  | zero =>
    intro pos n hn _ _
    have : n = 0 := by omega
    subst this
    rfl
  | succ fuel ih =>
    intro pos n hn hdig hend
    unfold run_values
    cases n with
    | zero =>
      rw [if_neg (by simpa using hend (by omega))]
      rfl
    | succ n =>
      rw [if_pos (by simpa using hdig 0 (by omega))]
      rw [ih (pos + 1) n (by omega)
        (fun i hi => by have := hdig (i + 1) (by omega); rwa [Nat.add_assoc, Nat.add_comm 1 i])
        (fun hlt => by
          have := hend (by omega)
          rwa [Nat.add_assoc, Nat.add_comm 1 n])]
      rw [chars_cons, advance_advance, List.map_cons]
      simp [advance]

theorem chars_snoc (str : Nat → Char) (n : Nat) : chars str (n + 1) = chars str n ++ [str n] := by
  simp [chars, List.range_succ]

theorem fraction_numerator_eq (str : Nat → Char) (kappa : Nat) :
    ∀ n, n ≤ kappa →
      nat_of_nats ((chars str n).map digit_value) * 10 ^ (kappa - n) =
        fraction_numerator str kappa n := by
  intro n
  induction n with
  | zero => intro _; simp [chars, nat_of_nats, fraction_numerator]
  | succ n ih =>
    intro hn
    have h := ih (by omega)
    unfold fraction_numerator at h ⊢
    rw [Finset.sum_range_succ, ← h, chars_snoc, List.map_append, List.map_singleton,
      nat_of_nats_snoc]
    have e1 : kappa - n = (kappa - (n + 1)) + 1 := by omega
    have e2 : kappa - 1 - n = kappa - (n + 1) := by omega
    rw [e1, e2, pow_succ]
    ring

theorem map_digit_value_le (l : List Char) (h : ∀ c, c ∈ l → dec_digit c) :
    ∀ d, d ∈ l.map digit_value → d ≤ 9 := by
  intro d hd
  simp only [List.mem_map] at hd
  obtain ⟨c, hc, rfl⟩ := hd
  have := (dec_digit_iff c).mp (h c hc)
  unfold digit_value
  have h0 : '0'.toNat = 48 := by decide
  rw [h0]
  omega

/-- The result of `extract_fraction_digits`, in 64 bits. -/
theorem extract_fraction_digits_eq (kappa : Nat) (str : Nat → Char) (n : Nat)
    (h : digit_run str kappa n) :
    extract_fraction_digits kappa str = fraction_numerator str kappa n % 2 ^ mantissa_bits ∧
      fraction_numerator str kappa n < 10 ^ kappa := by
  obtain ⟨hn, hdig, hend⟩ := h
  have hrun : run_values str kappa 0 = (chars str n).map digit_value := by
    have := run_values_of_run str kappa 0 n hn (by simpa using hdig) (by simpa using hend)
    rwa [advance_zero] at this
  have hfill := fraction_digits_fill_eq str kappa 0 [] rfl
  simp only [List.nil_append] at hfill
  have hlen : ((chars str n).map digit_value).length = n := by simp [chars_length]
  constructor
  · unfold extract_fraction_digits
    rw [hfill, hrun, accumulate_reverse, nat_of_nats_zeros, hlen, fraction_numerator_eq str kappa n hn]
  · rw [← fraction_numerator_eq str kappa n hn]
    have hle : ∀ d, d ∈ (chars str n).map digit_value → d ≤ 9 := by
      apply map_digit_value_le
      intro c hc
      simp only [chars, List.mem_map, List.mem_range] at hc
      obtain ⟨i, hi, rfl⟩ := hc
      exact hdig i hi
    have h1 := nat_of_nats_lt _ hle
    rw [hlen] at h1
    calc nat_of_nats ((chars str n).map digit_value) * 10 ^ (kappa - n)
        < 10 ^ n * 10 ^ (kappa - n) := Nat.mul_lt_mul_of_pos_right h1 (by positivity)
      _ = 10 ^ kappa := by rw [← pow_add]; congr 1; omega

theorem fraction_numerator_congr (s1 s2 : Nat → Char) (kappa n : Nat)
    (h : ∀ i, i < n → s2 i = s1 i) : fraction_numerator s2 kappa n = fraction_numerator s1 kappa n := by
  unfold fraction_numerator
  apply Finset.sum_congr rfl
  intro i hi
  rw [h i (Finset.mem_range.mp hi)]

/-- C17 (amended): for every `kappa ≤ decimal_q = 19` and every buffer, if
`d_0 … d_(n-1)` is the longest run of decimal digits at the start of the
buffer cut to at most `kappa` characters, `extract_fraction_digits<kappa>`
returns the sum over `i < n` of `d_i × 10 ^ (kappa - 1 - i)`, which is less
than `10 ^ kappa`; and no character after the first non-digit is read: a
buffer with the same characters up to that one (up to index `kappa - 1` when
the run is cut) gives the same result. -/
theorem extract_fraction_digits_numerator (kappa : Nat) (str : Nat → Char) (n : Nat)
    (hk : kappa ≤ decimal_q) (h : digit_run str kappa n) :
    extract_fraction_digits kappa str = fraction_numerator str kappa n ∧
    extract_fraction_digits kappa str < 10 ^ kappa ∧
    ∀ str2 : Nat → Char, (∀ i, i ≤ n → i < kappa → str2 i = str i) →
      extract_fraction_digits kappa str2 = extract_fraction_digits kappa str := by
  have hb : (10 : Nat) ^ kappa ≤ 10 ^ 19 := Nat.pow_le_pow_right (by norm_num) hk
  have hlt : (10 : Nat) ^ 19 < 2 ^ mantissa_bits := by norm_num [mantissa_bits]
  obtain ⟨he, hs⟩ := extract_fraction_digits_eq kappa str n h
  have hval : extract_fraction_digits kappa str = fraction_numerator str kappa n := by
    rw [he, Nat.mod_eq_of_lt (by omega)]
  refine ⟨hval, by rw [hval]; exact hs, fun str2 hag => ?_⟩
  have h2 : digit_run str2 kappa n := by
    obtain ⟨hn, hdig, hend⟩ := h
    refine ⟨hn, fun i hi => ?_, fun hlt2 => ?_⟩
    · rw [hag i (by omega) (by omega)]; exact hdig i hi
    · rw [hag n (le_refl _) hlt2]; exact hend hlt2
  obtain ⟨he2, hs2⟩ := extract_fraction_digits_eq kappa str2 n h2
  rw [he2, he, fraction_numerator_congr str str2 kappa n
    (fun i hi => hag i (by omega) (by have := h.1; omega))]

/-- The theorem `extract_fraction_digits_numerator` at `kappa = 4` and the
buffer `12x`, and the examples of C17: `12x` gives 1200, `5` gives 5000, `.5`
gives 0. -/
theorem extract_fraction_digits_numerator_witness :
    digit_run (cstr ['1', '2', 'x']) 4 2 ∧
    extract_fraction_digits 4 (cstr ['1', '2', 'x']) =
      fraction_numerator (cstr ['1', '2', 'x']) 4 2 ∧
    extract_fraction_digits 4 (cstr ['1', '2', 'x']) = 1200 ∧
    extract_fraction_digits 4 (cstr ['5']) = 5000 ∧
    extract_fraction_digits 4 (cstr ['.', '5']) = 0 :=
  ⟨by decide,
    (extract_fraction_digits_numerator 4 (cstr ['1', '2', 'x']) 2 (by decide) (by decide)).1,
    by decide, by decide, by decide⟩

/-- C17 as stated, for every `kappa`, fails at `kappa = 20`: the buffer
`18446744073709551616` starts with a run of 20 digits whose numerator is
2 ^ 64, and the 64-bit sum wraps around to 0. -/
theorem extract_fraction_digits_wraps_at_20 :
    digit_run (cstr two_pow_64_text) 20 20 ∧
    fraction_numerator (cstr two_pow_64_text) 20 20 = 2 ^ 64 ∧
    extract_fraction_digits 20 (cstr two_pow_64_text) = 0 ∧
    extract_fraction_digits 20 (cstr two_pow_64_text) ≠
      fraction_numerator (cstr two_pow_64_text) 20 20 := by
  have h1 : fraction_numerator (cstr two_pow_64_text) 20 20 = 2 ^ 64 := by
    rw [← fraction_numerator_eq _ 20 20 (le_refl _)]
    decide
  have h2 : extract_fraction_digits 20 (cstr two_pow_64_text) = 0 := by decide
  refine ⟨by decide, h1, h2, ?_⟩
  rw [h1, h2]
  decide

/-! ## C16: the assertion of parse_mantissa -/

theorem step_frac_kept (X : deps) (kappa : Nat) (str : Nat → Char) (st : digit_scan)
    (h : st.frac_calculated = true) :
    (parse_digits_step X kappa str st).frac_calculated = true ∧
      (parse_digits_step X kappa str st).frac = st.frac := by
  unfold parse_digits_step
  simp only [h]
  split_ifs <;> first | contradiction | simp [h]

theorem step_deps_agree (X Y : deps) (kappa : Nat) (str : Nat → Char) (st : digit_scan)
    (h : (parse_digits_step Y kappa str st).frac_calculated = false) :
    parse_digits_step X kappa str st = parse_digits_step Y kappa str st := by
  have hfc : st.frac_calculated = false := by
    cases hv : st.frac_calculated with
    | false => rfl
    | true =>
      rw [(step_frac_kept Y kappa str st hv).1] at h
      exact absurd h (by decide)
  unfold parse_digits_step at h ⊢
  simp only [hfc] at h ⊢
  split_ifs at h ⊢ <;> rfl

theorem iter_deps_agree (X Y : deps) (kappa : Nat) (str : Nat → Char) (c : Bool) (n : Nat)
    (h : (iter Y kappa str n (digit_scan.start c)).frac_calculated = false) :
    iter X kappa str n (digit_scan.start c) = iter Y kappa str n (digit_scan.start c) := by
  induction n with
  | zero => rfl
  | succ n ih =>
    rw [iter_succ] at h
    have hprev : (iter Y kappa str n (digit_scan.start c)).frac_calculated = false := by
      cases hv : (iter Y kappa str n (digit_scan.start c)).frac_calculated with
      | false => rfl
      | true =>
        rw [(step_frac_kept Y kappa str _ hv).1] at h
        exact absurd h (by decide)
    rw [iter_succ, iter_succ, ih hprev]
    exact step_deps_agree X Y kappa str _ h

/-- The first dropped digit sets the fractional remainder. -/
theorem step_drop_frac (X : deps) (kappa : Nat) (str : Nat → Char) (st : digit_scan)
    (h9 : str st.pos ∈ ['1', '2', '3', '4', '5', '6', '7', '8', '9'])
    (hfull : ¬ (st.parsed_digits.length + st.zero_substring_length < kappa))
    (hfc : st.frac_calculated = false) :
    (parse_digits_step X kappa str st).frac =
        X.convert_numerator (extract_fraction_digits fraction_decimal_digits
          (advance str (st.pos - st.zero_substring_length))) % 256 ∧
      (parse_digits_step X kappa str st).frac_calculated = true := by
  have h0 : str st.pos ≠ '0' := by
    intro e
    rw [e] at h9
    exact absurd h9 (by decide)
  simp [parse_digits_step, h0, h9, hfull, hfc]

theorem iter_frac_kept (X : deps) (kappa : Nat) (str : Nat → Char) (st : digit_scan)
    (h : st.frac_calculated = true) (m : Nat) :
    (iter X kappa str m st).frac_calculated = true ∧ (iter X kappa str m st).frac = st.frac := by
  induction m with
  | zero => exact ⟨h, rfl⟩
  | succ m ih =>
    rw [iter_succ]
    have := step_frac_kept X kappa str _ ih.1
    exact ⟨this.1, by rw [this.2, ih.2]⟩

/-- The fractional remainder of a scan whose first dropped digit is at index
`n`, before the first terminating character at index `t`. -/
theorem frac_of_first_drop (X : deps) (kappa : Nat) (str : Nat → Char) (t n : Nat)
    (hs : first_stop str t) (ht : t ≤ offset + 1) (hn : n < t)
    (hfc : (iter deps.sample kappa str n (digit_scan.start true)).frac_calculated = false)
    (h9 : str n ∈ ['1', '2', '3', '4', '5', '6', '7', '8', '9'])
    (hfull : ¬ ((iter deps.sample kappa str n (digit_scan.start true)).parsed_digits.length +
      (iter deps.sample kappa str n (digit_scan.start true)).zero_substring_length < kappa)) :
    (parse_digits X kappa true str).frac =
      X.convert_numerator (extract_fraction_digits fraction_decimal_digits
        (advance str (n - (iter deps.sample kappa str n
          (digit_scan.start true)).zero_substring_length))) % 256 := by
  have hag := iter_deps_agree X deps.sample kappa str true n hfc
  have hpos : (iter X kappa str n (digit_scan.start true)).pos = n := iter_start_pos X kappa str true n
  have hdrop := step_drop_frac X kappa str (iter X kappa str n (digit_scan.start true))
    (by rw [hpos]; exact h9) (by rw [hag]; exact hfull) (by rw [hag]; exact hfc)
  rw [hpos, hag] at hdrop
  have hsplit : t = (n + 1) + (t - (n + 1)) := by omega
  have hkeep := iter_frac_kept X kappa str
    (iter X kappa str (n + 1) (digit_scan.start true))
    (by rw [iter_succ, hag]; exact hdrop.2) (t - (n + 1))
  have hit : iter X kappa str t (digit_scan.start true) =
      iter X kappa str (t - (n + 1)) (iter X kappa str (n + 1) (digit_scan.start true)) := by
    unfold iter
    rw [← Function.iterate_add_apply]
    congr 1
    omega
  simp only [parse_digits, loop_first_stop X kappa str true t ht hs]
  rw [hit, hkeep.2, iter_succ, hag]
  exact hdrop.1

/-- The shifting loop of `normalize()`: `k` shifts bring the top bit up. -/
theorem normalize_loop_shift (k : Nat) :
    ∀ (n m : Nat) (e : Int), k ≤ n → 2 ^ 63 ≤ m * 2 ^ k → m * 2 ^ k < 2 ^ 64 →
      diy_fp.normalize_loop n ⟨m, e⟩ = ⟨m * 2 ^ k, e - (k : Int)⟩ := by
  induction k with
  | zero =>
    intro n m e _ h1 h2
    simp only [pow_zero, Nat.mul_one, Nat.cast_zero, sub_zero] at h1 h2 ⊢
    cases n with
    | zero => rfl
    | succ n =>
      unfold diy_fp.normalize_loop
      simp only [mantissa_bits]
      rw [if_pos (by omega)]
  | succ k ih =>
    intro n m e hn h1 h2
    obtain ⟨n, rfl⟩ : ∃ n', n = n' + 1 := ⟨n - 1, by omega⟩
    have hm : m * 2 ^ (k + 1) = (m * 2) * 2 ^ k := by ring
    rw [hm] at h1 h2
    have hpos : 1 ≤ 2 ^ k := Nat.one_le_two_pow
    have hm2 : m * 2 < 2 ^ 64 := by
      have : m * 2 * 1 ≤ m * 2 * 2 ^ k := Nat.mul_le_mul_left _ hpos
      omega
    unfold diy_fp.normalize_loop
    simp only [mantissa_bits]
    rw [if_neg (by omega), Nat.mod_eq_of_lt hm2, ih n (m * 2) (e - 1) (by omega) h1 h2, hm]
    congr 1
    push_cast
    ring

theorem normalize_of_shift (m k : Nat) (e : Int) (hk : k ≤ 64) (h1 : 2 ^ 63 ≤ m * 2 ^ k)
    (h2 : m * 2 ^ k < 2 ^ 64) :
    (diy_fp.mk m e).normalize = some ⟨m * 2 ^ k, e - (k : Int)⟩ := by
  have hpos : 1 ≤ 2 ^ k := Nat.one_le_two_pow
  have hm : m < 2 ^ 64 := by
    have : m * 1 ≤ m * 2 ^ k := Nat.mul_le_mul_left _ hpos
    omega
  have hm0 : m ≠ 0 := by
    rintro rfl
    simp at h1
  unfold diy_fp.normalize
  simp only [mantissa_bits]
  rw [Nat.mod_eq_of_lt hm, if_neg hm0]
  have := normalize_loop_shift k 64 m e hk h1 h2
  simp only [mantissa_bits] at this ⊢
  rw [this]

theorem parse_mantissa_assert_fails (X : deps) (str : Nat → Char) (w : diy_fp)
    (hw : (parse_mantissa_packed X str).normalize = some w) (he : w.m_e < -4)
    (hf : (parse_digits X decimal_q true str).frac ≠ 0) : parse_mantissa X str = none := by
  unfold parse_mantissa
  simp only [hw]
  rw [if_pos hf, if_pos he]

/-- C16, the code at two failing inputs. On `0.00000000000000000199` the
capacity of 19 is used up by the 17 zeros after the decimal point and `19`;
the last `9` is dropped; the stored value is 19, not a number of 19 digits;
`frac` is `convert_numerator(9000)`; `normalize()` gives exponent -59, and
when `frac` is not zero the assertion `w.exponent() >= -4` fails. On
`11111111111111111109` the pending zero counts against the capacity: `9` is
dropped with 18 digits stored, the value is below `10 ^ 18`, `frac` is
`convert_numerator(900)` and the exponent after `normalize()` is -7. -/
theorem parse_mantissa_assertion_violated (X : deps) :
    (parse_digits X decimal_q true (cstr low_text)).value = 19 ∧
    (parse_digits X decimal_q true (cstr low_text)).frac = X.convert_numerator 9000 % 256 ∧
    (parse_mantissa_packed X (cstr low_text)).normalize = some ⟨19 * 2 ^ 59, -59⟩ ∧
    (X.convert_numerator 9000 % 256 ≠ 0 → parse_mantissa X (cstr low_text) = none) ∧
    (parse_digits X decimal_q true (cstr ones_text)).value = 111111111111111111 ∧
    (parse_digits X decimal_q true (cstr ones_text)).value < 10 ^ 18 ∧
    (parse_digits X decimal_q true (cstr ones_text)).frac = X.convert_numerator 900 % 256 ∧
    (parse_mantissa_packed X (cstr ones_text)).normalize =
      some ⟨111111111111111111 * 2 ^ 7, -7⟩ ∧
    (X.convert_numerator 900 % 256 ≠ 0 → parse_mantissa X (cstr ones_text) = none) := by
  have hv1 : (parse_digits X decimal_q true (cstr low_text)).value = 19 := by
    rw [(parse_digits_deps_irrelevant X deps.sample decimal_q true (cstr low_text)).1]
    decide
  have hv2 : (parse_digits X decimal_q true (cstr ones_text)).value = 111111111111111111 := by
    rw [(parse_digits_deps_irrelevant X deps.sample decimal_q true (cstr ones_text)).1]
    decide
  have hf1 : (parse_digits X decimal_q true (cstr low_text)).frac =
      X.convert_numerator 9000 % 256 := by
    have h := frac_of_first_drop X decimal_q (cstr low_text) 22 21
      (by unfold first_stop; decide) (by decide) (by decide) (by decide) (by decide) (by decide)
    rw [h]
    have e : extract_fraction_digits fraction_decimal_digits (advance (cstr low_text)
        (21 - (iter deps.sample decimal_q (cstr low_text) 21
          (digit_scan.start true)).zero_substring_length)) = 9000 := by decide
    rw [e]
  have hf2 : (parse_digits X decimal_q true (cstr ones_text)).frac =
      X.convert_numerator 900 % 256 := by
    have h := frac_of_first_drop X decimal_q (cstr ones_text) 20 19
      (by unfold first_stop; decide) (by decide) (by decide) (by decide) (by decide) (by decide)
    rw [h]
    have e : extract_fraction_digits fraction_decimal_digits (advance (cstr ones_text)
        (19 - (iter deps.sample decimal_q (cstr ones_text) 19
          (digit_scan.start true)).zero_substring_length)) = 900 := by decide
    rw [e]
  have hn1 : (parse_mantissa_packed X (cstr low_text)).normalize = some ⟨19 * 2 ^ 59, -59⟩ := by
    simp only [parse_mantissa_packed, hv1]
    exact normalize_of_shift 19 59 0 (by norm_num) (by norm_num) (by norm_num)
  have hn2 : (parse_mantissa_packed X (cstr ones_text)).normalize =
      some ⟨111111111111111111 * 2 ^ 7, -7⟩ := by
    simp only [parse_mantissa_packed, hv2]
    exact normalize_of_shift 111111111111111111 7 0 (by norm_num) (by norm_num) (by norm_num)
  refine ⟨hv1, hf1, hn1, fun h => ?_, hv2, by rw [hv2]; norm_num, hf2, hn2, fun h => ?_⟩
  · exact parse_mantissa_assert_fails X _ _ hn1 (by decide) (by rw [hf1]; exact h)
  · exact parse_mantissa_assert_fails X _ _ hn2 (by decide) (by rw [hf2]; exact h)

/-! ## C14: dropped digits are folded into K -/

theorem digit_value_pos (c : Char) (h : c ∈ ['1', '2', '3', '4', '5', '6', '7', '8', '9']) :
    1 ≤ digit_value c := by
  simp only [List.mem_cons, List.mem_singleton, List.not_mem_nil, or_false] at h
  rcases h with h | h | h | h | h | h | h | h | h <;> subst h <;> decide

/-- A dropped digit changes only `pow_gain`, the fractional remainder and the
position. -/
theorem step_drop_fields (X : deps) (kappa : Nat) (str : Nat → Char) (st : digit_scan)
    (h9 : str st.pos ∈ ['1', '2', '3', '4', '5', '6', '7', '8', '9'])
    (hroom : ¬ (st.parsed_digits.length + st.zero_substring_length < kappa)) :
    (parse_digits_step X kappa str st).parsed_digits = st.parsed_digits ∧
    (parse_digits_step X kappa str st).dot_set = st.dot_set ∧
    (parse_digits_step X kappa str st).pow_gain =
      st.pow_gain + (if st.dot_set then 0 else 1) ∧
    (parse_digits_step X kappa str st).zero_substring_length = st.zero_substring_length ∧
    (parse_digits_step X kappa str st).fraction_digits_count = st.fraction_digits_count ∧
    (parse_digits_step X kappa str st).go_to_beach =
      (st.go_to_beach || decide (st.pos > offset)) := by
  have h0 : str st.pos ≠ '0' := by
    intro e
    rw [e] at h9
    exact absurd h9 (by decide)
  unfold parse_digits_step
  simp only [h0, h9, hroom, if_true, if_false]
  split_ifs <;> exact ⟨rfl, rfl, rfl, rfl, rfl, rfl⟩

/-- Reading a digit, stored or dropped, keeps the state in step with the
literal. -/
theorem follows_digit (X : deps) (kappa : Nat) (str : Nat → Char) (a : lit_full)
    (st : digit_scan) (g r : Nat) (hk : 1 ≤ kappa) (h : follows kappa a st g r)
    (hp : st.pos ≤ offset) (hc : dec_digit (str st.pos)) :
    ∃ g2 r2, follows kappa (a.push_digit (str st.pos)) (parse_digits_step X kappa str st)
      g2 r2 := by
  obtain ⟨hb, hdot, hnum, hr, hfrac, hnd, hlen, hdig, hz, hJ, hf0, hphase⟩ := h
  have hp1 : ¬ (offset < st.pos) := by omega
  have hpow : 10 ^ (g + 1) = 10 * 10 ^ g := by ring
  rcases hc with h0 | h9
  · -- the character '0'
    unfold parse_digits_step
    simp only [h0, if_true]
    by_cases hcond : st.parsed_digits ≠ [] ∨ st.dot_set = true
    · rw [if_pos hcond]
      have hlead : ¬ (a.num = 0 ∧ a.dot = false ∧ ('0' : Char) = '0') := by
        rintro ⟨hn0, hd0, _⟩
        rcases hcond with hc1 | hc1
        · exact hc1 ((hJ hd0).mp hn0)
        · rw [hdot, hd0] at hc1
          exact absurd hc1 (by decide)
      refine ⟨g + 1, 10 * r, by simp [hb, hp1], hdot, ?_, ?_, ?_, ?_, hlen, hdig, ?_, ?_, ?_, ?_⟩
      · simp only [lit_full.push_digit, digit_value_zero, hnum]
        ring
      · omega
      · simp only [lit_full.push_digit]
        rw [← hdot]
        cases hds : st.dot_set <;> simp <;> omega
      · simp only [lit_full.push_digit]
        split_ifs with hx
        · exact absurd ⟨hx.1, hx.2.1, rfl⟩ hlead
        · omega
      · intro h1 h2
        simp only at h1 h2
        rcases hcond with hc1 | hc1
        · exact absurd h1 hc1
        · rw [hc1] at h2; exact absurd h2 (by decide)
      · intro hd0
        simp only [lit_full.push_digit] at hd0 ⊢
        have := hJ hd0
        simp only [digit_value_zero, Nat.add_zero]
        constructor
        · intro e
          exact this.mp (by omega)
        · intro e
          have := this.mpr e
          omega
      · intro hd0
        simp only [lit_full.push_digit] at hd0 ⊢
        simp [hd0, hf0 hd0]
      · rcases hphase with ⟨hr0, hg, hpg⟩ | hfull
        · left
          simp only
          refine ⟨by omega, by omega, ?_⟩
          split_ifs <;> omega
        · right
          simp only
          omega
    · rw [if_neg hcond]
      have hcond1 : st.parsed_digits = [] := by
        by_contra hn
        exact hcond (Or.inl hn)
      have hcond2 : st.dot_set = false := by
        cases hv : st.dot_set with
        | false => rfl
        | true => exact absurd (Or.inr hv) hcond
      have hz0 := hz hcond1 hcond2
      have hdot0 : a.dot = false := by rw [← hdot, hcond2]
      have hnum0 : a.num = 0 := (hJ hdot0).mpr hcond1
      have hg0 : g = 0 ∧ r = 0 := by
        rcases hphase with ⟨hr0, hg, _⟩ | hfull
        · exact ⟨by omega, hr0⟩
        · rw [hcond1, hz0] at hfull
          simp at hfull
          omega
      obtain ⟨hg, hr0⟩ := hg0
      subst hg
      subst hr0
      have hlead : a.num = 0 ∧ a.dot = false ∧ ('0' : Char) = '0' := ⟨hnum0, hdot0, rfl⟩
      refine ⟨0, 0, by simp [hb, hp1], hdot, ?_, by simp, ?_, ?_, hlen, hdig, hz, ?_, ?_, ?_⟩
      · simp only [lit_full.push_digit, digit_value_zero, hnum0, hcond1]
        simp [nat_of_nats]
      · simp only [lit_full.push_digit, hdot0]
        simpa using hfrac
      · simp only [lit_full.push_digit]
        split_ifs with hx
        · omega
        · exfalso
          apply hx
          simp [hnum0, hdot0]
      · intro _
        simp only [lit_full.push_digit, digit_value_zero, hnum0, hcond1]
      · intro hd0
        simp only [lit_full.push_digit] at hd0 ⊢
        simp [hd0, hf0 hd0]
      · left
        exact ⟨rfl, hz0.symm, by
          rcases hphase with ⟨_, _, hpg⟩ | hfull
          · exact hpg
          · rw [hcond1, hz0] at hfull
            simp at hfull
            omega⟩
  · -- a character '1' .. '9'
    have hne0 : str st.pos ≠ '0' := by
      intro e
      rw [e] at h9
      exact absurd h9 (by decide)
    have hv := digit_value_le _ h9
    have hv1 := digit_value_pos _ h9
    have hlead : ¬ (a.num = 0 ∧ a.dot = false ∧ str st.pos = '0') := fun hx => hne0 hx.2.2
    by_cases hroom : st.parsed_digits.length + st.zero_substring_length < kappa
    · -- the digit is stored
      obtain ⟨hr0, hg, hpg⟩ : r = 0 ∧ g = st.zero_substring_length ∧
          st.pow_gain ≤ st.zero_substring_length := by
        rcases hphase with hx | hfull
        · exact hx
        · omega
      subst hr0
      unfold parse_digits_step
      simp only [hne0, h9, if_true, if_false, hroom]
      by_cases hzs : st.zero_substring_length = 0
      · have hpg0 : st.pow_gain = 0 := by omega
        have hg0 : g = 0 := by omega
        subst hg0
        simp only [hzs, ne_eq, not_true_eq_false, if_false]
        refine ⟨0, 0, by simp [hb, hp1], hdot, ?_, by simp, ?_, ?_, ?_, ?_, ?_, ?_, ?_, ?_⟩
        · simp only [lit_full.push_digit, pow_zero, mul_one, Nat.add_zero]
          rw [nat_of_nats_snoc, hnum]
          simp [digit_value]
        · simp only [lit_full.push_digit]
          rw [← hdot]
          rw [hpg0] at hfrac
          cases hds : st.dot_set <;> simp <;> omega
        · simp only [lit_full.push_digit, if_neg hlead, List.length_append,
            List.length_singleton]
          omega
        · simp only [List.length_append, List.length_singleton]
          omega
        · intro d hd
          simp only [List.mem_append, List.mem_singleton] at hd
          rcases hd with hd | hd
          · exact hdig d hd
          · rw [hd]; exact hv
        · intro h1
          simp at h1
        · intro _
          simp only [lit_full.push_digit]
          constructor
          · intro e; omega
          · intro e; simp at e
        · intro hd0
          simp only [lit_full.push_digit] at hd0 ⊢
          simp [hd0, hf0 hd0]
        · left
          refine ⟨rfl, ?_, ?_⟩
          · simp only
          · simp only
            omega
      · simp only [hzs, ne_eq, not_false_eq_true, if_true]
        refine ⟨0, 0, by simp [hb, hp1], hdot, ?_, by simp, ?_, ?_, ?_, ?_, ?_, ?_, ?_, ?_⟩
        · simp only [lit_full.push_digit, pow_zero, mul_one, Nat.add_zero]
          rw [nat_of_nats_snoc, nat_of_nats_zeros, hnum, hg]
          simp [digit_value]
        · simp only [lit_full.push_digit]
          rw [← hdot]
          cases hds : st.dot_set <;> simp <;> omega
        · simp only [lit_full.push_digit, if_neg hlead, List.length_append,
            List.length_singleton, List.length_replicate]
          omega
        · simp only [List.length_append, List.length_singleton, List.length_replicate]
          omega
        · intro d hd
          simp only [List.mem_append, List.mem_singleton, List.mem_replicate] at hd
          rcases hd with (hd | hd) | hd
          · exact hdig d hd
          · omega
          · rw [hd]; exact hv
        · intro h1
          simp at h1
        · intro _
          simp only [lit_full.push_digit]
          constructor
          · intro e; omega
          · intro e; simp at e
        · intro hd0
          simp only [lit_full.push_digit] at hd0 ⊢
          simp [hd0, hf0 hd0]
        · left
          exact ⟨rfl, rfl, le_refl _⟩
    · -- the digit is dropped
      obtain ⟨e1, e2, e3, e4, e5, e6⟩ := step_drop_fields X kappa str st h9 hroom
      have hne : st.dot_set = false → st.parsed_digits ≠ [] := by
        intro hd0 he
        have := hz he hd0
        rw [he, this] at hroom
        simp at hroom
        omega
      refine ⟨g + 1, 10 * r + digit_value (str st.pos), ?_, ?_, ?_, ?_, ?_, ?_, ?_, ?_, ?_, ?_,
        ?_, ?_⟩
      · rw [e6]; simp [hb, hp1]
      · rw [e2]; exact hdot
      · rw [e1]
        simp only [lit_full.push_digit, hnum]
        ring
      · omega
      · rw [e5, e3]
        simp only [lit_full.push_digit]
        rw [← hdot]
        cases hds : st.dot_set <;> simp <;> omega
      · rw [e1]
        simp only [lit_full.push_digit, if_neg hlead]
        omega
      · rw [e1]; exact hlen
      · rw [e1]; exact hdig
      · rw [e1, e2, e4]; exact hz
      · intro hd0
        simp only [lit_full.push_digit] at hd0 ⊢
        have hne2 := hne (by rw [hdot, hd0])
        rw [e1]
        constructor
        · intro e; omega
        · intro e; exact absurd e hne2
      · intro hd0
        simp only [lit_full.push_digit] at hd0 ⊢
        simp [hd0, hf0 hd0]
      · right
        rw [e1, e4]
        omega

/-- Reading the first decimal point keeps the state in step with the literal. -/
theorem follows_dot (X : deps) (kappa : Nat) (str : Nat → Char) (a : lit_full)
    (st : digit_scan) (g r : Nat) (h : follows kappa a st g r) (hp : st.pos ≤ offset)
    (hc : str st.pos = '.') (hfirst : a.dot = false) :
    follows kappa a.push_dot (parse_digits_step X kappa str st) g r := by
  obtain ⟨hb, hdot, hnum, hr, hfrac, hnd, hlen, hdig, hz, hJ, hf0, hphase⟩ := h
  have hp1 : ¬ (offset < st.pos) := by omega
  have hds : st.dot_set = false := by rw [hdot, hfirst]
  unfold parse_digits_step
  simp only [hc]
  refine ⟨by simp [hds, hp1], by simp [lit_full.push_dot], hnum, hr, hfrac, hnd, hlen, hdig,
    ?_, ?_, ?_, hphase⟩
  · intro _ h2
    simp at h2
  · intro h1
    simp [lit_full.push_dot] at h1
  · intro h1
    simp [lit_full.push_dot] at h1

/-- Reading a sign at index 0 keeps the state in step with the literal. -/
theorem follows_sign (X : deps) (kappa : Nat) (str : Nat → Char) (a : lit_full)
    (st : digit_scan) (g r : Nat) (h : follows kappa a st g r) (hp : st.pos = 0)
    (hc : str st.pos = '+' ∨ str st.pos = '-') :
    follows kappa a (parse_digits_step X kappa str st) g r := by
  obtain ⟨hb, hdot, hnum, hr, hfrac, hnd, hlen, hdig, hz, hJ, hf0, hphase⟩ := h
  have hp1 : ¬ (offset < st.pos) := by rw [hp]; simp [offset]
  have hsg : (str st.pos = '-' ∨ str st.pos = '+') ∧ st.pos = 0 := ⟨hc.symm, hp⟩
  have h0 : str st.pos ≠ '0' := by
    rcases hc with e | e <;> rw [e] <;> decide
  have h9 : str st.pos ∉ ['1', '2', '3', '4', '5', '6', '7', '8', '9'] := by
    rcases hc with e | e <;> rw [e] <;> decide
  have hd : str st.pos ≠ '.' := by
    rcases hc with e | e <;> rw [e] <;> decide
  unfold parse_digits_step
  simp only [h0, h9, hd, if_false]
  rw [if_pos hsg]
  exact ⟨by simp [hb, hp1], hdot, hnum, hr, hfrac, hnd, hlen, hdig, hz, hJ, hf0, hphase⟩

/-- Reading a run of digits of any length: the loop goes through the run and
the state stays in step with the literal. -/
theorem follows_run (X : deps) (kappa : Nat) (str : Nat → Char) (hk : 1 ≤ kappa)
    (ds : List Char) :
    ∀ (a : lit_full) (st : digit_scan) (g r : Nat), follows kappa a st g r →
      (∀ c, c ∈ ds → dec_digit c) →
      chars (advance str st.pos) ds.length = ds →
      st.pos + ds.length ≤ offset + 1 →
      (∃ g2 r2, follows kappa (ds.foldl lit_full.push_digit a)
        (iter X kappa str ds.length st) g2 r2) ∧
      ∀ fuel, parse_digits_loop X kappa str (fuel + ds.length) st =
        parse_digits_loop X kappa str fuel (iter X kappa str ds.length st) := by
  induction ds with
  | nil =>
    intro a st g r h _ _ _
    exact ⟨⟨g, r, h⟩, fun _ => rfl⟩
  | cons c t ih =>
    intro a st g r h hdig hchars hpos
    simp only [List.length_cons] at hchars hpos ⊢
    have hsplit : str st.pos = c ∧ chars (advance str (st.pos + 1)) t.length = t := by
      rw [chars_cons, advance_advance] at hchars
      simp only [List.cons.injEq] at hchars
      exact ⟨by simpa [advance] using hchars.1, hchars.2⟩
    obtain ⟨g1, r1, hstep⟩ := follows_digit X kappa str a st g r hk h (by omega)
      (by rw [hsplit.1]; exact hdig c (List.mem_cons_self _ _))
    rw [hsplit.1] at hstep
    have hnext := ih (a.push_digit c) (parse_digits_step X kappa str st) g1 r1 hstep
      (fun x hx => hdig x (List.mem_cons_of_mem _ hx))
      (by rw [step_pos]; exact hsplit.2) (by rw [step_pos]; omega)
    rw [iter_succ_left, List.foldl_cons]
    refine ⟨hnext.1, fun fuel => ?_⟩
    rw [← Nat.add_assoc, loop_of_continue X kappa str _ st h.1]
    exact hnext.2 fuel

theorem foldl_full (ds : List Char) :
    ∀ a : lit_full,
      (ds.foldl lit_full.push_digit a).num =
          ds.foldl (fun n c => 10 * n + digit_value c) a.num ∧
        (ds.foldl lit_full.push_digit a).frac_len =
          a.frac_len + (if a.dot then ds.length else 0) ∧
        (ds.foldl lit_full.push_digit a).dot = a.dot ∧
        (ds.foldl lit_full.push_digit a).ndigits = a.ndigits + ds.length := by
  induction ds with
  | nil => intro a; simp
  | cons c t ih =>
    intro a
    obtain ⟨h1, h2, h3, h4⟩ := ih (a.push_digit c)
    rw [List.foldl_cons, h1, h2, h3, h4]
    simp only [lit_full.push_digit, List.foldl_cons, List.length_cons]
    refine ⟨trivial, ?_, trivial, by omega⟩
    split_ifs <;> omega

theorem foldl_full_lead_kept (ds : List Char) :
    ∀ a : lit_full, a.num ≠ 0 → (ds.foldl lit_full.push_digit a).lead = a.lead := by
  induction ds with
  | nil => intro a _; rfl
  | cons c t ih =>
    intro a ha
    rw [List.foldl_cons, ih (a.push_digit c) (by simp only [lit_full.push_digit]; omega)]
    simp only [lit_full.push_digit]
    rw [if_neg (fun hx => ha hx.1)]
    rfl

theorem foldl_full_lead (ds : List Char) (hd : ∀ c, c ∈ ds → dec_digit c) :
    ∀ a : lit_full, a.num = 0 → a.dot = false →
      (ds.foldl lit_full.push_digit a).lead = a.lead + leading_zeros ds := by
  induction ds with
  | nil => intro a _ _; rfl
  | cons c t ih =>
    intro a hn hdot
    rw [List.foldl_cons]
    by_cases hc : c = '0'
    · subst hc
      rw [ih (fun x hx => hd x (List.mem_cons_of_mem _ hx)) _
        (by simp [lit_full.push_digit, hn, digit_value_zero])
        (by simp [lit_full.push_digit, hdot])]
      simp only [lit_full.push_digit, leading_zeros, if_true]
      rw [if_pos ⟨hn, hdot, trivial⟩]
      omega
    · have h9 : c ∈ ['1', '2', '3', '4', '5', '6', '7', '8', '9'] := by
        rcases hd c (List.mem_cons_self _ _) with h | h
        · exact absurd h hc
        · exact h
      have hv := digit_value_pos c h9
      rw [foldl_full_lead_kept t _ (by simp only [lit_full.push_digit]; omega)]
      simp only [lit_full.push_digit, leading_zeros, if_neg hc]
      rw [if_neg (fun hx => hc hx.2.2)]

/-- The state of `parse_digits` after a well-formed literal of any number of
digits, followed by a character that ends it. -/
theorem literal_scan_full (X : deps) (kappa : Nat) (calc_frac : Bool) (str : Nat → Char)
    (sgn ip fp : List Char) (dot : Bool) (hk : 1 ≤ kappa) (hok : literal_ok sgn ip fp dot)
    (hshort : (literal_text sgn ip fp dot).length ≤ offset)
    (htext : chars str (literal_text sgn ip fp dot).length = literal_text sgn ip fp dot)
    (hend : ends_literal (str (literal_text sgn ip fp dot).length) dot
      (literal_text sgn ip fp dot).length) :
    ∃ (st : digit_scan) (a : lit_full) (g r : Nat),
      follows kappa a st g r ∧ a.num = nat_of_digits (ip ++ fp) ∧ a.frac_len = fp.length ∧
      (dot = false → a.lead = leading_zeros ip ∧ a.ndigits = ip.length) ∧
      parse_digits_loop X kappa str (offset + 2) (digit_scan.start calc_frac) =
        { st with go_to_beach := true, pos := st.pos + 1 } := by
  obtain ⟨hsgn, hip, hfp, hnodot⟩ := hok
  obtain ⟨ht1, ht23⟩ := chars_split str sgn _ htext
  obtain ⟨ht2, ht3⟩ := chars_split (advance str sgn.length) ip _ ht23
  rw [advance_advance] at ht3
  have hlen : (literal_text sgn ip fp dot).length =
      sgn.length + (ip.length + (if dot then '.' :: fp else []).length) := by
    simp [literal_text]
  -- the sign
  have hA : follows kappa ⟨0, 0, false, 0, 0⟩
      (iter X kappa str sgn.length (digit_scan.start calc_frac)) 0 0 ∧
      ∀ fuel, parse_digits_loop X kappa str (fuel + sgn.length) (digit_scan.start calc_frac) =
        parse_digits_loop X kappa str fuel
          (iter X kappa str sgn.length (digit_scan.start calc_frac)) := by
    have h0 : follows kappa ⟨0, 0, false, 0, 0⟩ (digit_scan.start calc_frac) 0 0 := by
      simp [follows, digit_scan.start, nat_of_nats]
    rcases hsgn with e | e | e
    · subst e
      exact ⟨h0, fun _ => rfl⟩
    · subst e
      have hc : str 0 = '+' := by simpa [chars, List.range_succ] using ht1
      refine ⟨follows_sign X kappa str _ _ 0 0 h0 rfl (Or.inl hc), fun fuel => ?_⟩
      exact loop_of_continue X kappa str fuel _ rfl
    · subst e
      have hc : str 0 = '-' := by simpa [chars, List.range_succ] using ht1
      refine ⟨follows_sign X kappa str _ _ 0 0 h0 rfl (Or.inr hc), fun fuel => ?_⟩
      exact loop_of_continue X kappa str fuel _ rfl
  obtain ⟨hA1, hA2⟩ := hA
  set s1 := iter X kappa str sgn.length (digit_scan.start calc_frac) with hs1
  have hp1 : s1.pos = sgn.length := iter_start_pos X kappa str calc_frac _
  -- the integer part
  obtain ⟨⟨g2, r2, hB1⟩, hB2⟩ := follows_run X kappa str hk ip ⟨0, 0, false, 0, 0⟩ s1 0 0 hA1 hip
    (by rw [hp1]; exact ht2) (by rw [hp1]; omega)
  set s2 := iter X kappa str ip.length s1 with hs2
  have hp2 : s2.pos = sgn.length + ip.length := by rw [hs2, iter_pos, hp1]
  set a2 := ip.foldl lit_full.push_digit ⟨0, 0, false, 0, 0⟩ with ha2
  obtain ⟨hn2, hf2, hd2, hnd2⟩ := foldl_full ip ⟨0, 0, false, 0, 0⟩
  rw [← ha2] at hn2 hf2 hd2 hnd2
  simp only [Bool.false_eq_true, if_false, Nat.add_zero, Nat.zero_add] at hf2 hnd2
  have hl2 : a2.lead = leading_zeros ip := by
    have := foldl_full_lead ip hip ⟨0, 0, false, 0, 0⟩ rfl rfl
    rw [← ha2] at this
    simpa using this
  cases dot with
  | false =>
    have hfp0 : fp = [] := hnodot rfl
    subst hfp0
    simp only [Bool.false_eq_true, if_false, List.length_nil, Nat.add_zero] at hlen hshort
    refine ⟨s2, a2, g2, r2, hB1, ?_, ?_, fun _ => ⟨hl2, hnd2⟩, ?_⟩
    · rw [hn2]; simp [nat_of_digits]
    · rw [hf2]; rfl
    · obtain ⟨h1, h2, h3⟩ := hend
      rw [hlen, ← hp2] at h1 h2 h3
      have hstop := step_of_stop X kappa str s2 h1
        (fun e => absurd (h2 e) (by decide)) h3
      have hfuel : offset + 2 = ((offset + 1 - s2.pos + 1) + ip.length) + sgn.length := by
        rw [hp2]; omega
      rw [hfuel, hA2, hB2, loop_of_continue X kappa str _ s2 hB1.1, hstop]
      exact loop_of_beach X kappa str _ _ rfl
  | true =>
    simp only [if_true, List.length_cons] at hlen ht3 hshort
    obtain ⟨ht3a, ht3b⟩ := chars_split (advance str (sgn.length + ip.length)) ['.'] fp ht3
    rw [advance_advance] at ht3b
    have hcdot : str s2.pos = '.' := by
      rw [hp2]
      simpa [chars, advance, List.range_succ] using ht3a
    have hC := follows_dot X kappa str a2 s2 g2 r2 hB1 (by rw [hp2]; omega) hcdot hd2
    set s3 := parse_digits_step X kappa str s2 with hs3
    have hp3 : s3.pos = sgn.length + ip.length + 1 := by rw [hs3, step_pos, hp2]
    obtain ⟨⟨g4, r4, hD1⟩, hD2⟩ := follows_run X kappa str hk fp a2.push_dot s3 g2 r2 hC hfp
      (by rw [hp3]; exact ht3b) (by rw [hp3]; omega)
    set s4 := iter X kappa str fp.length s3 with hs4
    have hp4 : s4.pos = sgn.length + ip.length + 1 + fp.length := by rw [hs4, iter_pos, hp3]
    obtain ⟨hn4, hf4, hd4, _⟩ := foldl_full fp a2.push_dot
    simp only [lit_full.push_dot, if_true] at hn4 hf4 hd4
    refine ⟨s4, fp.foldl lit_full.push_digit a2.push_dot, g4, r4, hD1, ?_, ?_,
      fun h => absurd h (by decide), ?_⟩
    · simp only [lit_full.push_dot]
      rw [hn4, hn2]
      simp [nat_of_digits, List.foldl_append]
    · simp only [lit_full.push_dot]
      rw [hf4, hf2]
      omega
    · obtain ⟨h1, h2, h3⟩ := hend
      have hpe : (literal_text sgn ip fp true).length = s4.pos := by rw [hp4, hlen]; omega
      rw [hpe] at h1 h2 h3
      have hds4 : s4.dot_set = true := by
        rw [hD1.2.1]
        simp only [lit_full.push_dot]
        exact hd4
      have hstop := step_of_stop X kappa str s4 h1 (fun _ => hds4) h3
      have hfuel : offset + 2 =
          ((((offset + 1 - s4.pos + 1) + fp.length) + 1) + ip.length) + sgn.length := by
        rw [hp4]; omega
      rw [hfuel, hA2, hB2, loop_of_continue X kappa str _ s2 hB1.1, ← hs3, hD2,
        loop_of_continue X kappa str _ s4 hD1.1, hstop]
      exact loop_of_beach X kappa str _ _ rfl

/-- C14 (amended): for every capacity `1 ≤ kappa ≤ decimal_q = 19` and every
well-formed literal x (optional sign, decimal digits with at most one `.`,
followed by a character that ends it) of length at most 2048 and with any
number of digits, `parse_digits<kappa, calc_frac>` returns value and K with
`value × 10 ^ K ≤ |x| < (value + 1) × 10 ^ K`; and for a literal with no
decimal point, K is the number of its digits, counted from the first nonzero
digit on, that were not stored in value. -/
theorem parse_digits_truncation (X : deps) (kappa : Nat) (calc_frac : Bool) (str : Nat → Char)
    (sgn ip fp : List Char) (dot : Bool) (hk1 : 1 ≤ kappa) (hk : kappa ≤ decimal_q)
    (hok : literal_ok sgn ip fp dot)
    (hshort : (literal_text sgn ip fp dot).length ≤ offset)
    (htext : chars str (literal_text sgn ip fp dot).length = literal_text sgn ip fp dot)
    (hend : ends_literal (str (literal_text sgn ip fp dot).length) dot
      (literal_text sgn ip fp dot).length) :
    ((parse_digits X kappa calc_frac str).value : ℚ) *
        (10 : ℚ) ^ (parse_digits X kappa calc_frac str).K ≤
      (nat_of_digits (ip ++ fp) : ℚ) / (10 : ℚ) ^ fp.length ∧
    (nat_of_digits (ip ++ fp) : ℚ) / (10 : ℚ) ^ fp.length <
      (((parse_digits X kappa calc_frac str).value : ℚ) + 1) *
        (10 : ℚ) ^ (parse_digits X kappa calc_frac str).K ∧
    (dot = false → (parse_digits X kappa calc_frac str).K =
      (ip.length : Int) - (leading_zeros ip : Int) -
        ((parse_digits_loop X kappa str (offset + 2)
          (digit_scan.start calc_frac)).parsed_digits.length : Int)) := by
  obtain ⟨st, a, g, r, hfol, hnum, hf, hlead, hloop⟩ :=
    literal_scan_full X kappa calc_frac str sgn ip fp dot hk1 hok hshort htext hend
  obtain ⟨_, _, hN, hr, hfrac, hnd, hlen, hdig, _, _, _, _⟩ := hfol
  have hlt : nat_of_nats st.parsed_digits < 2 ^ mantissa_bits := by
    have h1 := nat_of_nats_lt st.parsed_digits hdig
    have h2 : 10 ^ st.parsed_digits.length ≤ 10 ^ 19 :=
      Nat.pow_le_pow_right (by norm_num) (by simp only [decimal_q] at hk; omega)
    have h3 : (10 : Nat) ^ 19 < 2 ^ mantissa_bits := by norm_num [mantissa_bits]
    omega
  have hval : (parse_digits X kappa calc_frac str).value = nat_of_nats st.parsed_digits := by
    simp only [parse_digits, hloop]
    rw [accumulate_reverse, Nat.mod_eq_of_lt hlt]
  have hK : (parse_digits X kappa calc_frac str).K = (g : Int) - (fp.length : Int) := by
    simp only [parse_digits, hloop]
    rw [hf] at hfrac
    omega
  have hpos : (0 : ℚ) < (10 : ℚ) ^ fp.length := by positivity
  have hpow : (10 : ℚ) ^ ((g : Int) - (fp.length : Int)) = (10 : ℚ) ^ g / (10 : ℚ) ^ fp.length := by
    rw [zpow_sub₀ (by norm_num : (10 : ℚ) ≠ 0), zpow_natCast, zpow_natCast]
  have hlow : nat_of_nats st.parsed_digits * 10 ^ g ≤ nat_of_digits (ip ++ fp) := by
    rw [← hnum, hN]; omega
  have hhigh : nat_of_digits (ip ++ fp) < (nat_of_nats st.parsed_digits + 1) * 10 ^ g := by
    rw [← hnum, hN, Nat.add_mul, Nat.one_mul]; omega
  refine ⟨?_, ?_, ?_⟩
  · rw [hval, hK, hpow, ← mul_div_assoc]
    apply div_le_div_of_nonneg_right _ hpos.le
    exact_mod_cast hlow
  · rw [hval, hK, hpow, ← mul_div_assoc]
    apply div_lt_div_of_pos_right _ hpos
    exact_mod_cast hhigh
  · intro hd
    have hfp : fp = [] := hok.2.2.2 hd
    obtain ⟨hl, hn⟩ := hlead hd
    rw [hK, hfp, hloop]
    simp only [List.length_nil, Nat.cast_zero, sub_zero]
    omega

/-- The theorem `parse_digits_truncation` at the literal
`12345678901234567895` with capacity 19: the last digit is dropped, value is
1234567890123456789 and K = 1. -/
theorem parse_digits_truncation_witness :
    literal_ok [] twenty_text [] false ∧
    (parse_digits deps.sample 19 true (cstr twenty_text)).value = 1234567890123456789 ∧
    (parse_digits deps.sample 19 true (cstr twenty_text)).K = 1 ∧
    ((parse_digits deps.sample 19 true (cstr twenty_text)).value : ℚ) *
        (10 : ℚ) ^ (parse_digits deps.sample 19 true (cstr twenty_text)).K ≤
      (nat_of_digits (twenty_text ++ []) : ℚ) / (10 : ℚ) ^ ([] : List Char).length :=
  ⟨by decide, by decide, by decide,
    (parse_digits_truncation deps.sample 19 true (cstr twenty_text) [] twenty_text [] false
      (by decide) (by decide) (by decide) (by decide) (by decide) (by decide)).1⟩

/-- C14 as stated fails in three places. With capacity 19, the literal `007`
has three digits of which one is stored, and K is 0, not 2: the leading zeros
are not stored and not counted. With capacity 0, the literal `50` gives value
0 and K = 1, and 50 is not below `(0 + 1) × 10 ^ 1`. With capacity 20, the
literal `18446744073709551616` gives value 0 and K = 0 by the 64-bit
wrap-around, and 2 ^ 64 is not below `(0 + 1) × 10 ^ 0`. -/
theorem parse_digits_truncation_fails :
    (parse_digits deps.sample 19 true (cstr ['0', '0', '7'])).K = 0 ∧
    (parse_digits_loop deps.sample 19 (cstr ['0', '0', '7']) (offset + 2)
      (digit_scan.start true)).parsed_digits.length = 1 ∧
    (['0', '0', '7'].length : Int) - 1 ≠
      (parse_digits deps.sample 19 true (cstr ['0', '0', '7'])).K ∧
    (parse_digits deps.sample 0 true (cstr ['5', '0'])).value = 0 ∧
    (parse_digits deps.sample 0 true (cstr ['5', '0'])).K = 1 ∧
    ¬ ((nat_of_digits ['5', '0'] : ℚ) / (10 : ℚ) ^ ([] : List Char).length <
      (((parse_digits deps.sample 0 true (cstr ['5', '0'])).value : ℚ) + 1) *
        (10 : ℚ) ^ (parse_digits deps.sample 0 true (cstr ['5', '0'])).K) ∧
    ¬ ((nat_of_digits two_pow_64_text : ℚ) / (10 : ℚ) ^ ([] : List Char).length <
      (((parse_digits deps.sample 20 true (cstr two_pow_64_text)).value : ℚ) + 1) *
        (10 : ℚ) ^ (parse_digits deps.sample 20 true (cstr two_pow_64_text)).K) := by
  have hK1 : (parse_digits deps.sample 19 true (cstr ['0', '0', '7'])).K = 0 := by decide
  have hv2 : (parse_digits deps.sample 0 true (cstr ['5', '0'])).value = 0 := by decide
  have hK2 : (parse_digits deps.sample 0 true (cstr ['5', '0'])).K = 1 := by decide
  have hn2 : nat_of_digits ['5', '0'] = 50 := by decide
  have hv3 : (parse_digits deps.sample 20 true (cstr two_pow_64_text)).value = 0 := by decide
  have hK3 : (parse_digits deps.sample 20 true (cstr two_pow_64_text)).K = 0 := by decide
  have hn3 : nat_of_digits two_pow_64_text = 2 ^ 64 := by decide
  refine ⟨hK1, by decide, ?_, hv2, hK2, ?_, ?_⟩
  · rw [hK1]; decide
  · rw [hv2, hK2, hn2]; norm_num
  · rw [hv3, hK3, hn3]; norm_num

/-! ## C18, C19: take_apart -/

theorem write_active_offset (st st1 : take_apart_scan) (i : Nat) (c : Char)
    (h : st.write_active i c = .ok st1) : st1.offset = st.offset := by
  unfold take_apart_scan.write_active at h
  split_ifs at h <;> (cases h; rfl)

theorem take_apart_digit_offset (st st1 : take_apart_scan) (c : Char)
    (h : take_apart_digit st c = .ok st1) : st1.offset = st.offset := by
  unfold take_apart_digit at h
  split_ifs at h
  · split at h
    · cases h
    · rename_i st2 hw
      cases h
      have := write_active_offset st st2 _ _ hw
      simp only [take_apart_scan.bump_len]
      split_ifs <;> exact this
  · split at h
    · cases h
    · exact write_active_offset st st1 _ _ h

/-- An iteration of the loop of `take_apart` never raises `offset`. -/
theorem take_apart_step_offset (str : Nat → Char) (pos : Nat) (st st1 : take_apart_scan)
    (hp : pos < st.offset) (h : take_apart_step str pos st = .ok st1) :
    st1.offset ≤ st.offset := by
  unfold take_apart_step at h
  simp only at h
  split_ifs at h
  all_goals first
    | (cases h; simp only; omega)
    | (cases h; exact le_refl _)
    | (have hd : st1.offset = st.offset := take_apart_digit_offset st st1 _ h
       omega)
    | (cases h; simp only [take_apart_scan.set_sign]; split_ifs <;> exact le_refl _)
    | (split at h
       · cases h
       · rename_i st2 hw
         cases h
         have := write_active_offset st st2 _ _ hw
         simp only
         omega)

/-- The loop of `take_apart` ends within its bound: once the bound covers the
positions up to `offset`, a larger bound gives the same result. -/
theorem take_apart_loop_bound (str : Nat → Char) (n : Nat) :
    ∀ (pos : Nat) (st : take_apart_scan), st.offset ≤ pos + n →
      ∀ m, take_apart_loop str (n + m) pos st = take_apart_loop str n pos st := by
  induction n with
  | zero =>
    intro pos st h m
    cases m with
    | zero => rfl
    | succ m =>
      simp only [Nat.zero_add, take_apart_loop]
      rw [if_neg (by omega)]
  | succ n ih =>
    intro pos st h m
    rw [Nat.add_right_comm]
    simp only [take_apart_loop]
    by_cases hp : pos < st.offset
    · rw [if_pos hp, if_pos hp]
      cases hs : take_apart_step str pos st with
      | error f => rfl
      | ok st1 =>
        simp only
        exact ih (pos + 1) st1 (by have := take_apart_step_offset str pos st st1 hp hs; omega) m
    · rw [if_neg hp, if_neg hp]

/-- The bound of 2048 iterations is enough for every input. -/
theorem take_apart_loop_total (str buffer exp : Nat → Char) (m : Nat) :
    take_apart_loop str (2048 + m) 0 (take_apart_scan.start buffer exp) =
      take_apart_loop str 2048 0 (take_apart_scan.start buffer exp) :=
  take_apart_loop_bound str 2048 0 _ (by simp [take_apart_scan.start]) m

/-- C18, the code at the failing inputs `10e-1` and `1200e-3`: `take_apart`
writes the digits `1` and K = -2 for `10e-1`, that is 0.01 and not 1, and the
digits `12` and K = -5 for `1200e-3`, that is 0.00012 and not 1.2. The
trailing zeros are added to K before K is negated for the `-` of the
exponent. Sign and `str_end` are as the claim says. Without an exponent,
`10.0` gives the digits `1` and K = 2, that is 100: the trailing zeros left of
the decimal point are counted in the loop and once more in the final
subtraction. The literal `1.5` is taken apart correctly. -/
theorem take_apart_loses_value :
    take_apart_outputs (take_apart (cstr ['1', '0', 'e', '-', '1']) scratch_mant scratch_exp) =
      some (['1'], some (-2), some true, 5) ∧
    (nat_of_digits ['1'] : ℚ) * (10 : ℚ) ^ (-2 : Int) ≠
      (nat_of_digits ['1', '0'] : ℚ) * (10 : ℚ) ^ (-1 : Int) ∧
    take_apart_outputs
        (take_apart (cstr ['1', '2', '0', '0', 'e', '-', '3']) scratch_mant scratch_exp) =
      some (['1', '2'], some (-5), some true, 7) ∧
    (nat_of_digits ['1', '2'] : ℚ) * (10 : ℚ) ^ (-5 : Int) ≠
      (nat_of_digits ['1', '2', '0', '0'] : ℚ) * (10 : ℚ) ^ (-3 : Int) ∧
    take_apart_outputs (take_apart (cstr ['1', '0', '.', '0']) scratch_mant scratch_exp) =
      some (['1'], some 2, some true, 4) ∧
    take_apart_outputs (take_apart (cstr ['1', '.', '5']) scratch_mant scratch_exp) =
      some (['1', '5'], some (-1), some true, 3) := by
  have h1 : nat_of_digits ['1'] = 1 := by decide
  have h2 : nat_of_digits ['1', '0'] = 10 := by decide
  have h3 : nat_of_digits ['1', '2'] = 12 := by decide
  have h4 : nat_of_digits ['1', '2', '0', '0'] = 1200 := by decide
  refine ⟨by decide, ?_, by decide, ?_, by decide, by decide⟩
  · rw [h1, h2]; norm_num
  · rw [h3, h4]; norm_num

/-- C19, the code at four failing inputs. On `0`, `0.0` and `abc` no digit is
stored, `mantissa_len` is 0 after the loop, and the trailing-zero loop reads
`mant[mantissa_len - 1]`, one byte before the caller's buffer. On `1e`
followed by 32 digits `exp_len` reaches 32 and the terminating NUL is written
to `exp[32]`, one byte past the local array of 32 bytes. -/
theorem take_apart_out_of_bounds :
    take_apart_fault (take_apart (cstr ['0']) scratch_mant scratch_exp) =
      some (access_fault.mant (-1)) ∧
    take_apart_fault (take_apart (cstr ['0', '.', '0']) scratch_mant scratch_exp) =
      some (access_fault.mant (-1)) ∧
    take_apart_fault (take_apart (cstr ['a', 'b', 'c']) scratch_mant scratch_exp) =
      some (access_fault.mant (-1)) ∧
    long_exp_text.length = 34 ∧
    take_apart_fault (take_apart (cstr long_exp_text) scratch_mant scratch_exp) =
      some (access_fault.exp 32) :=
  ⟨by decide, by decide, by decide, by decide, by decide⟩

end floaxie
